import Mathlib

/-!
# HTTP to MCP bridge (`main.go`): a verification development

The Go program accepts `POST /call`, turns the decoded request into a JSON-RPC
`tools/call` envelope, runs one backend process with that envelope on its standard
input, and relays the backend's output.

Modelling conventions.

* A Go `string` that the handler works with is a sequence of Unicode scalar values
  (`GoString`); what travels over a pipe or in an HTTP body is a sequence of bytes
  (`Bytes`, each element below 256).  The two are connected by UTF-8
  (`utf8Encode`, `utf8Decode`).
* `encoding/json` is modelled in two layers: the JSON document tree (`JSON`) with its
  compact text (`JSON.render`) and its reader (`parseValue`), and the Go values an
  `interface{}` holds after decoding (`GoValue`).
* The only floating-point operations involved, the shortest decimal text of a
  float64 and the float64 nearest to a decimal literal, are taken as parameters
  (`Strconv`).
* The operating system and the backend are an explicit input (`World`); the handler
  returns the HTTP response together with the list of effects it performed.
* Time is logical: the backend ends at a given instant or never, the deadline falls
  at a given instant, and `select` takes the case that becomes ready first
  (`selectBranch`).
* Functions that recurse on a bound (`parseValue`, `parseStringBody`,
  `utf8DecodeAux`, `randIntLoop`) are called with a bound that is never reached
  (`parseValue_bound_irrelevant` and its companions).
-/

namespace Bridge

/-! ## Strings and bytes -/

/-- A Go string holding well-formed UTF-8, as the sequence of its runes. -/
abbrev GoString := List Char

/-- A byte sequence; every element is meant to be below 256. -/
abbrev Bytes := List Nat

/-- Go `utf8.AppendRune` for one valid rune. -/
def encodeRune (c : Char) : Bytes :=
  let r := c.toNat
  if r < 0x80 then [r]
  else if r < 0x800 then [0xC0 + r / 64, 0x80 + r % 64]
  else if r < 0x10000 then [0xE0 + r / 4096, 0x80 + r / 64 % 64, 0x80 + r % 64]
  else [0xF0 + r / 262144, 0x80 + r / 4096 % 64, 0x80 + r / 64 % 64, 0x80 + r % 64]

/-- The bytes of a Go string (`[]byte(s)`). -/
def utf8Encode : GoString → Bytes
  | [] => []
  | c :: s => encodeRune c ++ utf8Encode s

/-- The replacement rune U+FFFD (`utf8.RuneError`). -/
def runeError : Nat := 0xFFFD

/-- Go `utf8.first` together with `acceptRanges`: for a leading byte, the length of
the sequence and the accepted range of the second byte; `none` for a byte that
cannot start a multi-byte sequence. -/
def leadInfo (p0 : Nat) : Option (Nat × Nat × Nat) :=
  if 0xC2 ≤ p0 ∧ p0 ≤ 0xDF then some (2, 0x80, 0xBF)
  else if p0 = 0xE0 then some (3, 0xA0, 0xBF)
  else if p0 = 0xED then some (3, 0x80, 0x9F)
  else if 0xE1 ≤ p0 ∧ p0 ≤ 0xEF then some (3, 0x80, 0xBF)
  else if p0 = 0xF0 then some (4, 0x90, 0xBF)
  else if 0xF1 ≤ p0 ∧ p0 ≤ 0xF3 then some (4, 0x80, 0xBF)
  else if p0 = 0xF4 then some (4, 0x80, 0x8F)
  else none

/-- A continuation byte (`locb ≤ b ≤ hicb`). -/
def isCont (b : Nat) : Bool := decide (0x80 ≤ b ∧ b ≤ 0xBF)

/-- Go `utf8.DecodeRune`: the first rune of `p` and its width in bytes; an invalid
or truncated sequence gives `(RuneError, 1)`, the empty input `(RuneError, 0)`. -/
def decodeRune : Bytes → Nat × Nat
  | [] => (runeError, 0)
  | p0 :: rest =>
    if p0 < 0x80 then (p0, 1)
    else match leadInfo p0 with
      | none => (runeError, 1)
      | some (sz, lo, hi) =>
        match rest with
        | [] => (runeError, 1)
        | b1 :: rest1 =>
          if b1 < lo ∨ hi < b1 then (runeError, 1)
          else if sz ≤ 2 then ((p0 % 32) * 64 + b1 % 64, 2)
          else match rest1 with
            | [] => (runeError, 1)
            | b2 :: rest2 =>
              if ¬ isCont b2 then (runeError, 1)
              else if sz ≤ 3 then ((p0 % 16) * 4096 + (b1 % 64) * 64 + b2 % 64, 3)
              else match rest2 with
                | [] => (runeError, 1)
                | b3 :: _ =>
                  if ¬ isCont b3 then (runeError, 1)
                  else ((p0 % 8) * 262144 + (b1 % 64) * 4096 + (b2 % 64) * 64 + b3 % 64, 4)

/-- Reading bytes as runes, one `decodeRune` at a time, the way the JSON decoder
coerces its input to well-formed UTF-8. -/
def utf8DecodeAux : Nat → Bytes → GoString
  | 0, _ => []
  | _ + 1, [] => []
  | fuel + 1, b :: bs =>
    let rs := decodeRune (b :: bs)
    Char.ofNat rs.1 :: utf8DecodeAux fuel ((b :: bs).drop rs.2)

/-- The runes of a byte sequence; each invalid byte becomes U+FFFD. -/
def utf8Decode (bs : Bytes) : GoString := utf8DecodeAux bs.length bs

/-! ## JSON number literals (the scanner's number states) -/

/-- The states of the `encoding/json` scanner while inside a number. -/
inductive NumState where
  | start   -- stateBeginValue, restricted to numbers
  | neg     -- stateNeg
  | zero    -- state0
  | int     -- state1
  | dot     -- stateDot
  | frac    -- stateDot0
  | e       -- stateE
  | eSign   -- stateESign
  | exp     -- stateE0
deriving DecidableEq, Repr

/-- An ASCII decimal digit. -/
def isDigit (c : Char) : Bool := decide (48 ≤ c.toNat ∧ c.toNat ≤ 57)

/-- A digit from 1 to 9. -/
def isDigit19 (c : Char) : Bool := decide (49 ≤ c.toNat ∧ c.toNat ≤ 57)

/-- One scanner step inside a number; `none` when the character does not continue
the number. -/
def NumState.step : NumState → Char → Option NumState
  | .start, c =>
    if c = '-' then some .neg else if c = '0' then some .zero
    else if isDigit19 c then some .int else none
  | .neg, c =>
    if c = '0' then some .zero else if isDigit19 c then some .int else none
  | .int, c =>
    if isDigit c then some .int
    else if c = '.' then some .dot else if c = 'e' ∨ c = 'E' then some .e else none
  | .zero, c =>
    if c = '.' then some .dot else if c = 'e' ∨ c = 'E' then some .e else none
  | .dot, c => if isDigit c then some .frac else none
  | .frac, c =>
    if isDigit c then some .frac else if c = 'e' ∨ c = 'E' then some .e else none
  | .e, c =>
    if c = '+' ∨ c = '-' then some .eSign else if isDigit c then some .exp else none
  | .eSign, c => if isDigit c then some .exp else none
  | .exp, c => if isDigit c then some .exp else none

/-- The states in which a number may end. -/
def NumState.accepting : NumState → Bool
  | .zero | .int | .frac | .exp => true
  | _ => false

/-- Running the number states over a whole text. -/
def NumState.run : NumState → List Char → Option NumState
  | st, [] => some st
  | st, c :: cs => match st.step c with
    | some st1 => NumState.run st1 cs
    | none => none

/-- The text is a JSON number. -/
def isNumber (s : List Char) : Bool :=
  match NumState.run .start s with
  | some st => st.accepting
  | none => false

/-- A JSON number literal. -/
abbrev NumLit := { s : List Char // isNumber s = true }

/-- The longest run of characters that continues a number from state `st`, the
state reached, and the rest of the input. -/
def scanNumber : NumState → List Char → List Char × List Char
  | _, [] => ([], [])
  | st, c :: cs => match st.step c with
    | some st1 => let r := scanNumber st1 cs; (c :: r.1, r.2)
    | none => ([], c :: cs)

/-! ## The JSON document tree and its compact text -/

/-- A JSON document. Numbers are kept as their literal text, objects as their
members in document order. -/
inductive JSON where
  | null
  | bool (b : Bool)
  | num (lit : NumLit)
  | str (s : GoString)
  | arr (xs : List JSON)
  | obj (ms : List (GoString × JSON))

/-- The lower-case hexadecimal digit of a value below 16 (the encoder's `hex` table). -/
def hexDigit (n : Nat) : Char :=
  if n < 10 then Char.ofNat (48 + n) else Char.ofNat (87 + n)

/-- What `appendString` (with HTML escaping, as `json.Marshal` uses it) writes for
one rune of a string. -/
def escapeRune (c : Char) : List Char :=
  if c = '\\' then ['\\', '\\']
  else if c = '"' then ['\\', '"']
  else if c = '\x08' then ['\\', 'b']
  else if c = '\x0c' then ['\\', 'f']
  else if c = '\n' then ['\\', 'n']
  else if c = '\r' then ['\\', 'r']
  else if c = '\t' then ['\\', 't']
  else if c.toNat < 0x20 ∨ c = '<' ∨ c = '>' ∨ c = '&' then
    ['\\', 'u', '0', '0', hexDigit (c.toNat / 16), hexDigit (c.toNat % 16)]
  else if c.toNat = 0x2028 ∨ c.toNat = 0x2029 then
    ['\\', 'u', '2', '0', '2', hexDigit (c.toNat % 16)]
  else [c]

/-- The escaped content of a string, without the surrounding quotes. -/
def escapeString : GoString → List Char
  | [] => []
  | c :: s => escapeRune c ++ escapeString s

/-- A JSON string literal. -/
def quote (s : GoString) : List Char := '"' :: (escapeString s ++ ['"'])

mutual
/-- The compact text of a document, as the encoder writes it. -/
def JSON.render : JSON → List Char
  | .null => ['n', 'u', 'l', 'l']
  | .bool true => ['t', 'r', 'u', 'e']
  | .bool false => ['f', 'a', 'l', 's', 'e']
  | .num lit => lit.val
  | .str s => quote s
  | .arr [] => ['[', ']']
  | .arr (x :: xs) => '[' :: (x.render ++ JSON.renderTail xs)
  | .obj [] => ['{', '}']
  | .obj ((k, v) :: ms) => '{' :: (quote k ++ ':' :: (v.render ++ JSON.renderMemTail ms))
/-- The remaining elements of an array, each preceded by a comma, and the closing
bracket. -/
def JSON.renderTail : List JSON → List Char
  | [] => [']']
  | x :: xs => ',' :: (x.render ++ JSON.renderTail xs)
/-- The remaining members of an object, each preceded by a comma, and the closing
brace. -/
def JSON.renderMemTail : List (GoString × JSON) → List Char
  | [] => ['}']
  | (k, v) :: ms => ',' :: (quote k ++ ':' :: (v.render ++ JSON.renderMemTail ms))
end

/-! ## Reading JSON text (the decoder's scanner and `unquote`) -/

/-- JSON white space. -/
def isWs (c : Char) : Bool := c = ' ' || c = '\t' || c = '\r' || c = '\n'

/-- Dropping leading white space. -/
def skipWs : List Char → List Char
  | [] => []
  | c :: cs => if isWs c then skipWs cs else c :: cs

/-- The value of a hexadecimal digit. -/
def hexVal (c : Char) : Option Nat :=
  let n := c.toNat
  if 48 ≤ n ∧ n ≤ 57 then some (n - 48)
  else if 97 ≤ n ∧ n ≤ 102 then some (n - 87)
  else if 65 ≤ n ∧ n ≤ 70 then some (n - 55)
  else none

/-- Go `getu4` on the four characters after a backslash and `u`. -/
def hex4 (a b c d : Char) : Option Nat :=
  match hexVal a, hexVal b, hexVal c, hexVal d with
  | some x, some y, some z, some w => some (x * 4096 + y * 256 + z * 16 + w)
  | _, _, _, _ => none

/-- A UTF-16 surrogate code unit. -/
def isSurrogate (u : Nat) : Bool := decide (0xD800 ≤ u ∧ u < 0xE000)

/-- Go `utf16.DecodeRune`: the rune of a surrogate pair, U+FFFD when the pair is
not valid. -/
def decodeSurrogates (hi lo : Nat) : Nat :=
  if 0xD800 ≤ hi ∧ hi < 0xDC00 ∧ 0xDC00 ≤ lo ∧ lo < 0xE000 then
    0x10000 + (hi - 0xD800) * 1024 + (lo - 0xDC00)
  else runeError

/-- The second half of a surrogate pair: after the escape of a surrogate `u`, another
escape that makes a valid pair with it gives the rune of the pair. -/
def surrogatePair (u : Nat) (r1 : List Char) : Option (Char × List Char) :=
  match r1 with
  | '\\' :: 'u' :: a2 :: b2 :: c2 :: d2 :: r2 =>
    match hex4 a2 b2 c2 d2 with
    | some u2 =>
      if decodeSurrogates u u2 ≠ runeError then
        some (Char.ofNat (decodeSurrogates u u2), r2)
      else none
    | none => none
  | _ => none

/-- The rune of an escape `\uXXXX`, given what follows the `u`. A valid surrogate
pair is consumed whole; a surrogate without its partner is replaced by U+FFFD. -/
def unicodeEscape (r : List Char) : Option (Char × List Char) :=
  match r with
  | a :: b :: c1 :: d :: r1 =>
    match hex4 a b c1 d with
    | none => none
    | some u =>
      if isSurrogate u then
        match surrogatePair u r1 with
        | some p => some p
        | none => some (Char.ofNat runeError, r1)
      else some (Char.ofNat u, r1)
  | _ => none

/-- The rune of a one-letter escape. -/
def escapeLetter (x : Char) : Option Char :=
  if x = '"' then some '"' else if x = '\\' then some '\\'
  else if x = '/' then some '/' else if x = 'b' then some '\x08'
  else if x = 'f' then some '\x0c' else if x = 'n' then some '\n'
  else if x = 'r' then some '\r' else if x = 't' then some '\t'
  else none

/-- One rune of a string body that starts with `c` (not the closing quote): an
escape, or the character itself unless it is a control character. Returns the rune
and the rest of the input. -/
def stringItem (c : Char) (cs : List Char) : Option (Char × List Char) :=
  if c = '\\' then
    match cs with
    | [] => none
    | x :: r =>
      if x = 'u' then unicodeEscape r
      else
        match escapeLetter x with
        | none => none
        | some y => some (y, r)
  else if c.toNat < 0x20 then none
  else some (c, cs)

/-- The content of a string literal after its opening quote, up to and including
the closing quote (scanner states `stateInString`, `stateInStringEsc*` and
`unquote`); returns the string and the rest of the input. -/
def parseStringBody : Nat → List Char → Option (GoString × List Char)
  | 0, _ => none
  | _ + 1, [] => none
  | fuel + 1, c :: cs =>
    if c = '"' then some ([], cs)
    else
      match stringItem c cs with
      | none => none
      | some (y, r) =>
        match parseStringBody fuel r with
        | none => none
        | some (k, r1) => some (y :: k, r1)

/-- A string literal whose opening quote has been read. -/
def parseString (s : List Char) : Option (GoString × List Char) :=
  parseStringBody s.length s

/-- The rest of the input after the characters `lit`, when the input goes on with
exactly these (the scanner's states for `true`, `false` and `null`). -/
def expect : List Char → List Char → Option (List Char)
  | [], r => some r
  | _ :: _, [] => none
  | a :: lit, c :: r => if c = a then expect lit r else none

mutual
/-- One JSON value at the head of the input (leading white space allowed); returns
the document and the rest of the input. The first argument bounds the number of
nested calls. -/
def parseValue : Nat → List Char → Option (JSON × List Char)
  | 0, _ => none
  | fuel + 1, s =>
    match skipWs s with
    | [] => none
    | c :: r =>
      if c = '{' then
        match skipWs r with
        | [] => none
        | c1 :: r1 =>
          if c1 = '}' then some (.obj [], r1)
          else if c1 = '"' then
            match parseString r1 with
            | none => none
            | some (k, r2) =>
              match skipWs r2 with
              | [] => none
              | c3 :: r3 =>
                if c3 = ':' then
                  match parseValue fuel r3 with
                  | none => none
                  | some (v, r4) =>
                    match parseMemTail fuel r4 with
                    | none => none
                    | some (ms, r5) => some (.obj ((k, v) :: ms), r5)
                else none
          else none
      else if c = '[' then
        match skipWs r with
        | [] => none
        | c1 :: r1 =>
          if c1 = ']' then some (.arr [], r1)
          else
            match parseValue fuel (c1 :: r1) with
            | none => none
            | some (v, r2) =>
              match parseTail fuel r2 with
              | none => none
              | some (vs, r3) => some (.arr (v :: vs), r3)
      else if c = '"' then
        match parseString r with
        | none => none
        | some (str, r1) => some (.str str, r1)
      else if c = 't' then
        match expect ['r', 'u', 'e'] r with
        | some r1 => some (.bool true, r1)
        | none => none
      else if c = 'f' then
        match expect ['a', 'l', 's', 'e'] r with
        | some r1 => some (.bool false, r1)
        | none => none
      else if c = 'n' then
        match expect ['u', 'l', 'l'] r with
        | some r1 => some (.null, r1)
        | none => none
      else
        let t := scanNumber .start (c :: r)
        if h : isNumber t.1 = true then some (.num ⟨t.1, h⟩, t.2) else none
/-- After an array element: a comma and another element, or the closing bracket. -/
def parseTail : Nat → List Char → Option (List JSON × List Char)
  | 0, _ => none
  | fuel + 1, s =>
    match skipWs s with
    | [] => none
    | c :: r =>
      if c = ',' then
        match parseValue fuel r with
        | none => none
        | some (v, r1) =>
          match parseTail fuel r1 with
          | none => none
          | some (vs, r2) => some (v :: vs, r2)
      else if c = ']' then some ([], r)
      else none
/-- After an object member: a comma and another member, or the closing brace. -/
def parseMemTail : Nat → List Char → Option (List (GoString × JSON) × List Char)
  | 0, _ => none
  | fuel + 1, s =>
    match skipWs s with
    | [] => none
    | c :: r =>
      if c = ',' then
        match skipWs r with
        | [] => none
        | c1 :: r1 =>
          if c1 = '"' then
            match parseString r1 with
            | none => none
            | some (k, r2) =>
              match skipWs r2 with
              | [] => none
              | c3 :: r3 =>
                if c3 = ':' then
                  match parseValue fuel r3 with
                  | none => none
                  | some (v, r4) =>
                    match parseMemTail fuel r4 with
                    | none => none
                    | some (ms, r5) => some ((k, v) :: ms, r5)
                else none
          else none
      else if c = '}' then some ([], r)
      else none
end



/-! ## Go values and `encoding/json` on them -/

/-- What an `interface{}` holds. The first six kinds are the ones the decoder
produces; `unsupported` stands for a value of a kind `json.Marshal` rejects (a
channel, a function, a complex number), named by its Go type. A float64 is its 64-bit
pattern; a map is the list of its entries, with distinct keys. -/
inductive GoValue where
  | nil
  | bool (b : Bool)
  | float64 (bits : Nat)
  | string (s : GoString)
  | slice (xs : List GoValue)
  | map (m : List (GoString × GoValue))
  | unsupported (typeName : GoString)

/-- A failure of `Decoder.Decode`. -/
inductive DecodeError where
  | syntaxError    -- malformed or missing JSON text (SyntaxError, EOF)
  | maxDepth       -- nesting deeper than the scanner allows
  | typeMismatch   -- UnmarshalTypeError
deriving DecidableEq, Repr

/-- The exponent field of a float64 is not all ones: the value is neither an
infinity nor a NaN. -/
def isFinite (bits : Nat) : Bool := decide (bits / 2 ^ 52 % 2048 ≠ 2047)

/-- A finite float64, by its bit pattern. -/
abbrev FiniteFloat := { bits : Nat // isFinite bits = true }

/-- Library behaviour that is left open: the float64 conversions of `strconv` as
`encoding/json` calls them, and the wording of a decoder error. -/
structure Lib where
  /-- The text the encoder writes for a finite float64 (`floatEncoder`). -/
  formatFloat : Nat → NumLit
  /-- The float64 for a number literal (`strconv.ParseFloat`): a finite value, or
  `none` when the literal is out of range. -/
  parseFloat : NumLit → Option FiniteFloat
  /-- The text of `err.Error()` for a decoder error. -/
  errorText : DecodeError → GoString

/-- How `strconv.FormatFloat(f, 'g', -1, 64)` names a float64 that is not finite. -/
def nonFiniteName (bits : Nat) : GoString :=
  if bits % 2 ^ 52 ≠ 0 then "NaN".toList
  else if bits / 2 ^ 63 % 2 = 1 then "-Inf".toList else "+Inf".toList

/-- Byte-wise order of two strings (`a < b` in Go); on well-formed UTF-8 it is the
order of the rune sequences. -/
def strLt : GoString → GoString → Bool
  | [], [] => false
  | [], _ :: _ => true
  | _ :: _, [] => false
  | a :: s, b :: t =>
    if a.toNat < b.toNat then true
    else if b.toNat < a.toNat then false
    else strLt s t

/-- Inserting an entry into a list of entries sorted by key. -/
def insertByKey {α : Type} (k : GoString) (v : α) : List (GoString × α) → List (GoString × α)
  | [] => [(k, v)]
  | (k1, v1) :: ms =>
    if strLt k k1 then (k, v) :: (k1, v1) :: ms else (k1, v1) :: insertByKey k v ms

/-- The entries of a map in the order the encoder writes them: sorted by key. -/
def sortByKey {α : Type} : List (GoString × α) → List (GoString × α)
  | [] => []
  | (k, v) :: ms => insertByKey k v (sortByKey ms)

/-- The members in order, unless one of the values failed: then the first failure. -/
def collectMembers : List (GoString × Except GoString JSON) →
    Except GoString (List (GoString × JSON))
  | [] => .ok []
  | (_, .error e) :: _ => .error e
  | (k, .ok j) :: ms =>
    match collectMembers ms with
    | .error e => .error e
    | .ok js => .ok ((k, j) :: js)

mutual
/-- The document `json.Marshal` writes for a value, or the error it returns. -/
def GoValue.toJSON (lib : Lib) : GoValue → Except GoString JSON
  | .nil => .ok .null
  | .bool b => .ok (.bool b)
  | .float64 bits =>
    if isFinite bits then .ok (.num (lib.formatFloat bits))
    else .error ("json: unsupported value: ".toList ++ nonFiniteName bits)
  | .string s => .ok (.str s)
  | .slice xs =>
    match GoValue.toJSONList lib xs with
    | .error e => .error e
    | .ok js => .ok (.arr js)
  | .map m =>
    match collectMembers (sortByKey (GoValue.toJSONEntries lib m)) with
    | .error e => .error e
    | .ok js => .ok (.obj js)
  | .unsupported typeName => .error ("json: unsupported type: ".toList ++ typeName)
/-- The elements of a slice, in order, up to the first failure. -/
def GoValue.toJSONList (lib : Lib) : List GoValue → Except GoString (List JSON)
  | [] => .ok []
  | x :: xs =>
    match x.toJSON lib with
    | .error e => .error e
    | .ok j =>
      match GoValue.toJSONList lib xs with
      | .error e => .error e
      | .ok js => .ok (j :: js)
/-- Each entry of a map with the outcome of encoding its value. -/
def GoValue.toJSONEntries (lib : Lib) :
    List (GoString × GoValue) → List (GoString × Except GoString JSON)
  | [] => []
  | (k, v) :: m => (k, v.toJSON lib) :: GoValue.toJSONEntries lib m
end

/-- Assigning `m[k] = v` on a map given by its entries. -/
def mapSet (m : List (GoString × GoValue)) (k : GoString) (v : GoValue) :
    List (GoString × GoValue) :=
  match m with
  | [] => [(k, v)]
  | (k1, v1) :: rest => if k1 = k then (k, v) :: rest else (k1, v1) :: mapSet rest k v

/-- Assigning the entries in order, so that a later duplicate key wins. -/
def mapSetAll (m : List (GoString × GoValue)) : List (GoString × GoValue) →
    List (GoString × GoValue)
  | [] => m
  | (k, v) :: kvs => mapSetAll (mapSet m k v) kvs

mutual
/-- Decoding a document into an `interface{}`; `none` when a number is out of the
float64 range (an UnmarshalTypeError). -/
def GoValue.ofJSON (lib : Lib) : JSON → Option GoValue
  | .null => some .nil
  | .bool b => some (.bool b)
  | .num lit =>
    match lib.parseFloat lit with
    | none => none
    | some f => some (.float64 f.val)
  | .str s => some (.string s)
  | .arr xs =>
    match GoValue.ofJSONList lib xs with
    | none => none
    | some vs => some (.slice vs)
  | .obj ms =>
    match GoValue.ofJSONMembers lib ms with
    | none => none
    | some kvs => some (.map (mapSetAll [] kvs))
/-- Decoding the elements of an array. -/
def GoValue.ofJSONList (lib : Lib) : List JSON → Option (List GoValue)
  | [] => some []
  | x :: xs =>
    match GoValue.ofJSON lib x, GoValue.ofJSONList lib xs with
    | some v, some vs => some (v :: vs)
    | _, _ => none
/-- Decoding the members of an object, in document order. -/
def GoValue.ofJSONMembers (lib : Lib) :
    List (GoString × JSON) → Option (List (GoString × GoValue))
  | [] => some []
  | (k, x) :: ms =>
    match GoValue.ofJSON lib x, GoValue.ofJSONMembers lib ms with
    | some v, some kvs => some ((k, v) :: kvs)
    | _, _ => none
end

mutual
/-- A value of the kinds the decoder produces: no unsupported kind inside, and every
float64 finite. -/
def GoValue.plain : GoValue → Bool
  | .nil => true
  | .bool _ => true
  | .float64 bits => isFinite bits
  | .string _ => true
  | .slice xs => GoValue.plainList xs
  | .map m => GoValue.plainEntries m
  | .unsupported _ => false
/-- All elements are plain. -/
def GoValue.plainList : List GoValue → Bool
  | [] => true
  | x :: xs => x.plain && GoValue.plainList xs
/-- All entry values are plain. -/
def GoValue.plainEntries : List (GoString × GoValue) → Bool
  | [] => true
  | (_, v) :: m => v.plain && GoValue.plainEntries m
end

/-- No two entries have the same key, as in any Go map. -/
def keysDistinct {α : Type} (m : List (GoString × α)) : Bool :=
  decide ((m.map Prod.fst).Nodup)

mutual
/-- A value all of whose maps, at any depth, have distinct keys: the lists that stand
for Go maps. -/
def GoValue.wellFormed : GoValue → Bool
  | .nil => true
  | .bool _ => true
  | .float64 _ => true
  | .string _ => true
  | .slice xs => GoValue.wellFormedList xs
  | .map m => keysDistinct m && GoValue.wellFormedEntries m
  | .unsupported _ => true
/-- All elements are well formed. -/
def GoValue.wellFormedList : List GoValue → Bool
  | [] => true
  | x :: xs => x.wellFormed && GoValue.wellFormedList xs
/-- All entry values are well formed. -/
def GoValue.wellFormedEntries : List (GoString × GoValue) → Bool
  | [] => true
  | (_, v) :: m => v.wellFormed && GoValue.wellFormedEntries m
end

mutual
/-- The same value with the entries of every map, at any depth, listed in key order.
A Go map has no order of its own, so this is the same Go value, in the one listing
that does not depend on the order the entries were given in. -/
def GoValue.canon : GoValue → GoValue
  | .nil => .nil
  | .bool b => .bool b
  | .float64 bits => .float64 bits
  | .string s => .string s
  | .slice xs => .slice (GoValue.canonList xs)
  | .map m => .map (sortByKey (GoValue.canonEntries m))
  | .unsupported t => .unsupported t
/-- The elements, each in its canonical listing. -/
def GoValue.canonList : List GoValue → List GoValue
  | [] => []
  | x :: xs => x.canon :: GoValue.canonList xs
/-- The entries in the given order, each value in its canonical listing. -/
def GoValue.canonEntries : List (GoString × GoValue) → List (GoString × GoValue)
  | [] => []
  | (k, v) :: m => (k, v.canon) :: GoValue.canonEntries m
end

/-- The argument map, when it is not nil, is well formed. -/
def wellFormedArgs (args : Option (List (GoString × GoValue))) : Bool :=
  match args with
  | none => true
  | some m => GoValue.wellFormed (.map m)

/-- The float64 conversions agree with each other: the text written for a finite
float64 is read back as that float64 (the shortest text `strconv` writes identifies
the value). -/
def Lib.RoundTrips (lib : Lib) : Prop :=
  ∀ f : FiniteFloat, lib.parseFloat (lib.formatFloat f.val) = some f

/-- The argument map holds plain values only. -/
def plainArgs (args : Option (List (GoString × GoValue))) : Bool :=
  match args with
  | none => true
  | some m => GoValue.plainEntries m

mutual
/-- How deeply arrays and objects are nested in a document. -/
def JSON.depth : JSON → Nat
  | .arr xs => 1 + JSON.depthList xs
  | .obj ms => 1 + JSON.depthMembers ms
  | _ => 0
/-- The greatest depth among the elements. -/
def JSON.depthList : List JSON → Nat
  | [] => 0
  | x :: xs => max x.depth (JSON.depthList xs)
/-- The greatest depth among the member values. -/
def JSON.depthMembers : List (GoString × JSON) → Nat
  | [] => 0
  | (_, v) :: ms => max v.depth (JSON.depthMembers ms)
end

/-- The scanner's `maxNestingDepth`. -/
def maxNestingDepth : Nat := 10000

/-- One whole JSON text (`json.Unmarshal` into an `interface{}` kept as a document):
a single value, with nothing but white space after it. -/
def JSON.decode (s : List Char) : Option JSON :=
  match parseValue s.length s with
  | none => none
  | some (v, rest) => if skipWs rest = [] then some v else none

/-- Decoding a byte sequence as one JSON text. -/
def jsonDecode (bs : Bytes) : Option JSON := JSON.decode (utf8Decode bs)

/-! ## The request body -/

/-- Request body expected from the HTTP client (`callRequestBody`). A nil map is
`none`. -/
structure callRequestBody where
  Tool : GoString
  Arguments : Option (List (GoString × GoValue))
  ServerCmd : GoString
  GithubPAT : GoString

/-- The zero value `var body callRequestBody`. -/
def callRequestBody.zero : callRequestBody :=
  { Tool := [], Arguments := none, ServerCmd := [], GithubPAT := [] }

/-- Go `foldName` on one rune, for the runes whose fold is an ASCII letter: the
lower-case letters, U+017F (long s) and U+212A (Kelvin sign). No other rune folds
into ASCII, so comparing the folds of a key and of an ASCII field name is exact. -/
def foldRune (c : Char) : Char :=
  let n := c.toNat
  if 97 ≤ n ∧ n ≤ 122 then Char.ofNat (n - 32)
  else if n = 0x17F then 'S'
  else if n = 0x212A then 'K'
  else c

/-- The folded form of a member name. -/
def foldName (s : GoString) : GoString := s.map foldRune

/-- Decoding a member value into a `string` field. -/
def decodeStringField (j : JSON) (old : GoString) : Except DecodeError GoString :=
  match j with
  | .str s => .ok s
  | .null => .ok old
  | _ => .error .typeMismatch

/-- Decoding a member value into the `map[string]interface{}` field: an object is
merged into the map already there, `null` resets it to nil. -/
def decodeMapField (lib : Lib) (j : JSON) (old : Option (List (GoString × GoValue))) :
    Except DecodeError (Option (List (GoString × GoValue))) :=
  match j with
  | .obj ms =>
    match GoValue.ofJSONMembers lib ms with
    | none => .error .typeMismatch
    | some kvs => .ok (some (mapSetAll (old.getD []) kvs))
  | .null => .ok none
  | _ => .error .typeMismatch

/-- Decoding the members of the body object into the struct, in document order. A
member name selects the field whose JSON name it matches, ignoring case; other
members are skipped. -/
def decodeFields (lib : Lib) : List (GoString × JSON) → callRequestBody →
    Except DecodeError callRequestBody
  | [], b => .ok b
  | (k, v) :: ms, b =>
    let fk := foldName k
    if fk = "TOOL".toList then
      match decodeStringField v b.Tool with
      | .error e => .error e
      | .ok s => decodeFields lib ms { b with Tool := s }
    else if fk = "ARGUMENTS".toList then
      match decodeMapField lib v b.Arguments with
      | .error e => .error e
      | .ok m => decodeFields lib ms { b with Arguments := m }
    else if fk = "SERVER_CMD".toList then
      match decodeStringField v b.ServerCmd with
      | .error e => .error e
      | .ok s => decodeFields lib ms { b with ServerCmd := s }
    else if fk = "GITHUB_PAT".toList then
      match decodeStringField v b.GithubPAT with
      | .error e => .error e
      | .ok s => decodeFields lib ms { b with GithubPAT := s }
    else decodeFields lib ms b

/-- Lines 66-67, `json.NewDecoder(r.Body).Decode(&body)`: the first JSON value of the
body is read (what follows it is not looked at) and stored into a zero
`callRequestBody`. -/
def decodeBody (lib : Lib) (body : Bytes) : Except DecodeError callRequestBody :=
  let text := utf8Decode body
  match parseValue text.length text with
  | none => .error .syntaxError
  | some (j, _) =>
    if maxNestingDepth < j.depth then .error .maxDepth
    else
      match j with
      | .obj ms => decodeFields lib ms callRequestBody.zero
      | .null => .ok callRequestBody.zero
      | _ => .error .typeMismatch

/-! ## The payload builder -/

/-- Go `big.Int.SetBytes`: the big-endian value of a byte sequence. -/
def fromBytes (bs : Bytes) : Nat := bs.foldl (fun acc b => acc * 256 + b % 256) 0

/-- Go `io.ReadFull` of `k` bytes from the random reader. The reader is an endless
byte stream given by a finite beginning; beyond it the stream holds zero bytes. -/
def readFull (reader : Bytes) (k : Nat) : Bytes × Bytes :=
  (reader.take k ++ List.replicate (k - reader.length) 0, reader.drop k)

/-- Clearing the high bits of the first byte (`bytes[0] &= uint8(int(1<<b) - 1)`). -/
def maskFirst (b : Nat) : Bytes → Bytes
  | [] => []
  | x :: xs => (x % 256 % 2 ^ b) :: xs

/-- The loop of `crypto/rand.Int`: draw `k` bytes, mask, accept a candidate below
`max`. The first argument bounds the number of draws. -/
def randIntLoop (max k b : Nat) : Nat → Bytes → Nat
  | 0, _ => 0
  | fuel + 1, reader =>
    let d := readFull reader k
    let n := fromBytes (maskFirst b d.1)
    if n < max then n else randIntLoop max k b fuel d.2

/-- The number of binary digits of `n`, counted in at most `fuel` halvings. -/
def bitLenAux : Nat → Nat → Nat
  | 0, _ => 0
  | fuel + 1, n => if n = 0 then 0 else 1 + bitLenAux fuel (n / 2)

/-- Go `big.Int.BitLen` of a non-negative integer. -/
def bitLen (n : Nat) : Nat := bitLenAux n n

/-- Go `crypto/rand.Int(reader, max)` for a positive `max`. Every draw consumes at
least one byte and a draw of zero bytes is accepted, so `reader.length + 1` draws
are never used up. -/
def randInt (reader : Bytes) (max : Nat) : Nat :=
  let bits := bitLen (max - 1)
  if bits = 0 then 0
  else
    let k := (bits + 7) / 8
    let b := if bits % 8 = 0 then 8 else bits % 8
    randIntLoop max k b (reader.length + 1) reader

/-- The conversion `int(n.Int64())` of a non-negative big integer: its low 64 bits
read as a signed integer. -/
def toInt64 (n : Nat) : Int :=
  if n % 2 ^ 64 < 2 ^ 63 then (n % 2 ^ 64 : Nat) else (n % 2 ^ 64 : Nat) - 2 ^ 64

/-- Lines 43-46, `randomID`. -/
def randomID (reader : Bytes) : Int := toInt64 (randInt reader 1000000)

/-- The JSON-RPC parameters (`requestParams`). -/
structure requestParams where
  Name : GoString
  Arguments : Option (List (GoString × GoValue))

/-- JSON-RPC request structure used by the MCP server (`jsonRPCRequest`). -/
structure jsonRPCRequest where
  JSONRPC : GoString
  ID : Int
  Method : GoString
  Params : requestParams

/-- Go `len(m)` of a map that may be nil. -/
def mapLen (m : Option (List (GoString × GoValue))) : Nat :=
  match m with
  | none => 0
  | some kvs => kvs.length

/-- The decimal text of an integer (`strconv.AppendInt(b, i, 10)`). -/
def intText (i : Int) : List Char :=
  if i < 0 then '-' :: Nat.toDigits 10 i.natAbs else Nat.toDigits 10 i.natAbs

/-- The number literal the encoder writes for an `int` field. The decimal text of an
integer is always a number literal (`isNumber_intText`), so the second branch is
never taken. -/
def formatInt (i : Int) : NumLit :=
  if h : isNumber (intText i) = true then ⟨intText i, h⟩ else ⟨['0'], by decide⟩

/-- The document the encoder writes for `requestParams`: `name`, then `arguments`
unless the map is empty (`omitempty`). -/
def requestParams.toJSON (lib : Lib) (p : requestParams) : Except GoString JSON :=
  match p.Arguments with
  | none => .ok (.obj [("name".toList, .str p.Name)])
  | some m =>
    if m.length = 0 then .ok (.obj [("name".toList, .str p.Name)])
    else
      match GoValue.toJSON lib (.map m) with
      | .error e => .error e
      | .ok j => .ok (.obj [("name".toList, .str p.Name), ("arguments".toList, j)])

/-- The document the encoder writes for `jsonRPCRequest`, fields in declaration
order. -/
def jsonRPCRequest.toJSON (lib : Lib) (r : jsonRPCRequest) : Except GoString JSON :=
  match r.Params.toJSON lib with
  | .error e => .error e
  | .ok p =>
    .ok (.obj [("jsonrpc".toList, .str r.JSONRPC), ("id".toList, .num (formatInt r.ID)),
      ("method".toList, .str r.Method), ("params".toList, p)])

/-- Go `json.Marshal(rpc)`: the bytes of the compact text, or the encoder's error. -/
def jsonMarshal (lib : Lib) (r : jsonRPCRequest) : Except GoString Bytes :=
  match r.toJSON lib with
  | .error e => .error e
  | .ok j => .ok (utf8Encode j.render)

/-- Lines 48-59, `buildJSONRPCPayload`; `reader` is what `rand.Reader` yields. -/
def buildJSONRPCPayload (lib : Lib) (reader : Bytes) (tool : GoString)
    (args : Option (List (GoString × GoValue))) : Except GoString Bytes :=
  let rpc : jsonRPCRequest :=
    { JSONRPC := "2.0".toList
      ID := randomID reader
      Method := "tools/call".toList
      Params := { Name := tool, Arguments := args } }
  jsonMarshal lib rpc

/-! ## Command line and environment -/

/-- Go `unicode.IsSpace`. -/
def isSpaceRune (c : Char) : Bool :=
  let n := c.toNat
  decide ((0x09 ≤ n ∧ n ≤ 0x0D) ∨ n = 0x20 ∨ n = 0x85 ∨ n = 0xA0 ∨ n = 0x1680
    ∨ (0x2000 ≤ n ∧ n ≤ 0x200A) ∨ n = 0x2028 ∨ n = 0x2029 ∨ n = 0x202F ∨ n = 0x205F
    ∨ n = 0x3000)

/-- The tokens of `s` after the runes already collected in `cur`. -/
def fieldsAux : GoString → GoString → List GoString
  | [], cur => if cur = [] then [] else [cur]
  | c :: cs, cur =>
    if isSpaceRune c then
      if cur = [] then fieldsAux cs [] else cur :: fieldsAux cs []
    else fieldsAux cs (cur ++ [c])

/-- Go `strings.Fields`: the maximal runs of runes that are not white space. -/
def strings.Fields (s : GoString) : List GoString := fieldsAux s []

/-- The name of the variable the backend reads its token from. -/
def tokenVar : GoString := "GITHUB_PERSONAL_ACCESS_TOKEN".toList

/-- Lines 108-112: the environment given to the backend. -/
def backendEnv (environ : List GoString) (githubPAT : GoString) : List GoString :=
  if githubPAT ≠ [] then environ ++ [tokenVar ++ '=' :: githubPAT] else environ

/-- An environment entry `key=value`, split at its first `=`. -/
def splitEntry : GoString → Option (GoString × GoString)
  | [] => none
  | c :: cs =>
    if c = '=' then some ([], cs)
    else match splitEntry cs with
      | none => none
      | some (k, v) => some (c :: k, v)

/-- Looking a variable up in an environment list where the last entry for a key is
the one in force (as `os/exec` resolves duplicates). -/
def lookupEnv (key : GoString) : List GoString → Option GoString
  | [] => none
  | e :: es =>
    match lookupEnv key es with
    | some v => some v
    | none =>
      match splitEntry e with
      | some (k, v) => if k = key then some v else none
      | none => none

/-- The entry holds a NUL (`strings.IndexByte(kv, 0) != -1`). -/
def hasNul (kv : GoString) : Bool := decide (Char.ofNat 0 ∈ kv)

/-- Go `strings.Index(s, "=")`. -/
def indexEq : GoString → Option Nat
  | [] => none
  | c :: cs =>
    if c = '=' then some 0
    else match indexEq cs with
      | none => none
      | some i => some (i + 1)

/-- The key `os/exec` takes an environment entry to have: what precedes its first
`=`, a leading `=` being counted as part of the key; `none` for an entry without
`=`. -/
def envKey (kv : GoString) : Option GoString :=
  match indexEq kv with
  | none => none
  | some 0 =>
    match indexEq kv.tail with
    | none => some []
    | some j => some (kv.take (j + 1))
  | some (i + 1) => some (kv.take (i + 1))

/-- The loop of `dedupEnvCase` in `os/exec`, over the entries from the last to the
first: an entry with a NUL is dropped, an entry without `=` is kept unless it is
empty, and an entry with a key is kept unless a later entry had that key. `saw` holds
the keys met, `out` the entries kept, in their original order. -/
def dedupLoop : List GoString → List GoString → List GoString → List GoString
  | [], _, out => out
  | kv :: rest, saw, out =>
    if hasNul kv then dedupLoop rest saw out
    else
      match envKey kv with
      | none => if kv = [] then dedupLoop rest saw out else dedupLoop rest saw (kv :: out)
      | some k =>
        if k ∈ saw then dedupLoop rest saw out
        else dedupLoop rest (k :: saw) (kv :: out)

/-- Go `dedupEnv` of `os/exec` (on a system other than Windows): the entries with
duplicates removed in favour of later values. -/
def dedupEnv (env : List GoString) : List GoString := dedupLoop env.reverse [] []

/-! ## The handler -/

/-- A command as handed to `exec.CommandContext`, with its environment. -/
structure Cmd where
  name : GoString
  args : List GoString
  env : List GoString

/-- The environment the started process receives: `cmd.Start()` passes `cmd.Env`
through `dedupEnv` (`Cmd.environ`; on Unix nothing is added to the result). When an
entry holds a NUL, `dedupEnv` reports an error besides and `cmd.Start()` fails with
it, which is one of the failures of `World.start`: no process is started then. -/
def processEnv (cmd : Cmd) : List GoString := dedupEnv cmd.env

/-- How a backend process ends when it is left alone. -/
inductive ProcExit where
  | exited (status : Nat)      -- the process exited with this status
  | failed (desc : GoString)   -- `cmd.Wait` reports another error, with this text

/-- What one run of the backend does when it is left alone: what it has written by
the time it ends, and when and how it ends, that is, when `cmd.Wait()` returns and
with what (`none`: it does not end by itself). Times count from the creation of the
request's deadline scope. -/
structure Run where
  stdout : Bytes
  stderr : Bytes
  exit : Option (Nat × ProcExit)

/-- Everything outside the handler that its behaviour depends on. -/
structure World where
  /-- `os.Environ()`. -/
  environ : List GoString
  /-- The bytes `rand.Reader` yields. -/
  random : Bytes
  /-- The error of `cmd.StdinPipe()`, if it fails. -/
  stdinPipe : Option GoString
  /-- The error of `cmd.Start()`, if it fails (the executable is not found, the
  deadline has passed, an environment entry holds a NUL, and so on). -/
  start : Cmd → Option GoString
  /-- The backend's behaviour on the bytes written to its standard input. -/
  run : Cmd → Bytes → Run
  /-- When the incoming request's context is cancelled, if it is. -/
  cancelAt : Option Nat
  /-- Which case `select` takes when both are ready: `true` for the exit. -/
  exitWinsTie : Bool

/-- An HTTP response. -/
structure Response where
  status : Nat
  contentType : GoString
  body : Bytes

/-- The effects of one call of the handler, in order. -/
inductive Event where
  | buildPayload                  -- `buildJSONRPCPayload` was called
  | start (cmd : Cmd)             -- `cmd.Start()` was called
  | stdinWrite (bs : Bytes)       -- `stdin.Write(bs)`
  | stdinClose                    -- `stdin.Close()`
  | kill                          -- `cmd.Process.Kill()`

/-- Go `http.Error(w, msg, code)`. -/
def httpError (msg : Bytes) (code : Nat) : Response :=
  { status := code, contentType := "text/plain; charset=utf-8".toList, body := msg ++ [10] }

/-- The error `cmd.Wait()` returns. -/
def waitError : ProcExit → Option GoString
  | .exited 0 => none
  | .exited (n + 1) => some ("exit status ".toList ++ Nat.toDigits 10 (n + 1))
  | .failed desc => some desc

/-- When `ctx2.Done()` becomes ready: `timeout` after the scope was created
(at once for a duration that is not positive), or when the request is cancelled if
that is earlier. -/
def deadlineAt (timeout : Int) (cancelAt : Option Nat) : Nat :=
  match cancelAt with
  | none => timeout.toNat
  | some c => min timeout.toNat c

/-- The case of the `select` statement that is taken. -/
inductive Branch where
  | exited     -- `case err := <-done`
  | ctxDone    -- `case <-ctx2.Done()`
deriving DecidableEq, Repr

/-- Lines 135-146: `select` takes the case that becomes ready first. -/
def selectBranch (exit : Option (Nat × ProcExit)) (deadline : Nat) (exitWinsTie : Bool) :
    Branch :=
  match exit with
  | none => .ctxDone
  | some (t, _) =>
    if t < deadline then .exited
    else if deadline < t then .ctxDone
    else if exitWinsTie then .exited else .ctxDone

/-- Lines 131-151: wait for completion or timeout, then respond. Returns the
response and the effects of this part. -/
def awaitBackend (r : Run) (deadline : Nat) (exitWinsTie : Bool) : Response × List Event :=
  match selectBranch r.exit deadline exitWinsTie, r.exit with
  | .exited, some (_, ex) =>
    match waitError ex with
    | some err =>
      -- include child's stderr for debugging
      (httpError (utf8Encode ("subprocess error: ".toList ++ err ++ ", stderr: ".toList)
        ++ r.stderr) 500, [])
    | none =>
      -- success: proxy stdout as JSON to caller
      ({ status := 200, contentType := "application/json".toList, body := r.stdout }, [])
  | _, _ => (httpError (utf8Encode "subprocess timed out".toList) 504, [.kill])

/-- Lines 61-152, `callHandler`: the response to one request and the effects
performed. -/
def callHandler (lib : Lib) (defaultServerCmd : GoString) (timeout : Int) (w : World)
    (reqBody : Bytes) : Response × List Event :=
  -- decode request body
  match decodeBody lib reqBody with
  | .error e =>
    (httpError (utf8Encode ("invalid JSON body: ".toList ++ lib.errorText e)) 400, [])
  | .ok body =>
    if body.Tool = [] then
      (httpError (utf8Encode "`tool` is required (e.g. create_issue)".toList) 400, [])
    else
      -- build JSON-RPC payload
      match buildJSONRPCPayload lib w.random body.Tool body.Arguments with
      | .error err =>
        (httpError (utf8Encode ("failed to marshal jsonrpc payload: ".toList ++ err)) 500,
          [.buildPayload])
      | .ok payload =>
        -- choose server command, parse command string
        match strings.Fields (if body.ServerCmd ≠ [] then body.ServerCmd
            else defaultServerCmd) with
        | [] => (httpError (utf8Encode "invalid server command".toList) 500, [.buildPayload])
        | cmdName :: cmdArgs =>
          -- pass environment; optionally override token for this request
          let cmd : Cmd :=
            { name := cmdName, args := cmdArgs, env := backendEnv w.environ body.GithubPAT }
          match w.stdinPipe with
          | some err =>
            (httpError (utf8Encode ("failed to open stdin pipe: ".toList ++ err)) 500,
              [.buildPayload])
          | none =>
            -- start child process (nothing has been captured in `stderr` when it fails)
            match w.start cmd with
            | some err =>
              (httpError (utf8Encode ("failed to start subprocess: ".toList ++ err
                  ++ " stderr:".toList)) 500,
                [.buildPayload, .start cmd])
            | none =>
              -- write payload and close stdin, then wait
              let out := awaitBackend (w.run cmd (payload ++ [10]))
                (deadlineAt timeout w.cancelAt) w.exitWinsTie
              (out.1, [.buildPayload, .start cmd, .stdinWrite payload, .stdinWrite [10],
                .stdinClose] ++ out.2)

/-- The commands `cmd.Start()` was called on. -/
def startedCmds : List Event → List Cmd
  | [] => []
  | .start cmd :: es => cmd :: startedCmds es
  | _ :: es => startedCmds es

/-- The bytes written to the backend's standard input before it was closed. -/
def stdinBytes : List Event → Bytes
  | [] => []
  | .stdinWrite bs :: es => bs ++ stdinBytes es
  | .stdinClose :: _ => []
  | _ :: es => stdinBytes es

/-- The handler asked for the backend to be killed. -/
def killed : List Event → Bool
  | [] => false
  | .kill :: _ => true
  | _ :: es => killed es

/-- The handler called the payload builder. -/
def builtPayload : List Event → Bool
  | [] => false
  | .buildPayload :: _ => true
  | _ :: es => builtPayload es

/-! ## Notions used to state the properties -/

/-- The last member of that name among the members of an object. -/
def lastMember (k : GoString) : List (GoString × JSON) → Option JSON
  | [] => none
  | (k1, v) :: ms =>
    match lastMember k ms with
    | some x => some x
    | none => if k1 = k then some v else none

/-- The value of a key of an object, `none` when the key is absent (or the document
is not an object). -/
def JSON.field (k : GoString) : JSON → Option JSON
  | .obj ms => lastMember k ms
  | _ => none

/-- The envelope as the specification writes it, with correlation id `id`, tool name
`tool` and the members `ps` after `name` inside `params`. -/
def expectedEnvelope (id : Int) (tool : GoString) (ps : List (GoString × JSON)) : JSON :=
  .obj [("jsonrpc".toList, .str "2.0".toList), ("id".toList, .num (formatInt id)),
    ("method".toList, .str "tools/call".toList),
    ("params".toList, .obj (("name".toList, .str tool) :: ps))]

/-- The request is valid and its backend gets started: the body decodes to `body`
with a tool name, the envelope `payload` is built, the command line has the tokens
`cmdName :: cmdArgs`, the pipe is opened and the process starts. -/
structure Started (lib : Lib) (defaultServerCmd : GoString) (w : World) (reqBody : Bytes)
    (body : callRequestBody) (payload : Bytes) (cmdName : GoString)
    (cmdArgs : List GoString) : Prop where
  decoded : decodeBody lib reqBody = .ok body
  tool : body.Tool ≠ []
  built : buildJSONRPCPayload lib w.random body.Tool body.Arguments = .ok payload
  fields : strings.Fields (if body.ServerCmd ≠ [] then body.ServerCmd else defaultServerCmd)
    = cmdName :: cmdArgs
  pipe : w.stdinPipe = none
  started : w.start ⟨cmdName, cmdArgs, backendEnv w.environ body.GithubPAT⟩ = none

/-! ## Concrete instances, used to evaluate the model -/

/-- The value of a text of decimal digits read after the digits that gave `acc`. -/
def digitsValue : List Char → Nat → Option Nat
  | [], acc => some acc
  | c :: cs, acc => if isDigit c then digitsValue cs (acc * 10 + (c.toNat - 48)) else none

/-- An instance of the open library behaviour, for the examples. A float64 is written
as the decimal text of its bit pattern: not the text Go writes, but like Go's text
it is a JSON number that is read back as the same float64. -/
def exampleLib : Lib :=
  { formatFloat := fun bits => formatInt (bits : Int)
    parseFloat := fun lit =>
      match digitsValue lit.val 0 with
      | none => none
      | some n => if h : isFinite n = true then some ⟨n, h⟩ else none
    errorText := fun _ => "invalid JSON".toList }

/-- The bit pattern of the float64 1.5. -/
def exampleFloat : Nat := 0x3FF8000000000000

/-- An argument map with a string, a nested map, and a slice holding null, a boolean
and a float64; the keys are not given in key order. -/
def exampleArgs : List (GoString × GoValue) :=
  [("k".toList, .string "v\n".toList),
   ("m".toList, .map [("z".toList, .bool false), ("b".toList, .nil)]),
   ("a".toList, .slice [.nil, .bool true, .float64 exampleFloat])]

/-- A world whose backend does what `behaviour` says and where nothing else fails;
the random reader yields the bytes 1, 2, 3. -/
def exampleWorld (behaviour : Cmd → Bytes → Run) : World :=
  { environ := ["PATH=/bin".toList, "GITHUB_PERSONAL_ACCESS_TOKEN=old".toList]
    random := [1, 2, 3]
    stdinPipe := none
    start := fun _ => none
    run := behaviour
    cancelAt := none
    exitWinsTie := false }

/-- A backend that echoes its standard input and exits 0 at time 5. -/
def echoBackend : Cmd → Bytes → Run :=
  fun _ input => { stdout := input, stderr := [], exit := some (5, .exited 0) }

/-- A backend that writes "boom" to standard error and exits 1 at time 5. -/
def boomBackend : Cmd → Bytes → Run :=
  fun _ _ => { stdout := [], stderr := utf8Encode "boom".toList, exit := some (5, .exited 1) }

/-- A backend that never exits by itself. -/
def sleepingBackend : Cmd → Bytes → Run :=
  fun _ _ => { stdout := [], stderr := [], exit := none }

/-- The default backend command line of `main`. -/
def exampleServerCmd : GoString := "./github-mcp-server stdio".toList

/-- The request body with only the tool name `x`. -/
def exampleRequest : Bytes := utf8Encode "\x7b\"tool\":\"x\"\x7d".toList

/-- The envelope built for `exampleRequest` in `exampleWorld`. -/
def examplePayload : Bytes :=
  utf8Encode ("\x7b\"jsonrpc\":\"2.0\",\"id\":66051,\"method\":\"tools/call\","
    ++ "\"params\":\x7b\"name\":\"x\"\x7d\x7d").toList

/-- A request with arguments. -/
def exampleArgsRequest : Bytes :=
  utf8Encode "\x7b\"tool\":\"x\",\"arguments\":\x7b\"k\":\"v\"\x7d\x7d".toList

/-- A request that overrides the backend command line. -/
def exampleOverrideRequest : Bytes :=
  utf8Encode "\x7b\"tool\":\"x\",\"server_cmd\":\"/bin/echo  hi there\"\x7d".toList

/-- A request whose command override is white space only. -/
def exampleBlankRequest : Bytes :=
  utf8Encode "\x7b\"tool\":\"x\",\"server_cmd\":\" \\t \"\x7d".toList

/-- A request that overrides the token. -/
def exampleTokenRequest : Bytes :=
  utf8Encode "\x7b\"tool\":\"x\",\"github_pat\":\"new\"\x7d".toList

/-- The decoded form of `exampleRequest`. -/
def exampleBody : callRequestBody :=
  { Tool := "x".toList, Arguments := none, ServerCmd := [], GithubPAT := [] }

/-! ## Auxiliary notions for the read-back theorems -/

/-- A character that can occur inside a number. -/
def isNumChar (c : Char) : Bool :=
  isDigit c || c = '.' || c = 'e' || c = 'E' || c = '+' || c = '-'

/-- The input does not go on with a character that could extend a number. -/
def Delim (rest : List Char) : Prop := ∀ c r, rest = c :: r → isNumChar c = false

mutual
/-- The number of nested reader calls a document needs. -/
def JSON.size : JSON → Nat
  | .null => 1
  | .bool _ => 1
  | .num _ => 1
  | .str _ => 1
  | .arr xs => 1 + JSON.sizeList xs
  | .obj ms => 1 + JSON.sizeMembers ms
/-- The size of a list of elements. -/
def JSON.sizeList : List JSON → Nat
  | [] => 0
  | x :: xs => 1 + x.size + JSON.sizeList xs
/-- The size of a list of members. -/
def JSON.sizeMembers : List (GoString × JSON) → Nat
  | [] => 0
  | (_, v) :: ms => 1 + v.size + JSON.sizeMembers ms
end


/-- An encoded entry and a decoded entry that go together: same key, and the document
written for the one is read back as the other. -/
def Reads (lib : Lib) (a : GoString × Except GoString JSON) (b : GoString × GoValue) :
    Prop :=
  a.1 = b.1 ∧ ∀ j, a.2 = .ok j → GoValue.ofJSON lib j = some b.2


/-! # Theorems -/

/-! ## Facts about runes and UTF-8 -/

theorem toNat_ofNat_valid (n : Nat) (h : n < 0xD800 ∨ (0xDFFF < n ∧ n < 0x110000)) :
    (Char.ofNat n).toNat = n := by
  have hv : n.isValidChar := h
  unfold Char.ofNat
  rw [dif_pos hv]
  rfl

theorem char_valid (c : Char) :
    c.toNat < 0xD800 ∨ (0xDFFF < c.toNat ∧ c.toNat < 0x110000) := c.valid

theorem char_eq_of_toNat (c d : Char) (h : c.toNat = d.toNat) : c = d := by
  rw [← Char.ofNat_toNat c, ← Char.ofNat_toNat d, h]

theorem leadInfo_two (r : Nat) (h1 : ¬ r < 0x80) (h2 : r < 0x800) :
    leadInfo (0xC0 + r / 64) = some (2, 0x80, 0xBF) := by
  unfold leadInfo
  rw [if_pos (by omega)]

theorem leadInfo_three (r : Nat) (h2 : ¬ r < 0x800) (h3 : r < 0x10000)
    (hv : r < 0xD800 ∨ (0xDFFF < r ∧ r < 0x110000)) :
    ∃ lo hi, leadInfo (0xE0 + r / 4096) = some (3, lo, hi) ∧
      lo ≤ 0x80 + r / 64 % 64 ∧ 0x80 + r / 64 % 64 ≤ hi := by
  unfold leadInfo
  by_cases ha : r / 4096 = 0
  · refine ⟨0xA0, 0xBF, ?_, by omega, by omega⟩
    rw [if_neg (by omega), if_pos (by omega)]
  · by_cases hb : r / 4096 = 13
    · refine ⟨0x80, 0x9F, ?_, by omega, by omega⟩
      rw [if_neg (by omega), if_neg (by omega), if_pos (by omega)]
    · refine ⟨0x80, 0xBF, ?_, by omega, by omega⟩
      rw [if_neg (by omega), if_neg (by omega), if_neg (by omega), if_pos (by omega)]

theorem leadInfo_four (r : Nat) (h3 : ¬ r < 0x10000) (hv : r < 0x110000) :
    ∃ lo hi, leadInfo (0xF0 + r / 262144) = some (4, lo, hi) ∧
      lo ≤ 0x80 + r / 4096 % 64 ∧ 0x80 + r / 4096 % 64 ≤ hi := by
  unfold leadInfo
  by_cases ha : r / 262144 = 0
  · refine ⟨0x90, 0xBF, ?_, by omega, by omega⟩
    rw [if_neg (by omega), if_neg (by omega), if_neg (by omega), if_neg (by omega),
      if_pos (by omega)]
  · by_cases hb : r / 262144 = 4
    · refine ⟨0x80, 0x8F, ?_, by omega, by omega⟩
      rw [if_neg (by omega), if_neg (by omega), if_neg (by omega), if_neg (by omega),
        if_neg (by omega), if_neg (by omega), if_pos (by omega)]
    · refine ⟨0x80, 0xBF, ?_, by omega, by omega⟩
      rw [if_neg (by omega), if_neg (by omega), if_neg (by omega), if_neg (by omega),
        if_neg (by omega), if_pos (by omega)]

/-- Decoding the UTF-8 bytes of a rune gives the rune back, with its width. -/
theorem decodeRune_encodeRune (c : Char) (rest : Bytes) :
    decodeRune (encodeRune c ++ rest) = (c.toNat, (encodeRune c).length) := by
  have hv := char_valid c
  unfold encodeRune
  simp only []
  by_cases h1 : c.toNat < 0x80
  · simp [h1, decodeRune]
  · by_cases h2 : c.toNat < 0x800
    · simp only [h1, h2, if_false, if_true, List.cons_append, List.nil_append, decodeRune,
        leadInfo_two _ h1 h2]
      rw [if_neg (by omega), if_neg (by omega), if_pos (by omega)]
      simp only [List.length_cons, List.length_nil, Prod.mk.injEq, and_true]
      omega
    · by_cases h3 : c.toNat < 0x10000
      · obtain ⟨lo, hi, hl, hlo, hhi⟩ := leadInfo_three _ h2 h3 hv
        simp only [h1, h2, h3, if_false, if_true, List.cons_append, List.nil_append,
          decodeRune, hl, isCont]
        rw [if_neg (by omega), if_neg (by omega), if_neg (by omega), if_neg (by simp; omega),
          if_pos (by omega)]
        simp only [List.length_cons, List.length_nil, Prod.mk.injEq, and_true]
        omega
      · obtain ⟨lo, hi, hl, hlo, hhi⟩ := leadInfo_four _ h3 (by omega)
        simp only [h1, h2, h3, if_false, List.cons_append, List.nil_append,
          decodeRune, hl, isCont]
        rw [if_neg (by omega), if_neg (by omega), if_neg (by omega), if_neg (by simp; omega),
          if_neg (by omega), if_neg (by simp; omega)]
        simp only [List.length_cons, List.length_nil, Prod.mk.injEq, and_true]
        omega

theorem encodeRune_length_pos (c : Char) : 0 < (encodeRune c).length := by
  unfold encodeRune
  simp only []
  split_ifs <;> simp

theorem utf8DecodeAux_step (fuel : Nat) (l : Bytes) (h : l ≠ []) :
    utf8DecodeAux (fuel + 1) l
      = Char.ofNat (decodeRune l).1 :: utf8DecodeAux fuel (l.drop (decodeRune l).2) := by
  cases l with
  | nil => exact absurd rfl h
  | cons b bs => rfl

theorem utf8DecodeAux_encode (s : GoString) :
    ∀ fuel, s.length ≤ fuel → utf8DecodeAux fuel (utf8Encode s) = s := by
  induction s with
  | nil =>
    intro fuel _
    cases fuel <;> rfl
  | cons c s ih =>
    intro fuel hf
    obtain ⟨f, rfl⟩ : ∃ f, fuel = f + 1 := ⟨fuel - 1, by simp at hf; omega⟩
    have hne : utf8Encode (c :: s) ≠ [] := by
      have := encodeRune_length_pos c
      intro h
      have h2 := congrArg List.length h
      simp only [utf8Encode, List.length_append, List.length_nil] at h2
      omega
    rw [utf8DecodeAux_step f _ hne]
    simp only [utf8Encode, decodeRune_encodeRune, List.drop_left, Char.ofNat_toNat]
    rw [ih f (by simp at hf; omega)]

theorem utf8Encode_length (s : GoString) : s.length ≤ (utf8Encode s).length := by
  induction s with
  | nil => simp [utf8Encode]
  | cons c s ih =>
    have := encodeRune_length_pos c
    simp only [utf8Encode, List.length_append, List.length_cons]
    omega

/-- UTF-8 decoding inverts UTF-8 encoding. -/
theorem utf8Decode_utf8Encode (s : GoString) : utf8Decode (utf8Encode s) = s :=
  utf8DecodeAux_encode s _ (utf8Encode_length s)

/-! ## Numbers are read back whole -/

theorem step_none_of_not_numChar (st : NumState) (c : Char) (h : isNumChar c = false) :
    st.step c = none := by
  simp only [isNumChar, Bool.or_eq_false_iff, decide_eq_false_iff_not] at h
  obtain ⟨⟨⟨⟨⟨h1, h2⟩, h3⟩, h4⟩, h5⟩, h6⟩ := h
  have h7 : isDigit19 c = false := by
    simp only [isDigit, isDigit19, decide_eq_false_iff_not] at h1 ⊢
    omega
  have h8 : c ≠ '0' := by
    intro h
    subst h
    simp [isDigit] at h1
  cases st <;> simp [NumState.step, h1, h2, h3, h4, h5, h6, h7, h8]

theorem scanNumber_append (l : List Char) :
    ∀ (st st1 : NumState) (rest : List Char), NumState.run st l = some st1 → Delim rest →
      scanNumber st (l ++ rest) = (l, rest) := by
  induction l with
  | nil =>
    intro st st1 rest _ hd
    cases rest with
    | nil => rfl
    | cons c r =>
      simp only [List.nil_append, scanNumber, step_none_of_not_numChar st c (hd c r rfl)]
  | cons a l ih =>
    intro st st1 rest hrun hd
    simp only [NumState.run] at hrun
    cases hs : st.step a with
    | none => simp [hs] at hrun
    | some st2 =>
      simp only [hs] at hrun
      have h2 := ih st2 st1 rest hrun hd
      show scanNumber st (a :: (l ++ rest)) = (a :: l, rest)
      simp only [scanNumber, hs, h2]

theorem scanNumber_lit (lit : NumLit) (rest : List Char) (hd : Delim rest) :
    scanNumber .start (lit.val ++ rest) = (lit.val, rest) := by
  have h := lit.property
  unfold isNumber at h
  cases hr : NumState.run .start lit.val with
  | none => simp [hr] at h
  | some st => exact scanNumber_append _ _ st rest hr hd

/-! ## Strings are read back -/

theorem hexVal_hexDigit (n : Nat) (h : n < 16) : hexVal (hexDigit n) = some n := by
  unfold hexDigit hexVal
  by_cases h10 : n < 10
  · rw [if_pos h10]
    have : (Char.ofNat (48 + n)).toNat = 48 + n := toNat_ofNat_valid _ (by omega)
    simp only [this]
    rw [if_pos (by omega)]
    congr 1
    omega
  · rw [if_neg h10]
    have : (Char.ofNat (87 + n)).toNat = 87 + n := toNat_ofNat_valid _ (by omega)
    simp only [this]
    rw [if_neg (by omega), if_pos (by omega)]
    congr 1
    omega

theorem hex4_low (n : Nat) (h : n < 256) :
    hex4 '0' '0' (hexDigit (n / 16)) (hexDigit (n % 16)) = some n := by
  have ha : hexVal '0' = some 0 := by decide
  simp only [hex4, ha, hexVal_hexDigit (n / 16) (by omega), hexVal_hexDigit (n % 16) (by omega)]
  congr 1
  omega

theorem hex4_sep (n : Nat) (h : n = 0x2028 ∨ n = 0x2029) :
    hex4 '2' '0' '2' (hexDigit (n % 16)) = some n := by
  rcases h with h | h <;> subst h <;> decide

theorem stringItem_u (a b c d : Char) (u : Nat) (t : List Char)
    (hh : hex4 a b c d = some u) (hs : isSurrogate u = false) :
    stringItem '\\' ('u' :: a :: b :: c :: d :: t) = some (Char.ofNat u, t) := by
  simp [stringItem, unicodeEscape, hh, hs]

/-- Reading what the encoder writes for a rune gives the rune back. -/
theorem stringItem_escapeRune (c : Char) (t : List Char) :
    ∃ x r, escapeRune c ++ t = x :: r ∧ x ≠ '"' ∧ stringItem x r = some (c, t) := by
  unfold escapeRune
  by_cases h1 : c = '\\'
  · subst h1; exact ⟨_, _, rfl, by decide, rfl⟩
  by_cases h2 : c = '"'
  · subst h2; exact ⟨_, _, rfl, by decide, rfl⟩
  by_cases h3 : c = '\x08'
  · subst h3; exact ⟨_, _, rfl, by decide, rfl⟩
  by_cases h4 : c = '\x0c'
  · subst h4; exact ⟨_, _, rfl, by decide, rfl⟩
  by_cases h5 : c = '\n'
  · subst h5; exact ⟨_, _, rfl, by decide, rfl⟩
  by_cases h6 : c = '\r'
  · subst h6; exact ⟨_, _, rfl, by decide, rfl⟩
  by_cases h7 : c = '\t'
  · subst h7; exact ⟨_, _, rfl, by decide, rfl⟩
  rw [if_neg h1, if_neg h2, if_neg h3, if_neg h4, if_neg h5, if_neg h6, if_neg h7]
  by_cases h8 : c.toNat < 0x20 ∨ c = '<' ∨ c = '>' ∨ c = '&'
  · rw [if_pos h8]
    have hlt : c.toNat < 256 := by
      rcases h8 with h | h | h | h
      · omega
      · subst h; decide
      · subst h; decide
      · subst h; decide
    have hs : isSurrogate c.toNat = false := by
      simp only [isSurrogate, decide_eq_false_iff_not]
      omega
    refine ⟨'\\', _, rfl, by decide, ?_⟩
    show stringItem '\\' ('u' :: '0' :: '0' :: hexDigit (c.toNat / 16)
      :: hexDigit (c.toNat % 16) :: t) = some (c, t)
    rw [stringItem_u _ _ _ _ _ t (hex4_low _ hlt) hs, Char.ofNat_toNat]
  · rw [if_neg h8]
    by_cases h9 : c.toNat = 0x2028 ∨ c.toNat = 0x2029
    · rw [if_pos h9]
      have hs : isSurrogate c.toNat = false := by
        simp only [isSurrogate, decide_eq_false_iff_not]
        omega
      refine ⟨'\\', _, rfl, by decide, ?_⟩
      show stringItem '\\' ('u' :: '2' :: '0' :: '2' :: hexDigit (c.toNat % 16) :: t)
        = some (c, t)
      rw [stringItem_u _ _ _ _ _ t (hex4_sep _ h9) hs, Char.ofNat_toNat]
    · rw [if_neg h9]
      have hge : ¬ c.toNat < 0x20 := fun h => h8 (Or.inl h)
      refine ⟨c, t, rfl, h2, ?_⟩
      simp [stringItem, h1, hge]

theorem parseStringBody_escapeRune (c : Char) (t : List Char) (fuel : Nat) :
    parseStringBody (fuel + 1) (escapeRune c ++ t)
      = (parseStringBody fuel t).map fun p => (c :: p.1, p.2) := by
  obtain ⟨x, r, he, hx, hi⟩ := stringItem_escapeRune c t
  rw [he]
  simp only [parseStringBody, hx, if_false, hi]
  cases parseStringBody fuel t with
  | none => rfl
  | some p => rfl

theorem parseStringBody_escapeString (s : GoString) :
    ∀ (fuel : Nat) (rest : List Char), s.length < fuel →
      parseStringBody fuel (escapeString s ++ '"' :: rest) = some (s, rest) := by
  induction s with
  | nil =>
    intro fuel rest hf
    obtain ⟨f, rfl⟩ : ∃ f, fuel = f + 1 := ⟨fuel - 1, by simp at hf; omega⟩
    simp [escapeString, parseStringBody]
  | cons c s ih =>
    intro fuel rest hf
    obtain ⟨f, rfl⟩ : ∃ f, fuel = f + 1 := ⟨fuel - 1, by simp at hf; omega⟩
    simp only [escapeString, List.append_assoc]
    rw [parseStringBody_escapeRune, ih f rest (by simp at hf; omega)]
    rfl

theorem escapeRune_length_pos (c : Char) : 0 < (escapeRune c).length := by
  unfold escapeRune
  split_ifs <;> simp

theorem escapeString_length (s : GoString) : s.length ≤ (escapeString s).length := by
  induction s with
  | nil => simp [escapeString]
  | cons c s ih =>
    have := escapeRune_length_pos c
    simp only [escapeString, List.length_append, List.length_cons]
    omega

/-- A quoted string followed by anything is read back as the string. -/
theorem parseString_quote (s : GoString) (rest : List Char) :
    parseString (escapeString s ++ '"' :: rest) = some (s, rest) := by
  apply parseStringBody_escapeString
  have := escapeString_length s
  simp only [List.length_append, List.length_cons]
  omega

/-! ## Documents are read back -/

theorem skipWs_cons (c : Char) (r : List Char) (h : isWs c = false) :
    skipWs (c :: r) = c :: r := by
  simp [skipWs, h]

theorem numLit_head (lit : NumLit) :
    ∃ c r, lit.val = c :: r ∧ (c.toNat = 45 ∨ (48 ≤ c.toNat ∧ c.toNat ≤ 57)) := by
  have h := lit.property
  cases hl : lit.val with
  | nil => rw [hl] at h; exact absurd h (by decide)
  | cons c r =>
    refine ⟨c, r, rfl, ?_⟩
    rw [hl] at h
    simp only [isNumber, NumState.run] at h
    by_cases h1 : c = '-'
    · left; subst h1; rfl
    by_cases h2 : c = '0'
    · right; subst h2; decide
    by_cases h3 : isDigit19 c = true
    · right
      simp only [isDigit19, decide_eq_true_eq] at h3
      omega
    · simp [NumState.step, h1, h2, h3] at h

/-- The first character of a rendered document: never white space, and one of the
characters that begin a value. -/
theorem render_head (v : JSON) :
    ∃ c r, v.render = c :: r ∧ isWs c = false ∧ c ≠ ']' ∧ c ≠ '}' ∧ c ≠ ',' ∧ c ≠ ':' := by
  cases v with
  | null => exact ⟨'n', _, rfl, by decide, by decide, by decide, by decide, by decide⟩
  | bool b =>
    cases b
    · exact ⟨'f', _, rfl, by decide, by decide, by decide, by decide, by decide⟩
    · exact ⟨'t', _, rfl, by decide, by decide, by decide, by decide, by decide⟩
  | num lit =>
    obtain ⟨c, r, hl, hc⟩ := numLit_head lit
    refine ⟨c, r, by simp [JSON.render, hl], ?_, ?_, ?_, ?_, ?_⟩
    · simp only [isWs, Bool.or_eq_false_iff, decide_eq_false_iff_not]
      refine ⟨⟨⟨?_, ?_⟩, ?_⟩, ?_⟩ <;> (intro h; subst h; revert hc; decide)
    all_goals (intro h; subst h; revert hc; decide)
  | str s => exact ⟨'"', _, rfl, by decide, by decide, by decide, by decide, by decide⟩
  | arr xs =>
    cases xs with
    | nil => exact ⟨'[', _, rfl, by decide, by decide, by decide, by decide, by decide⟩
    | cons x xs =>
      exact ⟨'[', x.render ++ JSON.renderTail xs, by simp only [JSON.render], by decide, by decide, by decide, by decide, by decide⟩
  | obj ms =>
    cases ms with
    | nil => exact ⟨'{', _, rfl, by decide, by decide, by decide, by decide, by decide⟩
    | cons m ms =>
      obtain ⟨k, v⟩ := m
      exact ⟨'{', quote k ++ ':' :: (v.render ++ JSON.renderMemTail ms),
        by simp only [JSON.render], by decide, by decide, by decide, by decide, by decide⟩

theorem delim_of_head (c : Char) (r : List Char) (h : isNumChar c = false) :
    Delim (c :: r) := by
  intro c1 r1 heq
  cases heq
  exact h

theorem delim_nil : Delim [] := by
  intro c r h
  cases h

theorem delim_renderTail (xs : List JSON) (rest : List Char) :
    Delim (JSON.renderTail xs ++ rest) := by
  cases xs with
  | nil => exact delim_of_head _ _ (by decide)
  | cons x xs => simp only [JSON.renderTail, List.cons_append]; exact delim_of_head _ _ (by decide)

theorem delim_renderMemTail (ms : List (GoString × JSON)) (rest : List Char) :
    Delim (JSON.renderMemTail ms ++ rest) := by
  cases ms with
  | nil => exact delim_of_head _ _ (by decide)
  | cons m ms =>
    obtain ⟨k, v⟩ := m
    simp only [JSON.renderMemTail, List.cons_append]; exact delim_of_head _ _ (by decide)

theorem parseValue_num_aux (t : List Char × List Char) (lit : NumLit) (rest : List Char)
    (ht : t = (lit.val, rest)) :
    (if h : isNumber t.1 = true then some (JSON.num ⟨t.1, h⟩, t.2) else none)
      = some (JSON.num lit, rest) := by
  subst ht
  simp [lit.property]

theorem parseValue_number (fuel : Nat) (c : Char) (r : List Char)
    (hc : c.toNat = 45 ∨ (48 ≤ c.toNat ∧ c.toNat ≤ 57)) :
    parseValue (fuel + 1) (c :: r)
      = if h : isNumber (scanNumber .start (c :: r)).1 = true then
          some (JSON.num ⟨(scanNumber .start (c :: r)).1, h⟩, (scanNumber .start (c :: r)).2)
        else none := by
  have hw : isWs c = false := by
    simp only [isWs, Bool.or_eq_false_iff, decide_eq_false_iff_not]
    refine ⟨⟨⟨?_, ?_⟩, ?_⟩, ?_⟩ <;> (intro h; subst h; revert hc; decide)
  have h1 : c ≠ Char.ofNat 123 := by intro h; subst h; revert hc; decide
  have h2 : c ≠ '[' := by intro h; subst h; revert hc; decide
  have h3 : c ≠ '"' := by intro h; subst h; revert hc; decide
  have h4 : c ≠ 't' := by intro h; subst h; revert hc; decide
  have h5 : c ≠ 'f' := by intro h; subst h; revert hc; decide
  have h6 : c ≠ 'n' := by intro h; subst h; revert hc; decide
  rw [parseValue, skipWs_cons c r hw]
  simp only [h1, h2, h3, h4, h5, h6, if_false]

mutual
theorem parseValue_render (v : JSON) (fuel : Nat) (rest : List Char)
    (hf : v.size ≤ fuel) (hd : Delim rest) :
    parseValue fuel (v.render ++ rest) = some (v, rest) := by
  obtain ⟨f, rfl⟩ : ∃ f, fuel = f + 1 := ⟨fuel - 1, by cases v <;> simp [JSON.size] at hf <;> omega⟩
  match v with
  | .null => simp [JSON.render, parseValue, skipWs, isWs, expect]
  | .bool true => simp [JSON.render, parseValue, skipWs, isWs, expect]
  | .bool false => simp [JSON.render, parseValue, skipWs, isWs, expect]
  | .num lit =>
    obtain ⟨c, r, hl, hc⟩ := numLit_head lit
    have hs := scanNumber_lit lit rest hd
    have he : lit.val ++ rest = c :: (r ++ rest) := by rw [hl]; rfl
    simp only [JSON.render]
    rw [he, parseValue_number f c (r ++ rest) hc, ← he]
    exact parseValue_num_aux _ lit rest hs
  | .str s =>
    have h3 := parseString_quote s rest
    simp [JSON.render, parseValue, skipWs, isWs, quote, h3]
  | .arr [] => simp [JSON.render, parseValue, skipWs, isWs]
  | .arr (x :: xs) =>
    simp only [JSON.size, JSON.sizeList] at hf
    obtain ⟨c, r, hx, hw, hb, -, -, -⟩ := render_head x
    have h1 := parseValue_render x f (JSON.renderTail xs ++ rest) (by omega)
      (delim_renderTail xs rest)
    have h2 := parseTail_render xs f rest (by omega)
    rw [hx] at h1
    simp only [List.cons_append] at h1
    have hw2 : ¬ (((c = ' ' ∨ c = '\t') ∨ c = '\r') ∨ c = '\n') := by
      simpa [isWs] using hw
    simp [JSON.render, parseValue, skipWs, isWs, hx, hw2, hb, h1, h2]
  | .obj [] => simp [JSON.render, parseValue, skipWs, isWs]
  | .obj ((k, x) :: ms) =>
    simp only [JSON.size, JSON.sizeMembers] at hf
    have h1 := parseValue_render x f (JSON.renderMemTail ms ++ rest) (by omega)
      (delim_renderMemTail ms rest)
    have h2 := parseMemTail_render ms f rest (by omega)
    have h3 := parseString_quote k (':' :: (x.render ++ (JSON.renderMemTail ms ++ rest)))
    simp [JSON.render, parseValue, skipWs, isWs, quote, h1, h2, h3]
theorem parseTail_render (xs : List JSON) (fuel : Nat) (rest : List Char)
    (hf : JSON.sizeList xs < fuel) :
    parseTail fuel (JSON.renderTail xs ++ rest) = some (xs, rest) := by
  obtain ⟨f, rfl⟩ : ∃ f, fuel = f + 1 := ⟨fuel - 1, by omega⟩
  match xs with
  | [] => simp [JSON.renderTail, parseTail, skipWs, isWs]
  | x :: xs =>
    simp only [JSON.sizeList] at hf
    have h1 := parseValue_render x f (JSON.renderTail xs ++ rest) (by omega)
      (delim_renderTail xs rest)
    have h2 := parseTail_render xs f rest (by omega)
    simp [JSON.renderTail, parseTail, skipWs, isWs, h1, h2]
theorem parseMemTail_render (ms : List (GoString × JSON)) (fuel : Nat) (rest : List Char)
    (hf : JSON.sizeMembers ms < fuel) :
    parseMemTail fuel (JSON.renderMemTail ms ++ rest) = some (ms, rest) := by
  obtain ⟨f, rfl⟩ : ∃ f, fuel = f + 1 := ⟨fuel - 1, by omega⟩
  match ms with
  | [] => simp [JSON.renderMemTail, parseMemTail, skipWs, isWs]
  | (k, x) :: ms =>
    simp only [JSON.sizeMembers] at hf
    have h1 := parseValue_render x f (JSON.renderMemTail ms ++ rest) (by omega)
      (delim_renderMemTail ms rest)
    have h2 := parseMemTail_render ms f rest (by omega)
    have h3 := parseString_quote k (':' :: (x.render ++ (JSON.renderMemTail ms ++ rest)))
    simp [JSON.renderMemTail, parseMemTail, skipWs, isWs, quote, h1, h2, h3]
end

/-! ## Whole texts -/

theorem numLit_length_pos (lit : NumLit) : 1 ≤ lit.val.length := by
  obtain ⟨c, r, hl, -⟩ := numLit_head lit
  rw [hl]
  simp

theorem quote_length (s : GoString) : 2 ≤ (quote s).length := by
  simp only [quote, List.length_cons, List.length_append, List.length_nil]
  omega

mutual
theorem size_le_length (v : JSON) : v.size ≤ v.render.length := by
  match v with
  | .null => simp [JSON.size, JSON.render]
  | .bool true => simp [JSON.size, JSON.render]
  | .bool false => simp [JSON.size, JSON.render]
  | .num lit =>
    have := numLit_length_pos lit
    simpa [JSON.size, JSON.render] using this
  | .str s =>
    have := quote_length s
    simp only [JSON.size, JSON.render]
    omega
  | .arr [] => simp [JSON.size, JSON.render, JSON.sizeList]
  | .arr (x :: xs) =>
    have h1 := size_le_length x
    have h2 := sizeList_le_length xs
    simp only [JSON.size, JSON.render, JSON.sizeList, List.length_cons, List.length_append]
    omega
  | .obj [] => simp [JSON.size, JSON.render, JSON.sizeMembers]
  | .obj ((k, x) :: ms) =>
    have h1 := size_le_length x
    have h2 := sizeMembers_le_length ms
    have h3 := quote_length k
    simp only [JSON.size, JSON.render, JSON.sizeMembers, List.length_cons, List.length_append]
    omega
theorem sizeList_le_length (xs : List JSON) :
    JSON.sizeList xs < (JSON.renderTail xs).length := by
  match xs with
  | [] => simp [JSON.sizeList, JSON.renderTail]
  | x :: xs =>
    have h1 := size_le_length x
    have h2 := sizeList_le_length xs
    simp only [JSON.sizeList, JSON.renderTail, List.length_cons, List.length_append]
    omega
theorem sizeMembers_le_length (ms : List (GoString × JSON)) :
    JSON.sizeMembers ms < (JSON.renderMemTail ms).length := by
  match ms with
  | [] => simp [JSON.sizeMembers, JSON.renderMemTail]
  | (k, x) :: ms =>
    have h1 := size_le_length x
    have h2 := sizeMembers_le_length ms
    have h3 := quote_length k
    simp only [JSON.sizeMembers, JSON.renderMemTail, List.length_cons, List.length_append]
    omega
end

/-- Reading the compact text of a document gives the document back. -/
theorem decode_render (v : JSON) : JSON.decode v.render = some v := by
  have h := parseValue_render v v.render.length [] (size_le_length v) delim_nil
  rw [List.append_nil] at h
  simp [JSON.decode, h, skipWs]

/-- Reading the bytes of the compact text of a document gives the document back. -/
theorem jsonDecode_render (v : JSON) : jsonDecode (utf8Encode v.render) = some v := by
  rw [jsonDecode, utf8Decode_utf8Encode, decode_render]

/-! ## Integers are number literals -/

theorem digitChar_toNat (k : Nat) (h : k < 10) : (Nat.digitChar k).toNat = 48 + k := by
  interval_cases k <;> rfl

theorem digitChar_isDigit (k : Nat) (h : k < 10) : isDigit (Nat.digitChar k) = true := by
  simp only [isDigit, digitChar_toNat k h, decide_eq_true_eq]
  omega

/-- From the state after a first digit, further digits keep the number going. -/
theorem run_int_digits (ds : List Char) (h : ∀ c ∈ ds, isDigit c = true) :
    NumState.run .int ds = some .int := by
  induction ds with
  | nil => rfl
  | cons c ds ih =>
    have hc := h c (List.mem_cons_self _ _)
    simp only [NumState.run, NumState.step, hc, if_true]
    exact ih fun d hd => h d (List.mem_cons_of_mem _ hd)

theorem step_start_digit19 (k : Nat) (h0 : 0 < k) (h : k < 10) :
    NumState.step .start (Nat.digitChar k) = some .int ∧
    NumState.step .neg (Nat.digitChar k) = some .int := by
  interval_cases k <;> exact ⟨rfl, rfl⟩

theorem toDigitsCore_run (st : NumState) (hst : st = .start ∨ st = .neg) :
    ∀ (fuel n : Nat) (ds : List Char), 0 < n → n < fuel →
      (∀ c ∈ ds, isDigit c = true) →
      NumState.run st (Nat.toDigitsCore 10 fuel n ds) = some .int := by
  intro fuel
  induction fuel with
  | zero => intro n ds _ h; omega
  | succ fuel ih =>
    intro n ds hn hf hds
    simp only [Nat.toDigitsCore]
    by_cases hz : n / 10 = 0
    · rw [if_pos hz]
      have hlt : n < 10 := by omega
      have hmod : n % 10 = n := Nat.mod_eq_of_lt hlt
      rw [hmod]
      have hs := step_start_digit19 n hn hlt
      have hstep : st.step (Nat.digitChar n) = some .int := by
        rcases hst with h | h <;> subst h
        · exact hs.1
        · exact hs.2
      simp only [NumState.run, hstep]
      exact run_int_digits ds hds
    · rw [if_neg hz]
      apply ih (n / 10) _ (by omega) (by omega)
      intro c hc
      rcases List.mem_cons.mp hc with h | h
      · subst h
        exact digitChar_isDigit _ (Nat.mod_lt _ (by omega))
      · exact hds c h

theorem toDigits_run (st : NumState) (hst : st = .start ∨ st = .neg) (n : Nat) :
    ∃ st1, NumState.run st (Nat.toDigits 10 n) = some st1 ∧ st1.accepting = true := by
  by_cases hn : n = 0
  · subst hn
    rcases hst with h | h <;> subst h <;> exact ⟨.zero, rfl, rfl⟩
  · refine ⟨.int, ?_, rfl⟩
    exact toDigitsCore_run st hst (n + 1) n [] (by omega) (by omega) (by simp)

/-- The decimal text of an integer is a JSON number. -/
theorem isNumber_intText (i : Int) : isNumber (intText i) = true := by
  unfold intText isNumber
  by_cases h : i < 0
  · rw [if_pos h]
    obtain ⟨st1, hr, ha⟩ := toDigits_run .neg (Or.inr rfl) i.natAbs
    have : NumState.run .start ('-' :: Nat.toDigits 10 i.natAbs) = some st1 := by
      simp only [NumState.run]
      exact hr
    rw [this]
    exact ha
  · rw [if_neg h]
    obtain ⟨st1, hr, ha⟩ := toDigits_run .start (Or.inl rfl) i.natAbs
    rw [hr]
    exact ha

theorem formatInt_val (i : Int) : (formatInt i).val = intText i := by
  unfold formatInt
  rw [dif_pos (isNumber_intText i)]

/-! ## The random draw -/

theorem randIntLoop_lt (max k b : Nat) (hmax : 0 < max) :
    ∀ (fuel : Nat) (reader : Bytes), randIntLoop max k b fuel reader < max := by
  intro fuel
  induction fuel with
  | zero => intro reader; exact hmax
  | succ fuel ih =>
    intro reader
    simp only [randIntLoop]
    split_ifs with h
    · exact h
    · exact ih _

theorem randInt_lt (reader : Bytes) (max : Nat) (hmax : 0 < max) :
    randInt reader max < max := by
  unfold randInt
  simp only []
  split_ifs
  · exact hmax
  · exact randIntLoop_lt _ _ _ hmax _ _
  · exact randIntLoop_lt _ _ _ hmax _ _

theorem toInt64_small (n : Nat) (h : n < 2 ^ 63) : toInt64 n = (n : Int) := by
  unfold toInt64
  have h1 : n % 2 ^ 64 = n := Nat.mod_eq_of_lt (by omega)
  rw [h1, if_pos h]

theorem randomID_eq (reader : Bytes) :
    randomID reader = ((randInt reader 1000000 : Nat) : Int) := by
  have h := randInt_lt reader 1000000 (by decide)
  exact toInt64_small _ (by omega)

/-! ## The compact text holds no line break -/

theorem encodeRune_ne_newline (c : Char) (h : c ≠ '\n') : ∀ b ∈ encodeRune c, b ≠ 10 := by
  have hne : c.toNat ≠ 10 := fun h2 => h (char_eq_of_toNat c '\n' h2)
  intro b hb
  unfold encodeRune at hb
  simp only [] at hb
  split_ifs at hb <;> simp only [List.mem_cons, List.mem_singleton, List.not_mem_nil,
    or_false] at hb <;> omega

theorem utf8Encode_no_newline (s : GoString) (h : ∀ c ∈ s, c ≠ '\n') :
    ∀ b ∈ utf8Encode s, b ≠ 10 := by
  induction s with
  | nil => intro b hb; simp [utf8Encode] at hb
  | cons c s ih =>
    intro b hb
    simp only [utf8Encode, List.mem_append] at hb
    rcases hb with hb | hb
    · exact encodeRune_ne_newline c (h c (List.mem_cons_self _ _)) b hb
    · exact ih (fun d hd => h d (List.mem_cons_of_mem _ hd)) b hb

theorem hexDigit_ne_newline (n : Nat) (h : n < 16) : hexDigit n ≠ '\n' := by
  interval_cases n <;> decide

theorem escapeRune_no_newline (c : Char) : ∀ d ∈ escapeRune c, d ≠ '\n' := by
  intro d hd
  unfold escapeRune at hd
  have h1 := hexDigit_ne_newline (c.toNat / 16)
  have h2 := hexDigit_ne_newline (c.toNat % 16) (Nat.mod_lt _ (by decide))
  split_ifs at hd with g1 g2 g3 g4 g5 g6 g7 g8 g9
  all_goals simp only [List.mem_cons, List.mem_singleton, List.not_mem_nil, or_false] at hd
  · rcases hd with h | h <;> subst h <;> decide
  · rcases hd with h | h <;> subst h <;> decide
  · rcases hd with h | h <;> subst h <;> decide
  · rcases hd with h | h <;> subst h <;> decide
  · rcases hd with h | h <;> subst h <;> decide
  · rcases hd with h | h <;> subst h <;> decide
  · rcases hd with h | h <;> subst h <;> decide
  · have hlt : c.toNat / 16 < 16 := by
      rcases g8 with h | h | h | h
      · omega
      · subst h; decide
      · subst h; decide
      · subst h; decide
    rcases hd with h | h | h | h | h | h
    · subst h; decide
    · subst h; decide
    · subst h; decide
    · subst h; decide
    · subst h; exact h1 hlt
    · subst h; exact h2
  · rcases hd with h | h | h | h | h | h
    · subst h; decide
    · subst h; decide
    · subst h; decide
    · subst h; decide
    · subst h; decide
    · subst h; exact h2
  · subst hd
    exact g5

theorem escapeString_no_newline (s : GoString) : ∀ d ∈ escapeString s, d ≠ '\n' := by
  induction s with
  | nil => intro d hd; simp [escapeString] at hd
  | cons c s ih =>
    intro d hd
    simp only [escapeString, List.mem_append] at hd
    rcases hd with hd | hd
    · exact escapeRune_no_newline c d hd
    · exact ih d hd

theorem quote_no_newline (s : GoString) : ∀ d ∈ quote s, d ≠ '\n' := by
  intro d hd
  simp only [quote, List.mem_cons, List.mem_append, List.mem_singleton, List.not_mem_nil,
    or_false] at hd
  rcases hd with h | h | h
  · subst h; decide
  · exact escapeString_no_newline s d h
  · subst h; decide

theorem run_no_newline (s : List Char) :
    ∀ (st st1 : NumState), NumState.run st s = some st1 → ∀ d ∈ s, d ≠ '\n' := by
  induction s with
  | nil => intro _ _ _ d hd; simp at hd
  | cons c s ih =>
    intro st st1 hrun d hd
    simp only [NumState.run] at hrun
    cases hs : st.step c with
    | none => simp [hs] at hrun
    | some st2 =>
      simp only [hs] at hrun
      rcases List.mem_cons.mp hd with h | h
      · subst h
        intro hnl
        subst hnl
        have := step_none_of_not_numChar st '\n' (by decide)
        rw [this] at hs
        cases hs
      · exact ih st2 st1 hrun d h

theorem numLit_no_newline (lit : NumLit) : ∀ d ∈ lit.val, d ≠ '\n' := by
  have h := lit.property
  unfold isNumber at h
  cases hr : NumState.run .start lit.val with
  | none => simp [hr] at h
  | some st => exact run_no_newline _ _ st hr

mutual
theorem render_no_newline (v : JSON) : ∀ d ∈ v.render, d ≠ '\n' := by
  match v with
  | .null => intro d hd; simp only [JSON.render] at hd; revert d; decide
  | .bool true => intro d hd; simp only [JSON.render] at hd; revert d; decide
  | .bool false => intro d hd; simp only [JSON.render] at hd; revert d; decide
  | .num lit => exact numLit_no_newline lit
  | .str s => exact quote_no_newline s
  | .arr [] => intro d hd; simp only [JSON.render] at hd; revert d; decide
  | .arr (x :: xs) =>
    intro d hd
    simp only [JSON.render, List.mem_cons, List.mem_append] at hd
    rcases hd with h | h | h
    · subst h; decide
    · exact render_no_newline x d h
    · exact renderTail_no_newline xs d h
  | .obj [] => intro d hd; simp only [JSON.render] at hd; revert d; decide
  | .obj ((k, x) :: ms) =>
    intro d hd
    simp only [JSON.render, List.mem_cons, List.mem_append] at hd
    rcases hd with h | h | h | h | h
    · subst h; decide
    · exact quote_no_newline k d h
    · subst h; decide
    · exact render_no_newline x d h
    · exact renderMemTail_no_newline ms d h
theorem renderTail_no_newline (xs : List JSON) : ∀ d ∈ JSON.renderTail xs, d ≠ '\n' := by
  match xs with
  | [] => intro d hd; simp only [JSON.renderTail] at hd; revert d; decide
  | x :: xs =>
    intro d hd
    simp only [JSON.renderTail, List.mem_cons, List.mem_append] at hd
    rcases hd with h | h | h
    · subst h; decide
    · exact render_no_newline x d h
    · exact renderTail_no_newline xs d h
theorem renderMemTail_no_newline (ms : List (GoString × JSON)) :
    ∀ d ∈ JSON.renderMemTail ms, d ≠ '\n' := by
  match ms with
  | [] => intro d hd; simp only [JSON.renderMemTail] at hd; revert d; decide
  | (k, x) :: ms =>
    intro d hd
    simp only [JSON.renderMemTail, List.mem_cons, List.mem_append] at hd
    rcases hd with h | h | h | h | h
    · subst h; decide
    · exact quote_no_newline k d h
    · subst h; decide
    · exact render_no_newline x d h
    · exact renderMemTail_no_newline ms d h
end

/-- The bytes of a compact text hold no line feed. -/
theorem render_bytes_no_newline (v : JSON) : 10 ∉ utf8Encode v.render := by
  intro h
  exact utf8Encode_no_newline _ (render_no_newline v) 10 h rfl

/-! ## Assigning into a map keeps its values plain -/

theorem mapSet_plain (m : List (GoString × GoValue)) (k : GoString) (v : GoValue)
    (hm : GoValue.plainEntries m = true) (hv : v.plain = true) :
    GoValue.plainEntries (mapSet m k v) = true := by
  induction m with
  | nil => simp [mapSet, GoValue.plainEntries, hv]
  | cons e rest ih =>
    obtain ⟨k1, v1⟩ := e
    simp only [GoValue.plainEntries, Bool.and_eq_true] at hm
    simp only [mapSet]
    split_ifs
    · simp only [GoValue.plainEntries, Bool.and_eq_true]
      exact ⟨hv, hm.2⟩
    · simp only [GoValue.plainEntries, Bool.and_eq_true]
      exact ⟨hm.1, ih hm.2⟩

theorem mapSetAll_plain (m kvs : List (GoString × GoValue))
    (hm : GoValue.plainEntries m = true) (hk : GoValue.plainEntries kvs = true) :
    GoValue.plainEntries (mapSetAll m kvs) = true := by
  induction kvs generalizing m with
  | nil => exact hm
  | cons e rest ih =>
    obtain ⟨k, v⟩ := e
    simp only [GoValue.plainEntries, Bool.and_eq_true] at hk
    simp only [mapSetAll]
    exact ih _ (mapSet_plain m k v hm hk.1) hk.2

/-! ## Decoded arguments can always be encoded -/

mutual
theorem ofJSON_plain (lib : Lib) (j : JSON) (v : GoValue)
    (h : GoValue.ofJSON lib j = some v) : v.plain = true := by
  match j with
  | .null => simp only [GoValue.ofJSON, Option.some.injEq] at h; subst h; rfl
  | .bool b => simp only [GoValue.ofJSON, Option.some.injEq] at h; subst h; rfl
  | .num lit =>
    simp only [GoValue.ofJSON] at h
    cases hp : lib.parseFloat lit with
    | none => simp [hp] at h
    | some f =>
      simp only [hp, Option.some.injEq] at h
      subst h
      exact f.property
  | .str s => simp only [GoValue.ofJSON, Option.some.injEq] at h; subst h; rfl
  | .arr xs =>
    simp only [GoValue.ofJSON] at h
    cases hp : GoValue.ofJSONList lib xs with
    | none => simp [hp] at h
    | some vs =>
      simp only [hp, Option.some.injEq] at h
      subst h
      exact ofJSONList_plain lib xs vs hp
  | .obj ms =>
    simp only [GoValue.ofJSON] at h
    cases hp : GoValue.ofJSONMembers lib ms with
    | none => simp [hp] at h
    | some kvs =>
      simp only [hp, Option.some.injEq] at h
      subst h
      exact mapSetAll_plain [] kvs rfl (ofJSONMembers_plain lib ms kvs hp)
theorem ofJSONList_plain (lib : Lib) (xs : List JSON) (vs : List GoValue)
    (h : GoValue.ofJSONList lib xs = some vs) : GoValue.plainList vs = true := by
  match xs with
  | [] => simp only [GoValue.ofJSONList, Option.some.injEq] at h; subst h; rfl
  | x :: xs =>
    simp only [GoValue.ofJSONList] at h
    cases h1 : GoValue.ofJSON lib x with
    | none => simp [h1] at h
    | some v =>
      cases h2 : GoValue.ofJSONList lib xs with
      | none => simp [h1, h2] at h
      | some vs1 =>
        simp only [h1, h2, Option.some.injEq] at h
        subst h
        simp only [GoValue.plainList, Bool.and_eq_true]
        exact ⟨ofJSON_plain lib x v h1, ofJSONList_plain lib xs vs1 h2⟩
theorem ofJSONMembers_plain (lib : Lib) (ms : List (GoString × JSON))
    (kvs : List (GoString × GoValue))
    (h : GoValue.ofJSONMembers lib ms = some kvs) : GoValue.plainEntries kvs = true := by
  match ms with
  | [] => simp only [GoValue.ofJSONMembers, Option.some.injEq] at h; subst h; rfl
  | (k, x) :: ms =>
    simp only [GoValue.ofJSONMembers] at h
    cases h1 : GoValue.ofJSON lib x with
    | none => simp [h1] at h
    | some v =>
      cases h2 : GoValue.ofJSONMembers lib ms with
      | none => simp [h1, h2] at h
      | some kvs1 =>
        simp only [h1, h2, Option.some.injEq] at h
        subst h
        simp only [GoValue.plainEntries, Bool.and_eq_true]
        exact ⟨ofJSON_plain lib x v h1, ofJSONMembers_plain lib ms kvs1 h2⟩
end

theorem insertByKey_allOk (k : GoString) (v : Except GoString JSON)
    (l : List (GoString × Except GoString JSON))
    (hv : ∃ j, v = .ok j) (hl : ∀ e ∈ l, ∃ j, e.2 = .ok j) :
    ∀ e ∈ insertByKey k v l, ∃ j, e.2 = .ok j := by
  induction l with
  | nil =>
    intro e he
    simp only [insertByKey, List.mem_singleton] at he
    subst he
    exact hv
  | cons a rest ih =>
    obtain ⟨k1, v1⟩ := a
    intro e he
    simp only [insertByKey] at he
    split_ifs at he
    · rcases List.mem_cons.mp he with h | h
      · subst h; exact hv
      · exact hl e h
    · rcases List.mem_cons.mp he with h | h
      · subst h; exact hl _ (List.mem_cons_self _ _)
      · exact ih (fun x hx => hl x (List.mem_cons_of_mem _ hx)) e h

theorem sortByKey_allOk (l : List (GoString × Except GoString JSON))
    (hl : ∀ e ∈ l, ∃ j, e.2 = .ok j) : ∀ e ∈ sortByKey l, ∃ j, e.2 = .ok j := by
  induction l with
  | nil => intro e he; simp [sortByKey] at he
  | cons a rest ih =>
    obtain ⟨k, v⟩ := a
    simp only [sortByKey]
    exact insertByKey_allOk k v _ (hl (k, v) (List.mem_cons_self _ _))
      (ih fun x hx => hl x (List.mem_cons_of_mem _ hx))

theorem collectMembers_ok (l : List (GoString × Except GoString JSON))
    (hl : ∀ e ∈ l, ∃ j, e.2 = .ok j) : ∃ js, collectMembers l = .ok js := by
  induction l with
  | nil => exact ⟨[], rfl⟩
  | cons a rest ih =>
    obtain ⟨k, v⟩ := a
    obtain ⟨j, hj⟩ := hl (k, v) (List.mem_cons_self _ _)
    obtain ⟨js, hjs⟩ := ih fun x hx => hl x (List.mem_cons_of_mem _ hx)
    simp only at hj
    subst hj
    exact ⟨(k, j) :: js, by simp only [collectMembers, hjs]⟩

mutual
theorem toJSON_of_plain (lib : Lib) (v : GoValue) (h : v.plain = true) :
    ∃ j, GoValue.toJSON lib v = .ok j := by
  match v with
  | .nil => exact ⟨_, rfl⟩
  | .bool b => exact ⟨_, rfl⟩
  | .float64 bits =>
    simp only [GoValue.plain] at h
    exact ⟨.num (lib.formatFloat bits), by simp only [GoValue.toJSON, h, if_true]⟩
  | .string s => exact ⟨_, rfl⟩
  | .slice xs =>
    simp only [GoValue.plain] at h
    obtain ⟨js, hjs⟩ := toJSONList_of_plain lib xs h
    exact ⟨.arr js, by simp only [GoValue.toJSON, hjs]⟩
  | .map m =>
    simp only [GoValue.plain] at h
    obtain ⟨js, hjs⟩ := collectMembers_ok _
      (sortByKey_allOk _ (toJSONEntries_of_plain lib m h))
    exact ⟨.obj js, by simp only [GoValue.toJSON, hjs]⟩
  | .unsupported t => simp [GoValue.plain] at h
theorem toJSONList_of_plain (lib : Lib) (xs : List GoValue)
    (h : GoValue.plainList xs = true) : ∃ js, GoValue.toJSONList lib xs = .ok js := by
  match xs with
  | [] => exact ⟨[], rfl⟩
  | x :: xs =>
    simp only [GoValue.plainList, Bool.and_eq_true] at h
    obtain ⟨j, hj⟩ := toJSON_of_plain lib x h.1
    obtain ⟨js, hjs⟩ := toJSONList_of_plain lib xs h.2
    exact ⟨j :: js, by simp only [GoValue.toJSONList, hj, hjs]⟩
theorem toJSONEntries_of_plain (lib : Lib) (m : List (GoString × GoValue))
    (h : GoValue.plainEntries m = true) :
    ∀ e ∈ GoValue.toJSONEntries lib m, ∃ j, e.2 = .ok j := by
  match m with
  | [] => intro e he; simp [GoValue.toJSONEntries] at he
  | (k, v) :: m =>
    simp only [GoValue.plainEntries, Bool.and_eq_true] at h
    intro e he
    simp only [GoValue.toJSONEntries] at he
    rcases List.mem_cons.mp he with h1 | h1
    · subst h1
      exact toJSON_of_plain lib v h.1
    · exact toJSONEntries_of_plain lib m h.2 e h1
end

/-- The payload builder succeeds on every argument map of plain values. -/
theorem buildJSONRPCPayload_of_plain (lib : Lib) (reader : Bytes) (tool : GoString)
    (args : Option (List (GoString × GoValue))) (h : plainArgs args = true) :
    ∃ payload, buildJSONRPCPayload lib reader tool args = .ok payload := by
  unfold buildJSONRPCPayload jsonMarshal jsonRPCRequest.toJSON requestParams.toJSON
  cases args with
  | none => exact ⟨_, rfl⟩
  | some m =>
    by_cases hm : m.length = 0
    · simp only [hm, if_true]
      exact ⟨_, rfl⟩
    · obtain ⟨j, hj⟩ := toJSON_of_plain lib (.map m) h
      simp only [hm, if_false, hj]
      exact ⟨_, rfl⟩

theorem decodeMapField_plain (lib : Lib) (j : JSON)
    (old m : Option (List (GoString × GoValue)))
    (hold : plainArgs old = true) (h : decodeMapField lib j old = .ok m) :
    plainArgs m = true := by
  unfold decodeMapField at h
  split at h
  · rename_i ms
    cases hp : GoValue.ofJSONMembers lib ms with
    | none => simp [hp] at h
    | some kvs =>
      simp only [hp, Except.ok.injEq] at h
      subst h
      have hk := ofJSONMembers_plain lib ms kvs hp
      have ho : GoValue.plainEntries (old.getD []) = true := by
        cases old with
        | none => rfl
        | some o => exact hold
      exact mapSetAll_plain _ _ ho hk
  · simp only [Except.ok.injEq] at h
    subst h
    rfl
  · cases h

theorem decodeFields_plain (lib : Lib) (ms : List (GoString × JSON)) :
    ∀ (b body : callRequestBody), plainArgs b.Arguments = true →
      decodeFields lib ms b = .ok body → plainArgs body.Arguments = true := by
  induction ms with
  | nil =>
    intro b body hb h
    simp only [decodeFields, Except.ok.injEq] at h
    subst h
    exact hb
  | cons e rest ih =>
    obtain ⟨k, v⟩ := e
    intro b body hb h
    simp only [decodeFields] at h
    split_ifs at h
    · cases hs : decodeStringField v b.Tool with
      | error e => simp [hs] at h
      | ok s =>
        simp only [hs] at h
        refine ih _ body ?_ h
        exact hb
    · cases hs : decodeMapField lib v b.Arguments with
      | error e => simp [hs] at h
      | ok m =>
        simp only [hs] at h
        exact ih _ body (decodeMapField_plain lib v _ m hb hs) h
    · cases hs : decodeStringField v b.ServerCmd with
      | error e => simp [hs] at h
      | ok s =>
        simp only [hs] at h
        refine ih _ body ?_ h
        exact hb
    · cases hs : decodeStringField v b.GithubPAT with
      | error e => simp [hs] at h
      | ok s =>
        simp only [hs] at h
        refine ih _ body ?_ h
        exact hb
    · exact ih _ body hb h

/-- The arguments of a decoded request are plain values. -/
theorem decodeBody_plain (lib : Lib) (reqBody : Bytes) (body : callRequestBody)
    (h : decodeBody lib reqBody = .ok body) : plainArgs body.Arguments = true := by
  unfold decodeBody at h
  simp only [] at h
  split at h
  · cases h
  · split_ifs at h
    split at h
    · exact decodeFields_plain lib _ callRequestBody.zero body rfl h
    · simp only [Except.ok.injEq] at h
      subst h
      rfl
    · cases h

/-- For every decoded request the payload builder succeeds. -/
theorem valid_request_builds (lib : Lib) (reader : Bytes) (reqBody : Bytes)
    (body : callRequestBody) (h : decodeBody lib reqBody = .ok body) :
    ∃ payload, buildJSONRPCPayload lib reader body.Tool body.Arguments = .ok payload :=
  buildJSONRPCPayload_of_plain lib reader body.Tool body.Arguments
    (decodeBody_plain lib reqBody body h)

/-! ## The bound on nested reader calls is never reached

Every nested call of the reader is on a strictly shorter input, so the length of the
input is enough: with any larger bound the reader returns the same result. -/

theorem skipWs_length (s : List Char) : (skipWs s).length ≤ s.length := by
  induction s with
  | nil => simp [skipWs]
  | cons c cs ih =>
    simp only [skipWs]
    split_ifs
    · simp only [List.length_cons]; omega
    · exact Nat.le_refl _

theorem surrogatePair_rest (u : Nat) (r1 : List Char) (y : Char) (r2 : List Char)
    (h : surrogatePair u r1 = some (y, r2)) : r2.length ≤ r1.length := by
  unfold surrogatePair at h
  split at h
  · split at h
    · split_ifs at h
      simp only [Option.some.injEq, Prod.mk.injEq] at h
      rw [← h.2]
      simp only [List.length_cons]
      omega
    · cases h
  · cases h

theorem unicodeEscape_rest (r : List Char) (y : Char) (r1 : List Char)
    (h : unicodeEscape r = some (y, r1)) : r1.length ≤ r.length := by
  unfold unicodeEscape at h
  split at h
  · rename_i a b c d r0
    split at h
    · cases h
    · split_ifs at h
      · split at h
        · rename_i p hp
          simp only [Option.some.injEq] at h
          subst h
          have := surrogatePair_rest _ _ _ _ hp
          simp only [List.length_cons]
          omega
        · simp only [Option.some.injEq, Prod.mk.injEq] at h
          rw [← h.2]
          simp only [List.length_cons]
          omega
      · simp only [Option.some.injEq, Prod.mk.injEq] at h
        rw [← h.2]
        simp only [List.length_cons]
        omega
  · cases h

theorem stringItem_rest (c : Char) (cs : List Char) (y : Char) (r : List Char)
    (h : stringItem c cs = some (y, r)) : r.length ≤ cs.length := by
  unfold stringItem at h
  split_ifs at h
  · split at h
    · cases h
    · rename_i x r0
      split_ifs at h
      · have := unicodeEscape_rest _ _ _ h
        simp only [List.length_cons]
        omega
      · split at h
        · cases h
        · simp only [Option.some.injEq, Prod.mk.injEq] at h
          rw [← h.2]
          simp only [List.length_cons]
          omega
  · simp only [Option.some.injEq, Prod.mk.injEq] at h
    rw [← h.2]

theorem parseStringBody_rest (fuel : Nat) :
    ∀ (s : List Char) (k : GoString) (r : List Char),
      parseStringBody fuel s = some (k, r) → r.length < s.length := by
  induction fuel with
  | zero => intro s k r h; cases s <;> cases h
  | succ f ih =>
    intro s k r h
    cases s with
    | nil => cases h
    | cons c cs =>
      simp only [parseStringBody] at h
      split_ifs at h
      · simp only [Option.some.injEq, Prod.mk.injEq] at h
        rw [← h.2]
        simp
      · cases hi : stringItem c cs with
        | none => simp [hi] at h
        | some p =>
          obtain ⟨y, r0⟩ := p
          simp only [hi] at h
          cases hb : parseStringBody f r0 with
          | none => simp [hb] at h
          | some q =>
            obtain ⟨k1, r1⟩ := q
            simp only [hb, Option.some.injEq, Prod.mk.injEq] at h
            have h1 := stringItem_rest _ _ _ _ hi
            have h2 := ih _ _ _ hb
            rw [← h.2]
            simp only [List.length_cons]
            omega

theorem parseString_rest (s : List Char) (k : GoString) (r : List Char)
    (h : parseString s = some (k, r)) : r.length < s.length :=
  parseStringBody_rest _ s k r h

theorem scanNumber_append_eq (s : List Char) :
    ∀ st, (scanNumber st s).1 ++ (scanNumber st s).2 = s := by
  induction s with
  | nil => intro st; rfl
  | cons c cs ih =>
    intro st
    simp only [scanNumber]
    cases hs : st.step c with
    | none => rfl
    | some st1 =>
      simp only [List.cons_append, ih st1]

theorem scanNumber_rest (s : List Char) (st : NumState)
    (h : isNumber (scanNumber st s).1 = true) : (scanNumber st s).2.length < s.length := by
  have h1 := congrArg List.length (scanNumber_append_eq s st)
  rw [List.length_append] at h1
  have h2 : (scanNumber st s).1 ≠ [] := by
    intro h3
    rw [h3] at h
    exact absurd h (by decide)
  have h3 : 0 < (scanNumber st s).1.length := List.length_pos.mpr h2
  omega

theorem expect_rest (lit r r1 : List Char) (h : expect lit r = some r1) :
    r1.length ≤ r.length := by
  induction lit generalizing r with
  | nil =>
    simp only [expect, Option.some.injEq] at h
    rw [h]
  | cons a lit ih =>
    cases r with
    | nil => cases h
    | cons c r =>
      simp only [expect] at h
      split_ifs at h
      have := ih r h
      simp only [List.length_cons]
      omega

theorem length_of_skipWs_eq (s : List Char) (c : Char) (r : List Char)
    (h : skipWs s = c :: r) : r.length + 1 ≤ s.length := by
  have := skipWs_length s
  rw [h] at this
  simpa using this

mutual
theorem parseValue_stable (f : Nat) (s : List Char) (x : JSON × List Char)
    (h : parseValue f s = some x) :
    x.2.length < s.length ∧ ∀ g, s.length ≤ g → parseValue g s = some x := by
  match f with
  | 0 => cases h
  | f + 1 =>
    rw [parseValue] at h
    cases hsk : skipWs s with
    | nil => simp [hsk] at h
    | cons c r =>
      have hl := length_of_skipWs_eq s c r hsk
      simp only [hsk] at h
      by_cases hc1 : c = '{'
      · simp only [if_pos hc1] at h
        cases hsk2 : skipWs r with
        | nil => simp [hsk2] at h
        | cons c1 r1 =>
          have hl2 := length_of_skipWs_eq r c1 r1 hsk2
          simp only [hsk2] at h
          by_cases hd1 : c1 = '}'
          · simp only [if_pos hd1, Option.some.injEq] at h
            subst h
            refine ⟨by simp only; omega, ?_⟩
            intro g hg
            obtain ⟨g1, rfl⟩ : ∃ g1, g = g1 + 1 := ⟨g - 1, by omega⟩
            rw [parseValue]
            simp only [hsk, if_pos hc1, hsk2, if_pos hd1]
          · by_cases hd2 : c1 = '"'
            · simp only [if_neg hd1, if_pos hd2] at h
              cases hps : parseString r1 with
              | none => simp [hps] at h
              | some p =>
                obtain ⟨k, r2⟩ := p
                have hl3 := parseString_rest r1 k r2 hps
                simp only [hps] at h
                cases hsk3 : skipWs r2 with
                | nil => simp [hsk3] at h
                | cons c3 r3 =>
                  have hl4 := length_of_skipWs_eq r2 c3 r3 hsk3
                  simp only [hsk3] at h
                  by_cases he : c3 = ':'
                  · simp only [if_pos he] at h
                    cases hv : parseValue f r3 with
                    | none => simp [hv] at h
                    | some q =>
                      obtain ⟨v, r4⟩ := q
                      have ihv := parseValue_stable f r3 (v, r4) hv
                      simp only [hv] at h
                      cases hm : parseMemTail f r4 with
                      | none => simp [hm] at h
                      | some q2 =>
                        obtain ⟨ms, r5⟩ := q2
                        have ihm := parseMemTail_stable f r4 (ms, r5) hm
                        simp only [hm, Option.some.injEq] at h
                        subst h
                        have h1 := ihv.1
                        have h2 := ihm.1
                        simp only at h1 h2
                        refine ⟨by simp only; omega, ?_⟩
                        intro g hg
                        obtain ⟨g1, rfl⟩ : ∃ g1, g = g1 + 1 := ⟨g - 1, by omega⟩
                        rw [parseValue]
                        simp only [hsk, if_pos hc1, hsk2, if_neg hd1, if_pos hd2, hps, hsk3,
                          if_pos he, ihv.2 g1 (by omega), ihm.2 g1 (by omega)]
                  · simp only [if_neg he] at h
                    cases h
            · simp only [if_neg hd1, if_neg hd2] at h
              cases h
      · by_cases hc2 : c = '['
        · simp only [if_neg hc1, if_pos hc2] at h
          cases hsk2 : skipWs r with
          | nil => simp [hsk2] at h
          | cons c1 r1 =>
            have hl2 := length_of_skipWs_eq r c1 r1 hsk2
            simp only [hsk2] at h
            by_cases hd1 : c1 = ']'
            · simp only [if_pos hd1, Option.some.injEq] at h
              subst h
              refine ⟨by simp only; omega, ?_⟩
              intro g hg
              obtain ⟨g1, rfl⟩ : ∃ g1, g = g1 + 1 := ⟨g - 1, by omega⟩
              rw [parseValue]
              simp only [hsk, if_neg hc1, if_pos hc2, hsk2, if_pos hd1]
            · simp only [if_neg hd1] at h
              cases hv : parseValue f (c1 :: r1) with
              | none => simp [hv] at h
              | some q =>
                obtain ⟨v, r2⟩ := q
                have ihv := parseValue_stable f (c1 :: r1) (v, r2) hv
                simp only [hv] at h
                cases hm : parseTail f r2 with
                | none => simp [hm] at h
                | some q2 =>
                  obtain ⟨vs, r3⟩ := q2
                  have iht := parseTail_stable f r2 (vs, r3) hm
                  simp only [hm, Option.some.injEq] at h
                  subst h
                  have h1 := ihv.1
                  have h2 := iht.1
                  simp only [List.length_cons] at h1 h2
                  refine ⟨by simp only; omega, ?_⟩
                  intro g hg
                  obtain ⟨g1, rfl⟩ : ∃ g1, g = g1 + 1 := ⟨g - 1, by omega⟩
                  rw [parseValue]
                  simp only [hsk, if_neg hc1, if_pos hc2, hsk2, if_neg hd1,
                    ihv.2 g1 (by simp only [List.length_cons]; omega), iht.2 g1 (by omega)]
        · by_cases hc3 : c = '"'
          · simp only [if_neg hc1, if_neg hc2, if_pos hc3] at h
            cases hps : parseString r with
            | none => simp [hps] at h
            | some p =>
              obtain ⟨k, r2⟩ := p
              have hl3 := parseString_rest r k r2 hps
              simp only [hps, Option.some.injEq] at h
              subst h
              refine ⟨by simp only; omega, ?_⟩
              intro g hg
              obtain ⟨g1, rfl⟩ : ∃ g1, g = g1 + 1 := ⟨g - 1, by omega⟩
              rw [parseValue]
              simp only [hsk, if_neg hc1, if_neg hc2, if_pos hc3, hps]
          · by_cases hc4 : c = 't'
            · simp only [if_neg hc1, if_neg hc2, if_neg hc3, if_pos hc4] at h
              cases hx : expect ['r', 'u', 'e'] r with
              | none => simp [hx] at h
              | some r1 =>
                have hl5 := expect_rest _ _ _ hx
                simp only [hx, Option.some.injEq] at h
                subst h
                refine ⟨by simp only; omega, ?_⟩
                intro g hg
                obtain ⟨g1, rfl⟩ : ∃ g1, g = g1 + 1 := ⟨g - 1, by omega⟩
                rw [parseValue]
                simp only [hsk, if_neg hc1, if_neg hc2, if_neg hc3, if_pos hc4, hx]
            · by_cases hc5 : c = 'f'
              · simp only [if_neg hc1, if_neg hc2, if_neg hc3, if_neg hc4, if_pos hc5] at h
                cases hx : expect ['a', 'l', 's', 'e'] r with
                | none => simp [hx] at h
                | some r1 =>
                  have hl5 := expect_rest _ _ _ hx
                  simp only [hx, Option.some.injEq] at h
                  subst h
                  refine ⟨by simp only; omega, ?_⟩
                  intro g hg
                  obtain ⟨g1, rfl⟩ : ∃ g1, g = g1 + 1 := ⟨g - 1, by omega⟩
                  rw [parseValue]
                  simp only [hsk, if_neg hc1, if_neg hc2, if_neg hc3, if_neg hc4, if_pos hc5,
                    hx]
              · by_cases hc6 : c = 'n'
                · simp only [if_neg hc1, if_neg hc2, if_neg hc3, if_neg hc4, if_neg hc5,
                    if_pos hc6] at h
                  cases hx : expect ['u', 'l', 'l'] r with
                  | none => simp [hx] at h
                  | some r1 =>
                    have hl5 := expect_rest _ _ _ hx
                    simp only [hx, Option.some.injEq] at h
                    subst h
                    refine ⟨by simp only; omega, ?_⟩
                    intro g hg
                    obtain ⟨g1, rfl⟩ : ∃ g1, g = g1 + 1 := ⟨g - 1, by omega⟩
                    rw [parseValue]
                    simp only [hsk, if_neg hc1, if_neg hc2, if_neg hc3, if_neg hc4,
                      if_neg hc5, if_pos hc6, hx]
                · simp only [if_neg hc1, if_neg hc2, if_neg hc3, if_neg hc4, if_neg hc5,
                    if_neg hc6] at h
                  split_ifs at h with hn
                  simp only [Option.some.injEq] at h
                  subst h
                  have hr := scanNumber_rest (c :: r) .start hn
                  refine ⟨by simp only [List.length_cons] at hr ⊢; omega, ?_⟩
                  intro g hg
                  obtain ⟨g1, rfl⟩ : ∃ g1, g = g1 + 1 := ⟨g - 1, by omega⟩
                  rw [parseValue]
                  simp only [hsk, if_neg hc1, if_neg hc2, if_neg hc3, if_neg hc4, if_neg hc5,
                    if_neg hc6, hn, dite_true]
theorem parseTail_stable (f : Nat) (s : List Char) (x : List JSON × List Char)
    (h : parseTail f s = some x) :
    x.2.length < s.length ∧ ∀ g, s.length ≤ g → parseTail g s = some x := by
  match f with
  | 0 => cases h
  | f + 1 =>
    rw [parseTail] at h
    cases hsk : skipWs s with
    | nil => simp [hsk] at h
    | cons c r =>
      have hl := length_of_skipWs_eq s c r hsk
      simp only [hsk] at h
      by_cases hc1 : c = ','
      · simp only [if_pos hc1] at h
        cases hv : parseValue f r with
        | none => simp [hv] at h
        | some q =>
          obtain ⟨v, r1⟩ := q
          have ihv := parseValue_stable f r (v, r1) hv
          simp only [hv] at h
          cases hm : parseTail f r1 with
          | none => simp [hm] at h
          | some q2 =>
            obtain ⟨vs, r2⟩ := q2
            have iht := parseTail_stable f r1 (vs, r2) hm
            simp only [hm, Option.some.injEq] at h
            subst h
            have h1 := ihv.1
            have h2 := iht.1
            simp only at h1 h2
            refine ⟨by simp only; omega, ?_⟩
            intro g hg
            obtain ⟨g1, rfl⟩ : ∃ g1, g = g1 + 1 := ⟨g - 1, by omega⟩
            rw [parseTail]
            simp only [hsk, if_pos hc1, ihv.2 g1 (by omega), iht.2 g1 (by omega)]
      · by_cases hc2 : c = ']'
        · simp only [if_neg hc1, if_pos hc2, Option.some.injEq] at h
          subst h
          refine ⟨by simp only; omega, ?_⟩
          intro g hg
          obtain ⟨g1, rfl⟩ : ∃ g1, g = g1 + 1 := ⟨g - 1, by omega⟩
          rw [parseTail]
          simp only [hsk, if_neg hc1, if_pos hc2]
        · simp only [if_neg hc1, if_neg hc2] at h
          cases h
theorem parseMemTail_stable (f : Nat) (s : List Char)
    (x : List (GoString × JSON) × List Char) (h : parseMemTail f s = some x) :
    x.2.length < s.length ∧ ∀ g, s.length ≤ g → parseMemTail g s = some x := by
  match f with
  | 0 => cases h
  | f + 1 =>
    rw [parseMemTail] at h
    cases hsk : skipWs s with
    | nil => simp [hsk] at h
    | cons c r =>
      have hl := length_of_skipWs_eq s c r hsk
      simp only [hsk] at h
      by_cases hc1 : c = ','
      · simp only [if_pos hc1] at h
        cases hsk2 : skipWs r with
        | nil => simp [hsk2] at h
        | cons c1 r1 =>
          have hl2 := length_of_skipWs_eq r c1 r1 hsk2
          simp only [hsk2] at h
          by_cases hd2 : c1 = '"'
          · simp only [if_pos hd2] at h
            cases hps : parseString r1 with
            | none => simp [hps] at h
            | some p =>
              obtain ⟨k, r2⟩ := p
              have hl3 := parseString_rest r1 k r2 hps
              simp only [hps] at h
              cases hsk3 : skipWs r2 with
              | nil => simp [hsk3] at h
              | cons c3 r3 =>
                have hl4 := length_of_skipWs_eq r2 c3 r3 hsk3
                simp only [hsk3] at h
                by_cases he : c3 = ':'
                · simp only [if_pos he] at h
                  cases hv : parseValue f r3 with
                  | none => simp [hv] at h
                  | some q =>
                    obtain ⟨v, r4⟩ := q
                    have ihv := parseValue_stable f r3 (v, r4) hv
                    simp only [hv] at h
                    cases hm : parseMemTail f r4 with
                    | none => simp [hm] at h
                    | some q2 =>
                      obtain ⟨ms, r5⟩ := q2
                      have ihm := parseMemTail_stable f r4 (ms, r5) hm
                      simp only [hm, Option.some.injEq] at h
                      subst h
                      have h1 := ihv.1
                      have h2 := ihm.1
                      simp only at h1 h2
                      refine ⟨by simp only; omega, ?_⟩
                      intro g hg
                      obtain ⟨g1, rfl⟩ : ∃ g1, g = g1 + 1 := ⟨g - 1, by omega⟩
                      rw [parseMemTail]
                      simp only [hsk, if_pos hc1, hsk2, if_pos hd2, hps, hsk3, if_pos he,
                        ihv.2 g1 (by omega), ihm.2 g1 (by omega)]
                · simp only [if_neg he] at h
                  cases h
          · simp only [if_neg hd2] at h
            cases h
      · by_cases hc2 : c = '}'
        · simp only [if_neg hc1, if_pos hc2, Option.some.injEq] at h
          subst h
          refine ⟨by simp only; omega, ?_⟩
          intro g hg
          obtain ⟨g1, rfl⟩ : ∃ g1, g = g1 + 1 := ⟨g - 1, by omega⟩
          rw [parseMemTail]
          simp only [hsk, if_neg hc1, if_pos hc2]
        · simp only [if_neg hc1, if_neg hc2] at h
          cases h
end

/-- The length of the input is enough as a bound: any larger bound gives the same
result, success or failure. -/
theorem parseValue_bound_irrelevant (s : List Char) (g : Nat) (hg : s.length ≤ g) :
    parseValue g s = parseValue s.length s := by
  cases h1 : parseValue g s with
  | some x => exact ((parseValue_stable g s x h1).2 s.length (Nat.le_refl _)).symm
  | none =>
    cases h2 : parseValue s.length s with
    | none => rfl
    | some x =>
      have := (parseValue_stable s.length s x h2).2 g hg
      rw [h1] at this
      cases this

theorem parseStringBody_stable (f : Nat) :
    ∀ (s : List Char) (x : GoString × List Char), parseStringBody f s = some x →
      ∀ g, s.length ≤ g → parseStringBody g s = some x := by
  induction f with
  | zero => intro s x h; cases s <;> cases h
  | succ f ih =>
    intro s x h g hg
    cases s with
    | nil => cases h
    | cons c cs =>
      obtain ⟨g1, rfl⟩ : ∃ g1, g = g1 + 1 := ⟨g - 1, by simp at hg; omega⟩
      simp only [parseStringBody] at h ⊢
      by_cases hq : c = '"'
      · simp only [if_pos hq] at h ⊢
        exact h
      · simp only [if_neg hq] at h ⊢
        cases hi : stringItem c cs with
        | none => simp [hi] at h
        | some p =>
          obtain ⟨y, r0⟩ := p
          simp only [hi] at h ⊢
          cases hb : parseStringBody f r0 with
          | none => simp [hb] at h
          | some q =>
            have h1 := stringItem_rest _ _ _ _ hi
            have h2 := ih r0 q hb g1 (by simp only [List.length_cons] at hg; omega)
            simp only [hb] at h
            simp only [h2]
            exact h

/-- The length of the input is enough as a bound for a string body. -/
theorem parseStringBody_bound_irrelevant (s : List Char) (g : Nat) (hg : s.length ≤ g) :
    parseStringBody g s = parseString s := by
  unfold parseString
  cases h1 : parseStringBody g s with
  | some x => exact (parseStringBody_stable g s x h1 s.length (Nat.le_refl _)).symm
  | none =>
    cases h2 : parseStringBody s.length s with
    | none => rfl
    | some x =>
      have := parseStringBody_stable s.length s x h2 g hg
      rw [h1] at this
      cases this

theorem decodeRune_width_pos (b : Nat) (bs : Bytes) : 1 ≤ (decodeRune (b :: bs)).2 := by
  simp only [decodeRune]
  repeat' split
  all_goals simp

/-- The length of the input is enough as a bound for reading bytes as runes. -/
theorem utf8DecodeAux_bound_irrelevant (n : Nat) :
    ∀ (bs : Bytes) (f g : Nat), bs.length ≤ n → bs.length ≤ f → bs.length ≤ g →
      utf8DecodeAux f bs = utf8DecodeAux g bs := by
  induction n with
  | zero =>
    intro bs f g hn _ _
    have : bs = [] := List.length_eq_zero.mp (by omega)
    subst this
    cases f <;> cases g <;> rfl
  | succ n ih =>
    intro bs f g hn hf hg
    cases bs with
    | nil => cases f <;> cases g <;> rfl
    | cons b bs =>
      obtain ⟨f1, rfl⟩ : ∃ f1, f = f1 + 1 := ⟨f - 1, by simp at hf; omega⟩
      obtain ⟨g1, rfl⟩ : ∃ g1, g = g1 + 1 := ⟨g - 1, by simp at hg; omega⟩
      simp only [utf8DecodeAux]
      have hw := decodeRune_width_pos b bs
      have hlen : ((b :: bs).drop (decodeRune (b :: bs)).2).length ≤ bs.length := by
        simp only [List.length_drop, List.length_cons]
        omega
      simp only [List.length_cons] at hn hf hg
      rw [ih _ f1 g1 (by omega) (by omega) (by omega)]

theorem fromBytes_zeros (k acc : Nat) :
    (List.replicate k 0).foldl (fun a b => a * 256 + b % 256) acc = acc * 256 ^ k := by
  induction k generalizing acc with
  | zero => simp
  | succ k ih =>
    simp only [List.replicate_succ, List.foldl_cons, Nat.zero_mod, Nat.add_zero, ih]
    rw [Nat.pow_succ, Nat.mul_assoc, Nat.mul_comm 256]

theorem randIntLoop_nil (max k b fuel : Nat) (hmax : 0 < max) :
    randIntLoop max k b fuel [] = 0 := by
  cases fuel with
  | zero => rfl
  | succ f =>
    have h0 : fromBytes (maskFirst b (readFull [] k).1) = 0 := by
      cases k with
      | zero => rfl
      | succ k =>
        have := fromBytes_zeros k 0
        simp only [Nat.zero_mul] at this
        simp [readFull, maskFirst, fromBytes, List.replicate_succ, this]
    simp only [randIntLoop, h0, if_pos hmax]

/-- The bound on the number of draws of `randInt` is never reached: any bound above
the length of the given beginning of the stream gives the same result. -/
theorem randIntLoop_bound_irrelevant (max k b : Nat) (hmax : 0 < max) (hk : 0 < k) (n : Nat) :
    ∀ (reader : Bytes) (f g : Nat), reader.length ≤ n → reader.length < f →
      reader.length < g → randIntLoop max k b f reader = randIntLoop max k b g reader := by
  induction n with
  | zero =>
    intro reader f g hn _ _
    have : reader = [] := List.length_eq_zero.mp (by omega)
    subst this
    rw [randIntLoop_nil _ _ _ _ hmax, randIntLoop_nil _ _ _ _ hmax]
  | succ n ih =>
    intro reader f g hn hf hg
    cases reader with
    | nil => rw [randIntLoop_nil _ _ _ _ hmax, randIntLoop_nil _ _ _ _ hmax]
    | cons x xs =>
      obtain ⟨f1, rfl⟩ : ∃ f1, f = f1 + 1 := ⟨f - 1, by omega⟩
      obtain ⟨g1, rfl⟩ : ∃ g1, g = g1 + 1 := ⟨g - 1, by omega⟩
      simp only [randIntLoop]
      split_ifs
      · rfl
      · simp only [List.length_cons] at hn hf hg
        have hlen : ((x :: xs).drop k).length ≤ xs.length := by
          simp only [List.length_drop, List.length_cons]
          omega
        exact ih _ f1 g1 (by simp only [readFull]; omega) (by simp only [readFull]; omega)
          (by simp only [readFull]; omega)

/-! ## Reading back what the encoder wrote for a value -/

theorem insertByKey_perm {α : Type} (k : GoString) (v : α) (l : List (GoString × α)) :
    (insertByKey k v l).Perm ((k, v) :: l) := by
  induction l with
  | nil => exact List.Perm.refl _
  | cons a rest ih =>
    obtain ⟨k1, v1⟩ := a
    simp only [insertByKey]
    split_ifs
    · exact List.Perm.refl _
    · exact (List.Perm.cons _ ih).trans (List.Perm.swap _ _ _)

/-- Sorting by key only reorders the entries. -/
theorem sortByKey_perm {α : Type} (l : List (GoString × α)) : (sortByKey l).Perm l := by
  induction l with
  | nil => exact List.Perm.refl _
  | cons a rest ih =>
    obtain ⟨k, v⟩ := a
    simp only [sortByKey]
    exact (insertByKey_perm k v _).trans (List.Perm.cons _ ih)

theorem keysDistinct_sortByKey {α : Type} (l : List (GoString × α))
    (h : keysDistinct l = true) : keysDistinct (sortByKey l) = true := by
  simp only [keysDistinct, decide_eq_true_eq] at h ⊢
  exact ((sortByKey_perm l).map Prod.fst).nodup_iff.mpr h

theorem canonEntries_keys (m : List (GoString × GoValue)) :
    (GoValue.canonEntries m).map Prod.fst = m.map Prod.fst := by
  induction m with
  | nil => rfl
  | cons a rest ih =>
    obtain ⟨k, v⟩ := a
    simp only [GoValue.canonEntries, List.map_cons, ih]

theorem mapSet_fresh (m : List (GoString × GoValue)) (k : GoString) (v : GoValue)
    (h : k ∉ m.map Prod.fst) : mapSet m k v = m ++ [(k, v)] := by
  induction m with
  | nil => rfl
  | cons a rest ih =>
    obtain ⟨k1, v1⟩ := a
    simp only [List.map_cons, List.mem_cons, not_or] at h
    have hne : ¬ k1 = k := fun e => h.1 e.symm
    simp only [mapSet, if_neg hne, ih h.2, List.cons_append]

theorem mapSetAll_fresh (kvs : List (GoString × GoValue)) :
    ∀ m : List (GoString × GoValue), ((m ++ kvs).map Prod.fst).Nodup →
      mapSetAll m kvs = m ++ kvs := by
  induction kvs with
  | nil => intro m _; simp [mapSetAll]
  | cons a rest ih =>
    obtain ⟨k, v⟩ := a
    intro m h
    have hk : k ∉ m.map Prod.fst := by
      intro hmem
      rw [List.map_append, List.map_cons] at h
      have := (List.nodup_append.mp h).2.2
      exact this hmem (List.mem_cons_self _ _)
    simp only [mapSetAll, mapSet_fresh m k v hk]
    rw [ih (m ++ [(k, v)]) (by simpa using h)]
    simp

/-- Storing entries with distinct keys into an empty map gives these entries. -/
theorem mapSetAll_nil_of_distinct (kvs : List (GoString × GoValue))
    (h : keysDistinct kvs = true) : mapSetAll [] kvs = kvs := by
  simp only [keysDistinct, decide_eq_true_eq] at h
  simpa using mapSetAll_fresh kvs [] (by simpa using h)

theorem insertByKey_reads (lib : Lib) (k : GoString) (v : Except GoString JSON)
    (v1 : GoValue) (l : List (GoString × Except GoString JSON))
    (l1 : List (GoString × GoValue)) (hv : Reads lib (k, v) (k, v1))
    (hl : List.Forall₂ (Reads lib) l l1) :
    List.Forall₂ (Reads lib) (insertByKey k v l) (insertByKey k v1 l1) := by
  induction hl with
  | nil => exact List.Forall₂.cons hv List.Forall₂.nil
  | @cons a b rest rest1 hab hrest ih =>
    obtain ⟨ka, va⟩ := a
    obtain ⟨kb, vb⟩ := b
    have hk : ka = kb := hab.1
    subst hk
    simp only [insertByKey]
    split_ifs
    · exact List.Forall₂.cons hv (List.Forall₂.cons hab hrest)
    · exact List.Forall₂.cons hab ih

theorem sortByKey_reads (lib : Lib) (l : List (GoString × Except GoString JSON))
    (l1 : List (GoString × GoValue)) (hl : List.Forall₂ (Reads lib) l l1) :
    List.Forall₂ (Reads lib) (sortByKey l) (sortByKey l1) := by
  induction hl with
  | nil => exact List.Forall₂.nil
  | @cons a b rest rest1 hab hrest ih =>
    obtain ⟨ka, va⟩ := a
    obtain ⟨kb, vb⟩ := b
    have hk : ka = kb := hab.1
    subst hk
    simp only [sortByKey]
    exact insertByKey_reads lib ka va vb _ _ hab ih

theorem collectMembers_reads (lib : Lib) (l : List (GoString × Except GoString JSON))
    (l1 : List (GoString × GoValue)) (hl : List.Forall₂ (Reads lib) l l1) :
    ∀ js, collectMembers l = .ok js → GoValue.ofJSONMembers lib js = some l1 := by
  induction hl with
  | nil =>
    intro js h
    simp only [collectMembers, Except.ok.injEq] at h
    subst h
    rfl
  | @cons a b rest rest1 hab hrest ih =>
    obtain ⟨ka, va⟩ := a
    obtain ⟨kb, vb⟩ := b
    intro js h
    cases va with
    | error e => simp [collectMembers] at h
    | ok j =>
      simp only [collectMembers] at h
      cases hc : collectMembers rest with
      | error e => simp [hc] at h
      | ok js1 =>
        simp only [hc, Except.ok.injEq] at h
        subst h
        have hk : ka = kb := hab.1
        have hj := hab.2 j rfl
        simp only at hj
        subst hk
        simp only [GoValue.ofJSONMembers, hj, ih js1 hc]

mutual
/-- What the encoder writes for a well-formed value is read back as that value, the
entries of its maps in key order. -/
theorem ofJSON_toJSON (lib : Lib) (hlib : lib.RoundTrips) (v : GoValue) (j : JSON)
    (hw : v.wellFormed = true) (h : GoValue.toJSON lib v = .ok j) :
    GoValue.ofJSON lib j = some v.canon := by
  match v with
  | .nil =>
    simp only [GoValue.toJSON, Except.ok.injEq] at h
    subst h
    rfl
  | .bool b =>
    simp only [GoValue.toJSON, Except.ok.injEq] at h
    subst h
    rfl
  | .float64 bits =>
    simp only [GoValue.toJSON] at h
    split_ifs at h with hf
    simp only [Except.ok.injEq] at h
    subst h
    have := hlib ⟨bits, hf⟩
    simp only at this
    simp only [GoValue.ofJSON, this, GoValue.canon]
  | .string s =>
    simp only [GoValue.toJSON, Except.ok.injEq] at h
    subst h
    rfl
  | .slice xs =>
    simp only [GoValue.wellFormed] at hw
    simp only [GoValue.toJSON] at h
    cases hl : GoValue.toJSONList lib xs with
    | error e => simp [hl] at h
    | ok js =>
      simp only [hl, Except.ok.injEq] at h
      subst h
      simp only [GoValue.ofJSON, ofJSONList_toJSONList lib hlib xs js hw hl, GoValue.canon]
  | .map m =>
    simp only [GoValue.wellFormed, Bool.and_eq_true] at hw
    simp only [GoValue.toJSON] at h
    cases hc : collectMembers (sortByKey (GoValue.toJSONEntries lib m)) with
    | error e => simp [hc] at h
    | ok js =>
      simp only [hc, Except.ok.injEq] at h
      subst h
      have hr := sortByKey_reads lib _ _ (toJSONEntries_reads lib hlib m hw.2)
      have hm := collectMembers_reads lib _ _ hr js hc
      have hd : keysDistinct (sortByKey (GoValue.canonEntries m)) = true := by
        apply keysDistinct_sortByKey
        simp only [keysDistinct, decide_eq_true_eq, canonEntries_keys] at hw ⊢
        exact hw.1
      simp only [GoValue.ofJSON, hm, mapSetAll_nil_of_distinct _ hd, GoValue.canon]
  | .unsupported t => simp [GoValue.toJSON] at h
theorem ofJSONList_toJSONList (lib : Lib) (hlib : lib.RoundTrips) (xs : List GoValue)
    (js : List JSON) (hw : GoValue.wellFormedList xs = true)
    (h : GoValue.toJSONList lib xs = .ok js) :
    GoValue.ofJSONList lib js = some (GoValue.canonList xs) := by
  match xs with
  | [] =>
    simp only [GoValue.toJSONList, Except.ok.injEq] at h
    subst h
    rfl
  | x :: xs =>
    simp only [GoValue.wellFormedList, Bool.and_eq_true] at hw
    simp only [GoValue.toJSONList] at h
    cases h1 : GoValue.toJSON lib x with
    | error e => simp [h1] at h
    | ok j =>
      cases h2 : GoValue.toJSONList lib xs with
      | error e => simp [h1, h2] at h
      | ok js1 =>
        simp only [h1, h2, Except.ok.injEq] at h
        subst h
        simp only [GoValue.ofJSONList, ofJSON_toJSON lib hlib x j hw.1 h1,
          ofJSONList_toJSONList lib hlib xs js1 hw.2 h2, GoValue.canonList]
theorem toJSONEntries_reads (lib : Lib) (hlib : lib.RoundTrips)
    (m : List (GoString × GoValue)) (hw : GoValue.wellFormedEntries m = true) :
    List.Forall₂ (Reads lib) (GoValue.toJSONEntries lib m) (GoValue.canonEntries m) := by
  match m with
  | [] => exact List.Forall₂.nil
  | (k, v) :: m =>
    simp only [GoValue.wellFormedEntries, Bool.and_eq_true] at hw
    simp only [GoValue.toJSONEntries, GoValue.canonEntries]
    exact List.Forall₂.cons ⟨rfl, fun j hj => ofJSON_toJSON lib hlib v j hw.1 hj⟩
      (toJSONEntries_reads lib hlib m hw.2)
end

/-! ## The example library reads back what it writes -/

theorem digitChar_value (k : Nat) (h : k < 10) :
    isDigit (Nat.digitChar k) = true ∧ (Nat.digitChar k).toNat - 48 = k := by
  refine ⟨digitChar_isDigit k h, ?_⟩
  rw [digitChar_toNat k h]
  omega

theorem digitsValue_toDigitsCore (fuel : Nat) :
    ∀ (n : Nat) (ds : List Char), n < fuel →
      ∃ len, ∀ acc, digitsValue (Nat.toDigitsCore 10 fuel n ds) acc
        = digitsValue ds (acc * 10 ^ len + n) := by
  induction fuel with
  | zero => intro n ds h; omega
  | succ fuel ih =>
    intro n ds hn
    have hd := digitChar_value (n % 10) (Nat.mod_lt _ (by decide))
    simp only [Nat.toDigitsCore]
    by_cases hz : n / 10 = 0
    · rw [if_pos hz]
      refine ⟨1, fun acc => ?_⟩
      simp only [digitsValue, hd.1, if_true, hd.2]
      congr 1
      omega
    · rw [if_neg hz]
      obtain ⟨len, hlen⟩ := ih (n / 10) (Nat.digitChar (n % 10) :: ds) (by omega)
      refine ⟨len + 1, fun acc => ?_⟩
      rw [hlen acc]
      simp only [digitsValue, hd.1, if_true, hd.2]
      congr 1
      rw [Nat.pow_succ]
      have := Nat.div_add_mod n 10
      nlinarith [this]

theorem digitsValue_toDigits (n : Nat) : digitsValue (Nat.toDigits 10 n) 0 = some n := by
  obtain ⟨len, h⟩ := digitsValue_toDigitsCore (n + 1) n [] (by omega)
  have := h 0
  simpa [Nat.toDigits, digitsValue] using this

/-- The example library reads back every float64 it writes. -/
theorem exampleLib_roundTrips : exampleLib.RoundTrips := by
  intro f
  have hv : (formatInt ((f.val : Nat) : Int)).val = Nat.toDigits 10 f.val := by
    rw [formatInt_val, intText, if_neg (by omega)]
    rfl
  show (match digitsValue (formatInt ((f.val : Nat) : Int)).val 0 with
    | none => none
    | some n => if h : isFinite n = true then some ⟨n, h⟩ else none) = some f
  rw [hv, digitsValue_toDigits]
  simp only [f.property, dite_true]

/-! ## Decoded arguments are well formed -/

theorem mem_keys_mapSet (m : List (GoString × GoValue)) (k : GoString) (v : GoValue)
    (x : GoString) (h : x ∈ (mapSet m k v).map Prod.fst) : x ∈ m.map Prod.fst ∨ x = k := by
  induction m with
  | nil =>
    simp only [mapSet, List.map_cons, List.map_nil, List.mem_singleton] at h
    exact Or.inr h
  | cons a rest ih =>
    obtain ⟨k1, v1⟩ := a
    simp only [mapSet] at h
    split_ifs at h with he
    · simp only [List.map_cons, List.mem_cons] at h ⊢
      rcases h with h | h
      · exact Or.inr h
      · exact Or.inl (Or.inr h)
    · simp only [List.map_cons, List.mem_cons] at h ⊢
      rcases h with h | h
      · exact Or.inl (Or.inl h)
      · rcases ih h with h2 | h2
        · exact Or.inl (Or.inr h2)
        · exact Or.inr h2

theorem mapSet_keysDistinct (m : List (GoString × GoValue)) (k : GoString) (v : GoValue)
    (h : keysDistinct m = true) : keysDistinct (mapSet m k v) = true := by
  simp only [keysDistinct, decide_eq_true_eq] at h ⊢
  induction m with
  | nil => simp [mapSet]
  | cons a rest ih =>
    obtain ⟨k1, v1⟩ := a
    simp only [List.map_cons, List.nodup_cons] at h
    simp only [mapSet]
    split_ifs with he
    · subst he
      simp only [List.map_cons, List.nodup_cons]
      exact h
    · simp only [List.map_cons, List.nodup_cons]
      refine ⟨?_, ih h.2⟩
      intro hmem
      rcases mem_keys_mapSet rest k v k1 hmem with h2 | h2
      · exact h.1 h2
      · exact he h2

theorem mapSet_wellFormedEntries (m : List (GoString × GoValue)) (k : GoString)
    (v : GoValue) (hm : GoValue.wellFormedEntries m = true) (hv : v.wellFormed = true) :
    GoValue.wellFormedEntries (mapSet m k v) = true := by
  induction m with
  | nil => simp [mapSet, GoValue.wellFormedEntries, hv]
  | cons e rest ih =>
    obtain ⟨k1, v1⟩ := e
    simp only [GoValue.wellFormedEntries, Bool.and_eq_true] at hm
    simp only [mapSet]
    split_ifs
    · simp only [GoValue.wellFormedEntries, Bool.and_eq_true]
      exact ⟨hv, hm.2⟩
    · simp only [GoValue.wellFormedEntries, Bool.and_eq_true]
      exact ⟨hm.1, ih hm.2⟩

theorem mapSetAll_wellFormed (kvs : List (GoString × GoValue)) :
    ∀ m : List (GoString × GoValue), keysDistinct m = true →
      GoValue.wellFormedEntries m = true → GoValue.wellFormedEntries kvs = true →
      keysDistinct (mapSetAll m kvs) = true ∧
        GoValue.wellFormedEntries (mapSetAll m kvs) = true := by
  induction kvs with
  | nil => intro m hd hm _; exact ⟨hd, hm⟩
  | cons e rest ih =>
    obtain ⟨k, v⟩ := e
    intro m hd hm hk
    simp only [GoValue.wellFormedEntries, Bool.and_eq_true] at hk
    simp only [mapSetAll]
    exact ih _ (mapSet_keysDistinct m k v hd) (mapSet_wellFormedEntries m k v hm hk.1) hk.2

mutual
theorem ofJSON_wellFormed (lib : Lib) (j : JSON) (v : GoValue)
    (h : GoValue.ofJSON lib j = some v) : v.wellFormed = true := by
  match j with
  | .null => simp only [GoValue.ofJSON, Option.some.injEq] at h; subst h; rfl
  | .bool b => simp only [GoValue.ofJSON, Option.some.injEq] at h; subst h; rfl
  | .num lit =>
    simp only [GoValue.ofJSON] at h
    cases hp : lib.parseFloat lit with
    | none => simp [hp] at h
    | some f =>
      simp only [hp, Option.some.injEq] at h
      subst h
      rfl
  | .str s => simp only [GoValue.ofJSON, Option.some.injEq] at h; subst h; rfl
  | .arr xs =>
    simp only [GoValue.ofJSON] at h
    cases hp : GoValue.ofJSONList lib xs with
    | none => simp [hp] at h
    | some vs =>
      simp only [hp, Option.some.injEq] at h
      subst h
      exact ofJSONList_wellFormed lib xs vs hp
  | .obj ms =>
    simp only [GoValue.ofJSON] at h
    cases hp : GoValue.ofJSONMembers lib ms with
    | none => simp [hp] at h
    | some kvs =>
      simp only [hp, Option.some.injEq] at h
      subst h
      have := mapSetAll_wellFormed kvs [] rfl rfl (ofJSONMembers_wellFormed lib ms kvs hp)
      simp only [GoValue.wellFormed, Bool.and_eq_true]
      exact this
theorem ofJSONList_wellFormed (lib : Lib) (xs : List JSON) (vs : List GoValue)
    (h : GoValue.ofJSONList lib xs = some vs) : GoValue.wellFormedList vs = true := by
  match xs with
  | [] => simp only [GoValue.ofJSONList, Option.some.injEq] at h; subst h; rfl
  | x :: xs =>
    simp only [GoValue.ofJSONList] at h
    cases h1 : GoValue.ofJSON lib x with
    | none => simp [h1] at h
    | some v =>
      cases h2 : GoValue.ofJSONList lib xs with
      | none => simp [h1, h2] at h
      | some vs1 =>
        simp only [h1, h2, Option.some.injEq] at h
        subst h
        simp only [GoValue.wellFormedList, Bool.and_eq_true]
        exact ⟨ofJSON_wellFormed lib x v h1, ofJSONList_wellFormed lib xs vs1 h2⟩
theorem ofJSONMembers_wellFormed (lib : Lib) (ms : List (GoString × JSON))
    (kvs : List (GoString × GoValue))
    (h : GoValue.ofJSONMembers lib ms = some kvs) :
    GoValue.wellFormedEntries kvs = true := by
  match ms with
  | [] => simp only [GoValue.ofJSONMembers, Option.some.injEq] at h; subst h; rfl
  | (k, x) :: ms =>
    simp only [GoValue.ofJSONMembers] at h
    cases h1 : GoValue.ofJSON lib x with
    | none => simp [h1] at h
    | some v =>
      cases h2 : GoValue.ofJSONMembers lib ms with
      | none => simp [h1, h2] at h
      | some kvs1 =>
        simp only [h1, h2, Option.some.injEq] at h
        subst h
        simp only [GoValue.wellFormedEntries, Bool.and_eq_true]
        exact ⟨ofJSON_wellFormed lib x v h1, ofJSONMembers_wellFormed lib ms kvs1 h2⟩
end

theorem decodeMapField_wellFormed (lib : Lib) (j : JSON)
    (old m : Option (List (GoString × GoValue)))
    (hold : wellFormedArgs old = true) (h : decodeMapField lib j old = .ok m) :
    wellFormedArgs m = true := by
  unfold decodeMapField at h
  split at h
  · rename_i ms
    cases hp : GoValue.ofJSONMembers lib ms with
    | none => simp [hp] at h
    | some kvs =>
      simp only [hp, Except.ok.injEq] at h
      subst h
      have hk := ofJSONMembers_wellFormed lib ms kvs hp
      have ho : keysDistinct (old.getD []) = true ∧
          GoValue.wellFormedEntries (old.getD []) = true := by
        cases old with
        | none => exact ⟨rfl, rfl⟩
        | some o =>
          simpa only [wellFormedArgs, GoValue.wellFormed, Bool.and_eq_true] using hold
      have := mapSetAll_wellFormed kvs _ ho.1 ho.2 hk
      simp only [wellFormedArgs, GoValue.wellFormed, Bool.and_eq_true]
      exact this
  · simp only [Except.ok.injEq] at h
    subst h
    rfl
  · cases h

theorem decodeFields_wellFormed (lib : Lib) (ms : List (GoString × JSON)) :
    ∀ (b body : callRequestBody), wellFormedArgs b.Arguments = true →
      decodeFields lib ms b = .ok body → wellFormedArgs body.Arguments = true := by
  induction ms with
  | nil =>
    intro b body hb h
    simp only [decodeFields, Except.ok.injEq] at h
    subst h
    exact hb
  | cons e rest ih =>
    obtain ⟨k, v⟩ := e
    intro b body hb h
    simp only [decodeFields] at h
    split_ifs at h
    · cases hs : decodeStringField v b.Tool with
      | error e => simp [hs] at h
      | ok s =>
        simp only [hs] at h
        refine ih _ body ?_ h
        exact hb
    · cases hs : decodeMapField lib v b.Arguments with
      | error e => simp [hs] at h
      | ok m =>
        simp only [hs] at h
        exact ih _ body (decodeMapField_wellFormed lib v _ m hb hs) h
    · cases hs : decodeStringField v b.ServerCmd with
      | error e => simp [hs] at h
      | ok s =>
        simp only [hs] at h
        refine ih _ body ?_ h
        exact hb
    · cases hs : decodeStringField v b.GithubPAT with
      | error e => simp [hs] at h
      | ok s =>
        simp only [hs] at h
        refine ih _ body ?_ h
        exact hb
    · exact ih _ body hb h

/-- The arguments of a decoded request are well formed: the maps the decoder builds
have distinct keys. -/
theorem decodeBody_wellFormed (lib : Lib) (reqBody : Bytes) (body : callRequestBody)
    (h : decodeBody lib reqBody = .ok body) : wellFormedArgs body.Arguments = true := by
  unfold decodeBody at h
  simp only [] at h
  split at h
  · cases h
  · split_ifs at h
    split at h
    · exact decodeFields_wellFormed lib _ callRequestBody.zero body rfl h
    · simp only [Except.ok.injEq] at h
      subst h
      rfl
    · cases h

/-! ## The environment the process receives -/

theorem indexEq_append (k v : GoString) (hk : '=' ∉ k) :
    indexEq (k ++ '=' :: v) = some k.length := by
  induction k with
  | nil => simp [indexEq]
  | cons c k ih =>
    have hc : c ≠ '=' := fun h => hk (h ▸ List.mem_cons_self _ _)
    have hk2 : '=' ∉ k := fun h => hk (List.mem_cons_of_mem _ h)
    have h2 := ih hk2
    show indexEq (c :: (k ++ '=' :: v)) = some (k.length + 1)
    simp only [indexEq, if_neg hc, h2]

/-- The key of an entry made of a name without `=`, an `=` and a value is the name. -/
theorem envKey_append (k v : GoString) (hk : '=' ∉ k) (hne : k ≠ []) :
    envKey (k ++ '=' :: v) = some k := by
  cases k with
  | nil => exact absurd rfl hne
  | cons c k =>
    have h := indexEq_append (c :: k) v hk
    simp only [List.length_cons] at h
    simp only [envKey, h]
    congr 1
    have := List.take_left (c :: k) ('=' :: v)
    simp

theorem dedupLoop_sublist (l : List GoString) :
    ∀ saw out, ∃ s, s.Sublist l.reverse ∧ dedupLoop l saw out = s ++ out := by
  induction l with
  | nil => intro saw out; exact ⟨[], List.Sublist.refl _, rfl⟩
  | cons kv rest ih =>
    intro saw out
    have hskip : ∀ saw1, ∃ s, s.Sublist (kv :: rest).reverse ∧
        dedupLoop rest saw1 out = s ++ out := by
      intro saw1
      obtain ⟨s, hs, he⟩ := ih saw1 out
      refine ⟨s, ?_, he⟩
      rw [List.reverse_cons]
      exact hs.trans (List.sublist_append_left _ _)
    have hkeep : ∀ saw1, ∃ s, s.Sublist (kv :: rest).reverse ∧
        dedupLoop rest saw1 (kv :: out) = s ++ out := by
      intro saw1
      obtain ⟨s, hs, he⟩ := ih saw1 (kv :: out)
      refine ⟨s ++ [kv], ?_, by rw [he]; simp⟩
      rw [List.reverse_cons]
      exact List.Sublist.append hs (List.Sublist.refl _)
    simp only [dedupLoop]
    by_cases hn : hasNul kv = true
    · simp only [hn, if_true]
      exact hskip saw
    · simp only [hn, Bool.false_eq_true, if_false]
      cases hk : envKey kv with
      | none =>
        simp only []
        by_cases he : kv = []
        · rw [if_pos he]
          exact hskip saw
        · rw [if_neg he]
          exact hkeep saw
      | some k =>
        simp only []
        by_cases h2 : k ∈ saw
        · simp only [h2, if_true]
          exact hskip saw
        · simp only [h2, if_false]
          exact hkeep _

/-- The entries the process receives are entries of the list given, in their order. -/
theorem dedupEnv_sublist (env : List GoString) : (dedupEnv env).Sublist env := by
  obtain ⟨s, hs, he⟩ := dedupLoop_sublist env.reverse [] []
  unfold dedupEnv
  rw [he, List.append_nil]
  simpa using hs

theorem dedupLoop_with_key (key t : GoString) (l : List GoString) :
    ∀ saw saw1 out, (∀ k, k ∈ saw1 ↔ k ∈ saw ∨ k = key) →
      dedupLoop l saw1 (out.filter (fun e => decide (envKey e ≠ some key)) ++ [t])
        = (dedupLoop l saw out).filter (fun e => decide (envKey e ≠ some key)) ++ [t] := by
  induction l with
  | nil => intro saw saw1 out _; rfl
  | cons kv rest ih =>
    intro saw saw1 out hs
    simp only [dedupLoop]
    by_cases hn : hasNul kv = true
    · simp only [hn, if_true]
      exact ih saw saw1 out hs
    · simp only [hn, Bool.false_eq_true, if_false]
      cases hk : envKey kv with
      | none =>
        simp only []
        by_cases he : kv = []
        · simp only [he, if_true]
          exact ih saw saw1 out hs
        · simp only [he, if_false]
          have hf : (kv :: out).filter (fun e => decide (envKey e ≠ some key))
              = kv :: out.filter (fun e => decide (envKey e ≠ some key)) := by
            simp [List.filter_cons, hk]
          have := ih saw saw1 (kv :: out) hs
          rw [hf] at this
          exact this
      | some k =>
        simp only []
        by_cases hkk : k = key
        · subst hkk
          have h1 : k ∈ saw1 := (hs k).mpr (Or.inr rfl)
          simp only [h1, if_true]
          by_cases h2 : k ∈ saw
          · simp only [h2, if_true]
            exact ih saw saw1 out hs
          · simp only [h2, if_false]
            have hf : (kv :: out).filter (fun e => decide (envKey e ≠ some k))
                = out.filter (fun e => decide (envKey e ≠ some k)) := by
              simp [List.filter_cons, hk]
            have := ih (k :: saw) saw1 (kv :: out) (by
              intro k1
              rw [hs k1]
              simp only [List.mem_cons]
              tauto)
            rw [hf] at this
            exact this
        · have hiff : k ∈ saw1 ↔ k ∈ saw := by
            rw [hs k]
            exact ⟨fun h => h.resolve_right hkk, Or.inl⟩
          by_cases h2 : k ∈ saw
          · have h1 : k ∈ saw1 := hiff.mpr h2
            simp only [h1, h2, if_true]
            exact ih saw saw1 out hs
          · have h1 : k ∉ saw1 := fun h => h2 (hiff.mp h)
            simp only [h1, h2, if_false]
            have hf : (kv :: out).filter (fun e => decide (envKey e ≠ some key))
                = kv :: out.filter (fun e => decide (envKey e ≠ some key)) := by
              simp [List.filter_cons, hk, hkk]
            have := ih (k :: saw) (k :: saw1) (kv :: out) (by
              intro k1
              simp only [List.mem_cons]
              rw [hs k1]
              tauto)
            rw [hf] at this
            exact this

/-- Appending an entry for a key: the process receives what it would receive without
it, less the entries for that key, and then the new entry. -/
theorem dedupEnv_append (env : List GoString) (key v : GoString) (hk : '=' ∉ key)
    (hne : key ≠ []) (hnul : hasNul (key ++ '=' :: v) = false) :
    dedupEnv (env ++ [key ++ '=' :: v])
      = (dedupEnv env).filter (fun e => decide (envKey e ≠ some key))
        ++ [key ++ '=' :: v] := by
  unfold dedupEnv
  rw [List.reverse_append, List.reverse_singleton, List.singleton_append]
  simp only [dedupLoop, hnul, Bool.false_eq_true, if_false, envKey_append key v hk hne,
    List.not_mem_nil]
  have := dedupLoop_with_key key (key ++ '=' :: v) env.reverse [] [key] [] (by
    intro k
    simp)
  simpa using this

/-! ## The payload builder -/

/-- What a successful `buildJSONRPCPayload` returns: the bytes of the compact text
of the envelope, whose `params` holds `arguments` exactly when the map is not empty. -/
theorem buildJSONRPCPayload_ok (lib : Lib) (reader : Bytes) (tool : GoString)
    (args : Option (List (GoString × GoValue))) (payload : Bytes)
    (h : buildJSONRPCPayload lib reader tool args = .ok payload) :
    ∃ ps, payload = utf8Encode (expectedEnvelope (randomID reader) tool ps).render ∧
      ((mapLen args = 0 ∧ ps = []) ∨
        (∃ m j, args = some m ∧ mapLen args ≠ 0 ∧ GoValue.toJSON lib (.map m) = .ok j ∧
          ps = [("arguments".toList, j)])) := by
  unfold buildJSONRPCPayload jsonMarshal jsonRPCRequest.toJSON requestParams.toJSON at h
  simp only [] at h
  cases args with
  | none =>
    simp only [Except.ok.injEq] at h
    exact ⟨[], h.symm, Or.inl ⟨rfl, rfl⟩⟩
  | some m =>
    by_cases hm : m.length = 0
    · simp only [hm, if_true, Except.ok.injEq] at h
      exact ⟨[], h.symm, Or.inl ⟨hm, rfl⟩⟩
    · simp only [hm, if_false] at h
      cases hj : GoValue.toJSON lib (.map m) with
      | error e => simp [hj] at h
      | ok j =>
        simp only [hj, Except.ok.injEq] at h
        exact ⟨[("arguments".toList, j)], h.symm, Or.inr ⟨m, j, rfl, hm, hj, rfl⟩⟩

/-! ## The handler, path by path -/

theorem callHandler_started (lib : Lib) (dflt : GoString) (timeout : Int) (w : World)
    (reqBody : Bytes) (body : callRequestBody) (payload : Bytes) (cmdName : GoString)
    (cmdArgs : List GoString) (h : Started lib dflt w reqBody body payload cmdName cmdArgs) :
    callHandler lib dflt timeout w reqBody =
      ((awaitBackend (w.run ⟨cmdName, cmdArgs, backendEnv w.environ body.GithubPAT⟩
          (payload ++ [10])) (deadlineAt timeout w.cancelAt) w.exitWinsTie).1,
        [.buildPayload, .start ⟨cmdName, cmdArgs, backendEnv w.environ body.GithubPAT⟩,
          .stdinWrite payload, .stdinWrite [10], .stdinClose] ++
        (awaitBackend (w.run ⟨cmdName, cmdArgs, backendEnv w.environ body.GithubPAT⟩
          (payload ++ [10])) (deadlineAt timeout w.cancelAt) w.exitWinsTie).2) := by
  unfold callHandler
  simp only [h.decoded, h.tool, h.built, h.fields, h.pipe, h.started, if_false]

theorem awaitBackend_events (r : Run) (deadline : Nat) (tie : Bool) :
    (awaitBackend r deadline tie).2 = [] ∨ (awaitBackend r deadline tie).2 = [.kill] := by
  unfold awaitBackend
  split
  · split <;> exact Or.inl rfl
  · exact Or.inr rfl

/-- Whenever the pipe can be opened, `cmd.Start()` is called once, on the command
made of the tokens of the command line and the environment of the request. -/
theorem startedCmds_of_pipe (lib : Lib) (dflt : GoString) (timeout : Int) (w : World)
    (reqBody : Bytes) (body : callRequestBody) (t0 : GoString) (ts : List GoString)
    (hdec : decodeBody lib reqBody = .ok body) (htool : body.Tool ≠ [])
    (hcmd : strings.Fields (if body.ServerCmd ≠ [] then body.ServerCmd else dflt) = t0 :: ts)
    (hpipe : w.stdinPipe = none) :
    startedCmds (callHandler lib dflt timeout w reqBody).2
      = [⟨t0, ts, backendEnv w.environ body.GithubPAT⟩] := by
  obtain ⟨payload, hpay⟩ := valid_request_builds lib w.random reqBody body hdec
  cases hs : w.start ⟨t0, ts, backendEnv w.environ body.GithubPAT⟩ with
  | some err =>
    unfold callHandler
    simp only [hdec, htool, hpay, hcmd, hpipe, hs, if_false]
    rfl
  | none =>
    rw [callHandler_started lib dflt timeout w reqBody body payload t0 ts
      ⟨hdec, htool, hpay, hcmd, hpipe, hs⟩]
    rcases awaitBackend_events (w.run ⟨t0, ts, backendEnv w.environ body.GithubPAT⟩
      (payload ++ [10])) (deadlineAt timeout w.cancelAt) w.exitWinsTie with h | h <;>
      simp only [h] <;> rfl

/-- When the pipe cannot be opened, nothing is started. -/
theorem startedCmds_of_no_pipe (lib : Lib) (dflt : GoString) (timeout : Int) (w : World)
    (reqBody : Bytes) (err : GoString) (hpipe : w.stdinPipe = some err) :
    startedCmds (callHandler lib dflt timeout w reqBody).2 = [] := by
  unfold callHandler
  split
  · rfl
  · split
    · rfl
    · split
      · rfl
      · split
        · rfl
        · simp only [hpipe]
          rfl

/-! ## Command line and environment -/

theorem fieldsAux_blank (s : GoString) (h : ∀ c ∈ s, isSpaceRune c = true) :
    fieldsAux s [] = [] := by
  induction s with
  | nil => rfl
  | cons c s ih =>
    have hc := h c (List.mem_cons_self _ _)
    simp only [fieldsAux, hc, if_true]
    exact ih fun d hd => h d (List.mem_cons_of_mem _ hd)

/-- A string of white space only (the empty string included) has no tokens. -/
theorem fields_blank (s : GoString) (h : ∀ c ∈ s, isSpaceRune c = true) :
    strings.Fields s = [] := fieldsAux_blank s h

theorem splitEntry_append (k v : GoString) (hk : '=' ∉ k) :
    splitEntry (k ++ '=' :: v) = some (k, v) := by
  induction k with
  | nil => simp [splitEntry]
  | cons c k ih =>
    have hc : c ≠ '=' := fun h => hk (h ▸ List.mem_cons_self _ _)
    have hk2 : '=' ∉ k := fun h => hk (List.mem_cons_of_mem _ h)
    have h2 := ih hk2
    show splitEntry (c :: (k ++ '=' :: v)) = some (c :: k, v)
    simp only [splitEntry, hc, if_false, h2]

/-- The last entry for a variable is the one in force. -/
theorem lookupEnv_append (key v : GoString) (env : List GoString) (hk : '=' ∉ key) :
    lookupEnv key (env ++ [key ++ '=' :: v]) = some v := by
  induction env with
  | nil => simp [lookupEnv, splitEntry_append key v hk]
  | cons e es ih =>
    show lookupEnv key (e :: (es ++ [key ++ '=' :: v])) = some v
    simp only [lookupEnv, ih]

/-! ## The properties -/

/-- Whenever `buildJSONRPCPayload` succeeds, its bytes decode to an object with the
members of the envelope; `params.arguments` is present exactly when the argument map
is not empty, and is then the document the encoder writes for that map. -/
theorem envelope_fields (lib : Lib) (reader : Bytes) (tool : GoString)
    (args : Option (List (GoString × GoValue))) (payload : Bytes)
    (h : buildJSONRPCPayload lib reader tool args = .ok payload) :
    ∃ doc params, jsonDecode payload = some doc ∧
      doc.field "jsonrpc".toList = some (.str "2.0".toList) ∧
      doc.field "method".toList = some (.str "tools/call".toList) ∧
      doc.field "params".toList = some params ∧
      params.field "name".toList = some (.str tool) ∧
      ((params.field "arguments".toList).isSome = true ↔ mapLen args ≠ 0) ∧
      ∀ j, params.field "arguments".toList = some j →
        ∃ m, args = some m ∧ GoValue.toJSON lib (.map m) = .ok j := by
  obtain ⟨ps, hp, hps⟩ := buildJSONRPCPayload_ok lib reader tool args payload h
  subst hp
  refine ⟨_, .obj (("name".toList, .str tool) :: ps), jsonDecode_render _, rfl, rfl, rfl, ?_⟩
  rcases hps with ⟨hlen, rfl⟩ | ⟨m, j, rfl, hlen, hj, rfl⟩
  · refine ⟨rfl, ?_, ?_⟩
    · constructor
      · intro h1; cases h1
      · intro h1; exact absurd hlen h1
    · intro j hj; cases hj
  · refine ⟨rfl, ?_, ?_⟩
    · constructor
      · intro _; exact hlen
      · intro _; rfl
    · intro j2 hj2
      have : j = j2 := by
        have h3 : some j = some j2 := hj2
        exact Option.some.inj h3
      subst this
      exact ⟨m, rfl, hj⟩

/-- C1. Whenever `buildJSONRPCPayload` succeeds (for any tool name, the non-empty ones
included, and any argument map, given as a list of entries with distinct keys), its
bytes decode to an object with `jsonrpc` equal to "2.0", `method` equal to
"tools/call" and `params.name` equal to the tool name; the key `params.arguments` is
present exactly when the argument map is not empty (a nil map and an empty map both
omit it), and reading its value back into an `interface{}` gives the argument map
itself, its entries in key order. The float64 conversions are assumed to read back
what they write. -/
theorem envelope_shape (lib : Lib) (reader : Bytes) (tool : GoString)
    (args : Option (List (GoString × GoValue))) (payload : Bytes)
    (hlib : lib.RoundTrips) (hwf : wellFormedArgs args = true)
    (h : buildJSONRPCPayload lib reader tool args = .ok payload) :
    ∃ doc params, jsonDecode payload = some doc ∧
      doc.field "jsonrpc".toList = some (.str "2.0".toList) ∧
      doc.field "method".toList = some (.str "tools/call".toList) ∧
      doc.field "params".toList = some params ∧
      params.field "name".toList = some (.str tool) ∧
      ((params.field "arguments".toList).isSome = true ↔ mapLen args ≠ 0) ∧
      ∀ j, params.field "arguments".toList = some j →
        ∃ m, args = some m ∧ GoValue.ofJSON lib j = some (GoValue.canon (.map m)) := by
  obtain ⟨doc, params, h1, h2, h3, h4, h5, h6, h7⟩ :=
    envelope_fields lib reader tool args payload h
  refine ⟨doc, params, h1, h2, h3, h4, h5, h6, ?_⟩
  intro j hj
  obtain ⟨m, hm, hjs⟩ := h7 j hj
  subst hm
  exact ⟨m, rfl, ofJSON_toJSON lib hlib (.map m) j hwf hjs⟩

/-- Witness for C1: the envelope built for the tool `x` with `exampleArgs`, whose
entries are not in key order and hold a string with a line feed, a nested map, a
slice and a float64. -/
theorem envelope_shape_witness :
    exampleLib.RoundTrips ∧
    wellFormedArgs (some exampleArgs) = true ∧
    buildJSONRPCPayload exampleLib [1, 2, 3] "x".toList (some exampleArgs)
      = .ok (utf8Encode ("\x7b\"jsonrpc\":\"2.0\",\"id\":66051,\"method\":\"tools/call\","
          ++ "\"params\":\x7b\"name\":\"x\",\"arguments\":\x7b"
          ++ "\"a\":[null,true,4609434218613702656],\"k\":\"v\\n\","
          ++ "\"m\":\x7b\"b\":null,\"z\":false\x7d\x7d\x7d\x7d").toList) ∧
    GoValue.canon (.map exampleArgs)
      = .map [("a".toList, .slice [.nil, .bool true, .float64 exampleFloat]),
          ("k".toList, .string "v\n".toList),
          ("m".toList, .map [("b".toList, .nil), ("z".toList, .bool false)])] ∧
    ∃ doc params,
      jsonDecode (utf8Encode ("\x7b\"jsonrpc\":\"2.0\",\"id\":66051,\"method\":\"tools/call\","
          ++ "\"params\":\x7b\"name\":\"x\",\"arguments\":\x7b"
          ++ "\"a\":[null,true,4609434218613702656],\"k\":\"v\\n\","
          ++ "\"m\":\x7b\"b\":null,\"z\":false\x7d\x7d\x7d\x7d").toList)
        = some doc ∧
      doc.field "jsonrpc".toList = some (.str "2.0".toList) ∧
      doc.field "method".toList = some (.str "tools/call".toList) ∧
      doc.field "params".toList = some params ∧
      params.field "name".toList = some (.str "x".toList) ∧
      ((params.field "arguments".toList).isSome = true ↔ mapLen (some exampleArgs) ≠ 0) ∧
      ∀ j, params.field "arguments".toList = some j →
        ∃ m, some exampleArgs = some m ∧
          GoValue.ofJSON exampleLib j = some (GoValue.canon (.map m)) :=
  ⟨exampleLib_roundTrips, by decide, rfl, rfl,
    envelope_shape exampleLib [1, 2, 3] "x".toList (some exampleArgs) _
      exampleLib_roundTrips (by decide) rfl⟩

/-- C2. A request whose body does not decode, or decodes with an empty tool name, is
answered with status 400, and the handler neither builds a payload nor starts a
process (it performs no effect at all). -/
theorem malformed_request (lib : Lib) (dflt : GoString) (timeout : Int) (w : World)
    (reqBody : Bytes)
    (h : (∃ e, decodeBody lib reqBody = .error e) ∨
      (∃ b, decodeBody lib reqBody = .ok b ∧ b.Tool = [])) :
    (callHandler lib dflt timeout w reqBody).1.status = 400 ∧
    (callHandler lib dflt timeout w reqBody).2 = [] := by
  unfold callHandler
  rcases h with ⟨e, he⟩ | ⟨b, hb, ht⟩
  · simp only [he]
    constructor <;> first | rfl | trivial
  · simp only [hb, ht, if_true]
    constructor <;> first | rfl | trivial

/-- Witness for C2: the body `{}` decodes with an empty tool name, the body `tool=x`
does not decode; both get 400 and no effect. -/
theorem malformed_request_witness :
    (((∃ e, decodeBody exampleLib (utf8Encode "\x7b\x7d".toList) = .error e) ∨
      (∃ b, decodeBody exampleLib (utf8Encode "\x7b\x7d".toList) = .ok b ∧ b.Tool = [])) ∧
      (callHandler exampleLib exampleServerCmd 25000000000 (exampleWorld echoBackend)
        (utf8Encode "\x7b\x7d".toList)).1.status = 400 ∧
      (callHandler exampleLib exampleServerCmd 25000000000 (exampleWorld echoBackend)
        (utf8Encode "\x7b\x7d".toList)).2 = []) ∧
    (((∃ e, decodeBody exampleLib (utf8Encode "tool=x".toList) = .error e) ∨
      (∃ b, decodeBody exampleLib (utf8Encode "tool=x".toList) = .ok b ∧ b.Tool = [])) ∧
      (callHandler exampleLib exampleServerCmd 25000000000 (exampleWorld echoBackend)
        (utf8Encode "tool=x".toList)).1.status = 400 ∧
      (callHandler exampleLib exampleServerCmd 25000000000 (exampleWorld echoBackend)
        (utf8Encode "tool=x".toList)).2 = []) :=
  ⟨⟨Or.inr ⟨callRequestBody.zero, rfl, rfl⟩,
      malformed_request exampleLib exampleServerCmd 25000000000 (exampleWorld echoBackend)
        (utf8Encode "\x7b\x7d".toList) (Or.inr ⟨callRequestBody.zero, rfl, rfl⟩)⟩,
    ⟨Or.inl ⟨.syntaxError, rfl⟩,
      malformed_request exampleLib exampleServerCmd 25000000000 (exampleWorld echoBackend)
        (utf8Encode "tool=x".toList) (Or.inl ⟨.syntaxError, rfl⟩)⟩⟩

/-- The example request, in the example world, gets its backend started with the
default command line. -/
theorem example_started (behaviour : Cmd → Bytes → Run) :
    Started exampleLib exampleServerCmd (exampleWorld behaviour) exampleRequest exampleBody
      examplePayload "./github-mcp-server".toList ["stdio".toList] :=
  ⟨rfl, by decide,
    show buildJSONRPCPayload exampleLib [1, 2, 3] "x".toList none = .ok examplePayload from rfl,
    by decide, rfl, rfl⟩

/-- C3. When the backend of a valid request is started and exits by itself with status
zero before the deadline, having written `out` to its standard output, the response
has status 200, content type `application/json` and the body `out`, byte for byte; so
with a backend that echoes its input the body begins with the envelope that was sent. -/
theorem success_relays_stdout (lib : Lib) (dflt : GoString) (timeout : Int) (w : World)
    (reqBody : Bytes) (body : callRequestBody) (payload : Bytes) (cmdName : GoString)
    (cmdArgs : List GoString) (out errOut : Bytes) (t : Nat)
    (hs : Started lib dflt w reqBody body payload cmdName cmdArgs)
    (hrun : w.run ⟨cmdName, cmdArgs, backendEnv w.environ body.GithubPAT⟩ (payload ++ [10])
      = ⟨out, errOut, some (t, .exited 0)⟩)
    (ht : t < deadlineAt timeout w.cancelAt) :
    (callHandler lib dflt timeout w reqBody).1
        = ⟨200, "application/json".toList, out⟩ ∧
      (out = stdinBytes (callHandler lib dflt timeout w reqBody).2 →
        payload <+: (callHandler lib dflt timeout w reqBody).1.body) := by
  rw [callHandler_started lib dflt timeout w reqBody body payload cmdName cmdArgs hs, hrun]
  have ha : awaitBackend ⟨out, errOut, some (t, .exited 0)⟩ (deadlineAt timeout w.cancelAt)
      w.exitWinsTie = (⟨200, "application/json".toList, out⟩, []) := by
    simp [awaitBackend, selectBranch, ht, waitError]
  rw [ha]
  refine ⟨rfl, ?_⟩
  intro hout
  have hb : stdinBytes ([Event.buildPayload,
      Event.start ⟨cmdName, cmdArgs, backendEnv w.environ body.GithubPAT⟩,
      Event.stdinWrite payload, Event.stdinWrite [10], Event.stdinClose] ++ [])
      = payload ++ [10] := by
    simp [stdinBytes]
  show payload <+: out
  rw [hout, hb]
  exact List.prefix_append _ _

/-- Witness for C3: the request with the tool `x` and a backend that echoes its input. -/
theorem success_relays_stdout_witness :
    Started exampleLib exampleServerCmd (exampleWorld echoBackend) exampleRequest exampleBody
      examplePayload "./github-mcp-server".toList ["stdio".toList] ∧
    (exampleWorld echoBackend).run ⟨"./github-mcp-server".toList, ["stdio".toList],
        backendEnv (exampleWorld echoBackend).environ exampleBody.GithubPAT⟩
        (examplePayload ++ [10])
      = ⟨examplePayload ++ [10], [], some (5, .exited 0)⟩ ∧
    5 < deadlineAt 25000000000 (exampleWorld echoBackend).cancelAt ∧
    (callHandler exampleLib exampleServerCmd 25000000000 (exampleWorld echoBackend)
        exampleRequest).1 = ⟨200, "application/json".toList, examplePayload ++ [10]⟩ ∧
    (examplePayload ++ [10] = stdinBytes (callHandler exampleLib exampleServerCmd
        25000000000 (exampleWorld echoBackend) exampleRequest).2 →
      examplePayload <+: (callHandler exampleLib exampleServerCmd 25000000000
        (exampleWorld echoBackend) exampleRequest).1.body) :=
  ⟨example_started echoBackend, rfl, by decide,
    success_relays_stdout exampleLib exampleServerCmd 25000000000 (exampleWorld echoBackend)
      exampleRequest exampleBody examplePayload "./github-mcp-server".toList
      ["stdio".toList] (examplePayload ++ [10]) [] 5 (example_started echoBackend) rfl
      (by decide)⟩

/-- C4. When the backend of a valid request exits by itself before the deadline and
`cmd.Wait` returns an error `desc` (a non-zero exit status, or another failure of the
wait), having written `errOut` to its standard error, the response has status 500 and
its body contains both `desc` and `errOut`. -/
theorem failure_reports_stderr (lib : Lib) (dflt : GoString) (timeout : Int) (w : World)
    (reqBody : Bytes) (body : callRequestBody) (payload : Bytes) (cmdName : GoString)
    (cmdArgs : List GoString) (out errOut : Bytes) (t : Nat) (ex : ProcExit)
    (desc : GoString)
    (hs : Started lib dflt w reqBody body payload cmdName cmdArgs)
    (hrun : w.run ⟨cmdName, cmdArgs, backendEnv w.environ body.GithubPAT⟩ (payload ++ [10])
      = ⟨out, errOut, some (t, ex)⟩)
    (hex : waitError ex = some desc)
    (ht : t < deadlineAt timeout w.cancelAt) :
    (callHandler lib dflt timeout w reqBody).1.status = 500 ∧
      utf8Encode desc <:+: (callHandler lib dflt timeout w reqBody).1.body ∧
      errOut <:+: (callHandler lib dflt timeout w reqBody).1.body := by
  rw [callHandler_started lib dflt timeout w reqBody body payload cmdName cmdArgs hs, hrun]
  have ha : awaitBackend ⟨out, errOut, some (t, ex)⟩ (deadlineAt timeout w.cancelAt)
      w.exitWinsTie = (httpError (utf8Encode ("subprocess error: ".toList ++ desc
        ++ ", stderr: ".toList) ++ errOut) 500, []) := by
    simp [awaitBackend, selectBranch, ht, hex]
  rw [ha]
  have henc : ∀ a b : GoString, utf8Encode (a ++ b) = utf8Encode a ++ utf8Encode b := by
    intro a b
    induction a with
    | nil => rfl
    | cons c a ih => simp [utf8Encode, ih]
  refine ⟨rfl, ?_, ?_⟩
  · show utf8Encode desc <:+: (utf8Encode ("subprocess error: ".toList ++ desc
        ++ ", stderr: ".toList) ++ errOut) ++ [10]
    rw [henc, henc]
    exact ⟨utf8Encode "subprocess error: ".toList,
      utf8Encode ", stderr: ".toList ++ errOut ++ [10], by simp⟩
  · show errOut <:+: (utf8Encode ("subprocess error: ".toList ++ desc
        ++ ", stderr: ".toList) ++ errOut) ++ [10]
    exact ⟨_, [10], rfl⟩

/-- Witness for C4: a backend that writes "boom" to standard error and exits 1. -/
theorem failure_reports_stderr_witness :
    Started exampleLib exampleServerCmd (exampleWorld boomBackend) exampleRequest exampleBody
      examplePayload "./github-mcp-server".toList ["stdio".toList] ∧
    (exampleWorld boomBackend).run ⟨"./github-mcp-server".toList, ["stdio".toList],
        backendEnv (exampleWorld boomBackend).environ exampleBody.GithubPAT⟩
        (examplePayload ++ [10])
      = ⟨[], utf8Encode "boom".toList, some (5, .exited 1)⟩ ∧
    waitError (.exited 1) = some "exit status 1".toList ∧
    5 < deadlineAt 25000000000 (exampleWorld boomBackend).cancelAt ∧
    (callHandler exampleLib exampleServerCmd 25000000000 (exampleWorld boomBackend)
        exampleRequest).1.status = 500 ∧
    utf8Encode "exit status 1".toList <:+: (callHandler exampleLib exampleServerCmd
        25000000000 (exampleWorld boomBackend) exampleRequest).1.body ∧
    utf8Encode "boom".toList <:+: (callHandler exampleLib exampleServerCmd
        25000000000 (exampleWorld boomBackend) exampleRequest).1.body :=
  ⟨example_started boomBackend, rfl, rfl, by decide,
    failure_reports_stderr exampleLib exampleServerCmd 25000000000 (exampleWorld boomBackend)
      exampleRequest exampleBody examplePayload "./github-mcp-server".toList
      ["stdio".toList] [] (utf8Encode "boom".toList) 5 (.exited 1) "exit status 1".toList
      (example_started boomBackend) rfl rfl (by decide)⟩

/-- C5. When the backend of a valid request is started and the deadline (the timeout,
or the cancellation of the request if that comes first) passes before the backend
exits by itself, the handler kills the backend and answers 504, not 500 and not 200. -/
theorem deadline_kills (lib : Lib) (dflt : GoString) (timeout : Int) (w : World)
    (reqBody : Bytes) (body : callRequestBody) (payload : Bytes) (cmdName : GoString)
    (cmdArgs : List GoString)
    (hs : Started lib dflt w reqBody body payload cmdName cmdArgs)
    (hlate : ∀ t ex, (w.run ⟨cmdName, cmdArgs, backendEnv w.environ body.GithubPAT⟩
      (payload ++ [10])).exit = some (t, ex) → deadlineAt timeout w.cancelAt < t) :
    (callHandler lib dflt timeout w reqBody).1.status = 504 ∧
      killed (callHandler lib dflt timeout w reqBody).2 = true := by
  rw [callHandler_started lib dflt timeout w reqBody body payload cmdName cmdArgs hs]
  have ha : awaitBackend (w.run ⟨cmdName, cmdArgs, backendEnv w.environ body.GithubPAT⟩
      (payload ++ [10])) (deadlineAt timeout w.cancelAt) w.exitWinsTie
      = (httpError (utf8Encode "subprocess timed out".toList) 504, [.kill]) := by
    cases hexit : (w.run ⟨cmdName, cmdArgs, backendEnv w.environ body.GithubPAT⟩
        (payload ++ [10])).exit with
    | none => simp [awaitBackend, selectBranch, hexit]
    | some p =>
      obtain ⟨t, ex⟩ := p
      have hlt := hlate t ex hexit
      have h1 : ¬ t < deadlineAt timeout w.cancelAt := by omega
      simp [awaitBackend, selectBranch, hexit, h1, hlt]
  rw [ha]
  exact ⟨rfl, rfl⟩

/-- Witness for C5: a backend that never exits, and one that would exit at time 5
under a deadline of 3. -/
theorem deadline_kills_witness :
    (Started exampleLib exampleServerCmd (exampleWorld sleepingBackend) exampleRequest
        exampleBody examplePayload "./github-mcp-server".toList ["stdio".toList] ∧
      (∀ t ex, ((exampleWorld sleepingBackend).run ⟨"./github-mcp-server".toList,
          ["stdio".toList],
          backendEnv (exampleWorld sleepingBackend).environ exampleBody.GithubPAT⟩
          (examplePayload ++ [10])).exit = some (t, ex) →
        deadlineAt 1000000000 (exampleWorld sleepingBackend).cancelAt < t) ∧
      (callHandler exampleLib exampleServerCmd 1000000000 (exampleWorld sleepingBackend)
        exampleRequest).1.status = 504 ∧
      killed (callHandler exampleLib exampleServerCmd 1000000000
        (exampleWorld sleepingBackend) exampleRequest).2 = true) ∧
    (Started exampleLib exampleServerCmd (exampleWorld echoBackend) exampleRequest
        exampleBody examplePayload "./github-mcp-server".toList ["stdio".toList] ∧
      (∀ t ex, ((exampleWorld echoBackend).run ⟨"./github-mcp-server".toList,
          ["stdio".toList],
          backendEnv (exampleWorld echoBackend).environ exampleBody.GithubPAT⟩
          (examplePayload ++ [10])).exit = some (t, ex) →
        deadlineAt 3 (exampleWorld echoBackend).cancelAt < t) ∧
      (callHandler exampleLib exampleServerCmd 3 (exampleWorld echoBackend)
        exampleRequest).1.status = 504 ∧
      killed (callHandler exampleLib exampleServerCmd 3
        (exampleWorld echoBackend) exampleRequest).2 = true) :=
  ⟨⟨example_started sleepingBackend,
      (fun t ex h => by
        have h2 : (none : Option (Nat × ProcExit)) = some (t, ex) := h
        cases h2),
      deadline_kills exampleLib exampleServerCmd 1000000000 (exampleWorld sleepingBackend)
        exampleRequest exampleBody examplePayload "./github-mcp-server".toList
        ["stdio".toList] (example_started sleepingBackend)
        (fun t ex h => by
          have h2 : (none : Option (Nat × ProcExit)) = some (t, ex) := h
          cases h2)⟩,
    ⟨example_started echoBackend,
      (fun t ex h => by
        have h2 : some ((5 : Nat), ProcExit.exited 0) = some (t, ex) := h
        cases h2
        decide),
      deadline_kills exampleLib exampleServerCmd 3 (exampleWorld echoBackend)
        exampleRequest exampleBody examplePayload "./github-mcp-server".toList
        ["stdio".toList] (example_started echoBackend)
        (fun t ex h => by
          have h2 : some ((5 : Nat), ProcExit.exited 0) = some (t, ex) := h
          cases h2
          decide)⟩⟩

/-- C6. For a valid request, the command line is the request's
`server_cmd` when that is not empty and the default otherwise; when it splits on white
space into `t0 :: ts`, every process the handler starts has the executable `t0` and the
arguments `ts`, and whenever the pipe can be opened exactly one such process is
started. -/
theorem command_override (lib : Lib) (dflt : GoString) (timeout : Int) (w : World)
    (reqBody : Bytes) (body : callRequestBody) (t0 : GoString) (ts : List GoString)
    (hdec : decodeBody lib reqBody = .ok body) (htool : body.Tool ≠ [])
    (hcmd : strings.Fields (if body.ServerCmd ≠ [] then body.ServerCmd else dflt)
      = t0 :: ts) :
    (∀ c ∈ startedCmds (callHandler lib dflt timeout w reqBody).2,
        c.name = t0 ∧ c.args = ts) ∧
      (w.stdinPipe = none →
        ∃ c, startedCmds (callHandler lib dflt timeout w reqBody).2 = [c] ∧
          c.name = t0 ∧ c.args = ts) := by
  cases hp : w.stdinPipe with
  | some err =>
    rw [startedCmds_of_no_pipe lib dflt timeout w reqBody err hp]
    exact ⟨fun c hc => absurd hc (List.not_mem_nil c), fun h => nomatch h⟩
  | none =>
    rw [startedCmds_of_pipe lib dflt timeout w reqBody body t0 ts hdec htool hcmd hp]
    refine ⟨?_, fun _ => ⟨_, rfl, rfl, rfl⟩⟩
    intro c hc
    rw [List.mem_singleton] at hc
    subst hc
    exact ⟨rfl, rfl⟩

/-- The decoded form of `exampleOverrideRequest`. -/
theorem exampleOverride_decoded :
    decodeBody exampleLib exampleOverrideRequest
      = .ok ⟨"x".toList, none, "/bin/echo  hi there".toList, []⟩ := rfl

/-- Witness for C6: a request with `server_cmd` set to `/bin/echo  hi there` starts
`/bin/echo` with the arguments `hi`, `there`, not the default command. -/
theorem command_override_witness :
    decodeBody exampleLib exampleOverrideRequest
      = .ok ⟨"x".toList, none, "/bin/echo  hi there".toList, []⟩ ∧
    "x".toList ≠ [] ∧
    strings.Fields (if "/bin/echo  hi there".toList ≠ [] then "/bin/echo  hi there".toList
        else exampleServerCmd) = "/bin/echo".toList :: ["hi".toList, "there".toList] ∧
    (∀ c ∈ startedCmds (callHandler exampleLib exampleServerCmd 25000000000
        (exampleWorld echoBackend) exampleOverrideRequest).2,
      c.name = "/bin/echo".toList ∧ c.args = ["hi".toList, "there".toList]) ∧
    ((exampleWorld echoBackend).stdinPipe = none →
      ∃ c, startedCmds (callHandler exampleLib exampleServerCmd 25000000000
          (exampleWorld echoBackend) exampleOverrideRequest).2 = [c] ∧
        c.name = "/bin/echo".toList ∧ c.args = ["hi".toList, "there".toList]) :=
  ⟨rfl, by decide, by decide,
    command_override exampleLib exampleServerCmd 25000000000 (exampleWorld echoBackend)
      exampleOverrideRequest ⟨"x".toList, none, "/bin/echo  hi there".toList, []⟩
      "/bin/echo".toList ["hi".toList, "there".toList]
      exampleOverride_decoded (by decide) (by decide)⟩

/-- C7. For a valid request whose command line (the request's `server_cmd` when not
empty, the default otherwise) is empty or white space only, the response is the one
of an invalid command, with status 500, and no process is started. -/
theorem blank_command (lib : Lib) (dflt : GoString) (timeout : Int) (w : World)
    (reqBody : Bytes) (body : callRequestBody)
    (hdec : decodeBody lib reqBody = .ok body) (htool : body.Tool ≠ [])
    (hblank : ∀ c ∈ (if body.ServerCmd ≠ [] then body.ServerCmd else dflt),
      isSpaceRune c = true) :
    (callHandler lib dflt timeout w reqBody).1
        = httpError (utf8Encode "invalid server command".toList) 500 ∧
      (callHandler lib dflt timeout w reqBody).1.status = 500 ∧
      startedCmds (callHandler lib dflt timeout w reqBody).2 = [] := by
  have hf := fields_blank _ hblank
  obtain ⟨payload, hp⟩ := valid_request_builds lib w.random reqBody body hdec
  have h : callHandler lib dflt timeout w reqBody
      = (httpError (utf8Encode "invalid server command".toList) 500, [.buildPayload]) := by
    unfold callHandler
    simp only [hdec, htool, hp, hf, if_false]
  rw [h]
  exact ⟨rfl, rfl, rfl⟩

/-- The decoded form of `exampleBlankRequest`. -/
theorem exampleBlank_decoded :
    decodeBody exampleLib exampleBlankRequest
      = .ok ⟨"x".toList, none, [' ', '\t', ' '], []⟩ := rfl

/-- Witness for C7: a request whose `server_cmd` is a blank, a tab and a blank. -/
theorem blank_command_witness :
    decodeBody exampleLib exampleBlankRequest
      = .ok ⟨"x".toList, none, [' ', '\t', ' '], []⟩ ∧
    "x".toList ≠ [] ∧
    (∀ c ∈ (if [' ', '\t', ' '] ≠ [] then [' ', '\t', ' '] else exampleServerCmd),
      isSpaceRune c = true) ∧
    (callHandler exampleLib exampleServerCmd 25000000000 (exampleWorld echoBackend)
        exampleBlankRequest).1
      = httpError (utf8Encode "invalid server command".toList) 500 ∧
    (callHandler exampleLib exampleServerCmd 25000000000 (exampleWorld echoBackend)
        exampleBlankRequest).1.status = 500 ∧
    startedCmds (callHandler exampleLib exampleServerCmd 25000000000
        (exampleWorld echoBackend) exampleBlankRequest).2 = [] :=
  ⟨rfl, by decide, by decide,
    blank_command exampleLib exampleServerCmd 25000000000 (exampleWorld echoBackend)
      exampleBlankRequest ⟨"x".toList, none, [' ', '\t', ' '], []⟩
      exampleBlank_decoded (by decide) (by decide)⟩

/-- C8, as amended. For a valid request with a command line that has tokens, whose
pipe is opened and whose `github_pat` holds no NUL, `cmd.Start()` is called once. The list
assigned to `cmd.Env` is the inherited list itself when `github_pat` is empty, and the
inherited list followed by the single entry `GITHUB_PERSONAL_ACCESS_TOKEN=` ++
`github_pat` otherwise. The process receives that list with only the last entry of
each key kept: with an empty `github_pat` what it would receive from the inherited
list; otherwise that less the entries for `GITHUB_PERSONAL_ACCESS_TOKEN`, which are
entries of the inherited list in their order, followed by the new entry, so that the
variable resolves to `github_pat` whatever the inherited list holds. -/
theorem token_override (lib : Lib) (dflt : GoString) (timeout : Int) (w : World)
    (reqBody : Bytes) (body : callRequestBody) (t0 : GoString) (ts : List GoString)
    (hdec : decodeBody lib reqBody = .ok body) (htool : body.Tool ≠ [])
    (hcmd : strings.Fields (if body.ServerCmd ≠ [] then body.ServerCmd else dflt)
      = t0 :: ts)
    (hpipe : w.stdinPipe = none) (hnul : Char.ofNat 0 ∉ body.GithubPAT) :
    ∃ c, startedCmds (callHandler lib dflt timeout w reqBody).2 = [c] ∧
      (body.GithubPAT = [] →
        c.env = w.environ ∧ processEnv c = dedupEnv w.environ) ∧
      (body.GithubPAT ≠ [] →
        c.env = w.environ ++ ["GITHUB_PERSONAL_ACCESS_TOKEN=".toList ++ body.GithubPAT] ∧
        processEnv c
          = (dedupEnv w.environ).filter
              (fun e => decide (envKey e ≠ some "GITHUB_PERSONAL_ACCESS_TOKEN".toList))
            ++ ["GITHUB_PERSONAL_ACCESS_TOKEN=".toList ++ body.GithubPAT] ∧
        ((dedupEnv w.environ).filter
            (fun e => decide (envKey e ≠ some "GITHUB_PERSONAL_ACCESS_TOKEN".toList))).Sublist
          w.environ ∧
        lookupEnv "GITHUB_PERSONAL_ACCESS_TOKEN".toList (processEnv c)
          = some body.GithubPAT) := by
  refine ⟨_, startedCmds_of_pipe lib dflt timeout w reqBody body t0 ts hdec htool hcmd
    hpipe, ?_, ?_⟩
  · intro h
    have he : backendEnv w.environ body.GithubPAT = w.environ := by
      simp [backendEnv, h]
    exact ⟨he, by simp only [processEnv, he]⟩
  · intro h
    have he : backendEnv w.environ body.GithubPAT
        = w.environ ++ ["GITHUB_PERSONAL_ACCESS_TOKEN".toList ++ '=' :: body.GithubPAT] := by
      simp [backendEnv, h, tokenVar]
    have hn : hasNul ("GITHUB_PERSONAL_ACCESS_TOKEN".toList ++ '=' :: body.GithubPAT)
        = false := by
      simp only [hasNul, decide_eq_false_iff_not, List.mem_append, List.mem_cons, not_or]
      exact ⟨by decide, by decide, hnul⟩
    have hp : processEnv ⟨t0, ts, backendEnv w.environ body.GithubPAT⟩
        = (dedupEnv w.environ).filter
            (fun e => decide (envKey e ≠ some "GITHUB_PERSONAL_ACCESS_TOKEN".toList))
          ++ ["GITHUB_PERSONAL_ACCESS_TOKEN".toList ++ '=' :: body.GithubPAT] := by
      simp only [processEnv, he]
      exact dedupEnv_append _ _ _ (by decide) (by decide) hn
    refine ⟨?_, ?_, ?_, ?_⟩
    · show backendEnv w.environ body.GithubPAT = _
      rw [he]
      rfl
    · rw [hp]
      rfl
    · exact (List.filter_sublist _).trans (dedupEnv_sublist _)
    · rw [hp]
      exact lookupEnv_append _ _ _ (by decide)

/-- The decoded form of `exampleTokenRequest`. -/
theorem exampleToken_decoded :
    decodeBody exampleLib exampleTokenRequest
      = .ok ⟨"x".toList, none, [], "new".toList⟩ := rfl

/-- Witness for C8: the inherited environment already holds
`GITHUB_PERSONAL_ACCESS_TOKEN=old`, the request supplies `new`. -/
theorem token_override_witness :
    decodeBody exampleLib exampleTokenRequest = .ok ⟨"x".toList, none, [], "new".toList⟩ ∧
    "x".toList ≠ [] ∧
    strings.Fields (if ([] : GoString) ≠ [] then [] else exampleServerCmd)
      = "./github-mcp-server".toList :: ["stdio".toList] ∧
    (exampleWorld echoBackend).stdinPipe = none ∧
    Char.ofNat 0 ∉ "new".toList ∧
    ∃ c, startedCmds (callHandler exampleLib exampleServerCmd 25000000000
        (exampleWorld echoBackend) exampleTokenRequest).2 = [c] ∧
      ("new".toList = [] →
        c.env = (exampleWorld echoBackend).environ ∧
        processEnv c = dedupEnv (exampleWorld echoBackend).environ) ∧
      ("new".toList ≠ [] →
        c.env = (exampleWorld echoBackend).environ
          ++ ["GITHUB_PERSONAL_ACCESS_TOKEN=".toList ++ "new".toList] ∧
        processEnv c
          = (dedupEnv (exampleWorld echoBackend).environ).filter
              (fun e => decide (envKey e ≠ some "GITHUB_PERSONAL_ACCESS_TOKEN".toList))
            ++ ["GITHUB_PERSONAL_ACCESS_TOKEN=".toList ++ "new".toList] ∧
        ((dedupEnv (exampleWorld echoBackend).environ).filter
            (fun e => decide (envKey e ≠ some "GITHUB_PERSONAL_ACCESS_TOKEN".toList))).Sublist
          (exampleWorld echoBackend).environ ∧
        lookupEnv "GITHUB_PERSONAL_ACCESS_TOKEN".toList (processEnv c)
          = some "new".toList) :=
  ⟨rfl, by decide, by decide, rfl, by decide,
    token_override exampleLib exampleServerCmd 25000000000 (exampleWorld echoBackend)
      exampleTokenRequest ⟨"x".toList, none, [], "new".toList⟩
      "./github-mcp-server".toList ["stdio".toList] exampleToken_decoded (by decide)
      (by decide) rfl (by decide)⟩

/-- Counterexample to C8 as first stated. The inherited environment is `PATH=/bin`,
`GITHUB_PERSONAL_ACCESS_TOKEN=old` and the request supplies the token `new`: the
process receives `PATH=/bin`, `GITHUB_PERSONAL_ACCESS_TOKEN=new`. That is not the
inherited list followed by the new entry, and the inherited entry for the token is
not passed on. -/
theorem token_override_counterexample :
    (exampleWorld echoBackend).environ
      = ["PATH=/bin".toList, "GITHUB_PERSONAL_ACCESS_TOKEN=old".toList] ∧
    ∃ c, startedCmds (callHandler exampleLib exampleServerCmd 25000000000
        (exampleWorld echoBackend) exampleTokenRequest).2 = [c] ∧
      processEnv c = ["PATH=/bin".toList, "GITHUB_PERSONAL_ACCESS_TOKEN=new".toList] ∧
      processEnv c ≠ (exampleWorld echoBackend).environ
        ++ ["GITHUB_PERSONAL_ACCESS_TOKEN=new".toList] ∧
      ¬ ((exampleWorld echoBackend).environ <+: processEnv c) ∧
      "GITHUB_PERSONAL_ACCESS_TOKEN=old".toList ∉ processEnv c :=
  ⟨rfl, _, rfl, by decide, by decide, by decide, by decide⟩

/-- C9. For a valid request whose backend is started, the bytes written to the
backend's standard input before it is closed are the envelope followed by one line
feed, and the envelope holds no line feed: the backend receives exactly one line. -/
theorem stdin_single_line (lib : Lib) (dflt : GoString) (timeout : Int) (w : World)
    (reqBody : Bytes) (body : callRequestBody) (payload : Bytes) (cmdName : GoString)
    (cmdArgs : List GoString)
    (hs : Started lib dflt w reqBody body payload cmdName cmdArgs) :
    stdinBytes (callHandler lib dflt timeout w reqBody).2 = payload ++ [10] ∧
      10 ∉ payload := by
  constructor
  · rw [callHandler_started lib dflt timeout w reqBody body payload cmdName cmdArgs hs]
    simp [stdinBytes]
  · obtain ⟨ps, hp, -⟩ := buildJSONRPCPayload_ok lib w.random body.Tool body.Arguments
      payload hs.built
    rw [hp]
    exact render_bytes_no_newline _

/-- Witness for C9: the request with the tool `x`. -/
theorem stdin_single_line_witness :
    Started exampleLib exampleServerCmd (exampleWorld echoBackend) exampleRequest exampleBody
      examplePayload "./github-mcp-server".toList ["stdio".toList] ∧
    stdinBytes (callHandler exampleLib exampleServerCmd 25000000000
      (exampleWorld echoBackend) exampleRequest).2 = examplePayload ++ [10] ∧
    10 ∉ examplePayload :=
  ⟨example_started echoBackend,
    stdin_single_line exampleLib exampleServerCmd 25000000000 (exampleWorld echoBackend)
      exampleRequest exampleBody examplePayload "./github-mcp-server".toList
      ["stdio".toList] (example_started echoBackend)⟩

/-- C10. Whatever bytes the random reader yields, `randomID` is an integer `n` with
`0 ≤ n < 1000000`, and in every envelope `buildJSONRPCPayload` builds the `id` member
is the decimal text of that `n`. -/
theorem randomID_range (reader : Bytes) :
    0 ≤ randomID reader ∧ randomID reader < 1000000 ∧
      ∀ (lib : Lib) (tool : GoString) (args : Option (List (GoString × GoValue)))
        (payload : Bytes),
        buildJSONRPCPayload lib reader tool args = .ok payload →
        ∃ doc lit, jsonDecode payload = some doc ∧
          doc.field "id".toList = some (.num lit) ∧
          lit.val = Nat.toDigits 10 (randomID reader).toNat := by
  have hlt := randInt_lt reader 1000000 (by decide)
  have heq := randomID_eq reader
  refine ⟨by omega, by omega, ?_⟩
  intro lib tool args payload h
  obtain ⟨ps, hp, -⟩ := buildJSONRPCPayload_ok lib reader tool args payload h
  subst hp
  refine ⟨_, formatInt (randomID reader), jsonDecode_render _, rfl, ?_⟩
  rw [formatInt_val, intText, if_neg (by omega)]
  congr 1
  omega

end Bridge
